import Mathlib

/-!
Verification development for the Orpheus TTS engine
(`orpheus_engine.py`, `orpheus_settings.py`).

The Python source is shallowly embedded: strings are `List Char` /
`String`, byte strings are `List Nat` (each element < 256), machine
integers are `Nat`/`Int` with explicit `% 2^32` where 32-bit wrap-around
matters, and the regular-expression substitutions of `clean_text` are
embedded as deterministic scanners that reproduce the leftmost,
one-position-advance scanning discipline of CPython `re.sub` for the
specific patterns used by the source (for each of those patterns,
backtracking cannot extend the greedy character-class runs, so the
deterministic scanner is exact).

Unicode character classes used by CPython's `re` module in `str` mode
(`\s`, `\d`, `\w`) and by `str.split`/`str.strip` are embedded as
explicit code-point tables extracted from the CPython `unicodedata`
database: `\s` is the fixed 29-element white-space set, `\d` is the
`Nd` category (all of whose runs are aligned blocks of ten digits, so a
run's start determines each digit's value), and `\w` is the
alphanumeric-or-underscore set as a sorted range table.
-/

/-! ## Python character classes -/

/-- Code points matched by Python's `\s` (equally the `str.isspace` set). -/
def pySpaceCodes : List Nat :=
  [9, 10, 11, 12, 13, 28, 29, 30, 31, 32, 133, 160, 5760,
   8192, 8193, 8194, 8195, 8196, 8197, 8198, 8199, 8200, 8201, 8202,
   8232, 8233, 8239, 8287, 12288]

def pyIsSpace (c : Char) : Bool := pySpaceCodes.contains c.toNat

/-- Starts of the aligned ten-digit runs forming Unicode category `Nd`
(Python's `\d`); a digit's decimal value is its offset from the run start. -/
def pyDigitStarts : List Nat :=
  [48, 1632, 1776, 1984, 2406, 2534, 2662, 2790, 2918, 3046,
   3174, 3302, 3430, 3558, 3664, 3792, 3872, 4160, 4240, 6112,
   6160, 6470, 6608, 6784, 6800, 6992, 7088, 7232, 7248, 42528,
   43216, 43264, 43472, 43504, 43600, 44016, 65296, 66720, 68912, 69734,
   69872, 69942, 70096, 70384, 70736, 70864, 71248, 71360, 71472, 71904,
   72016, 72784, 73040, 73120, 73552, 92768, 92864, 93008, 120782, 120792,
   120802, 120812, 120822, 123200, 123632, 125264, 130032]

def pyDigitStart (n : Nat) : Option Nat :=
  pyDigitStarts.find? (fun s => s ≤ n && n < s + 10)

def pyIsDigit (c : Char) : Bool := (pyDigitStart c.toNat).isSome

/-- Decimal value of a Unicode digit (0 for non-digits; only applied to digits). -/
def pyDigitVal (c : Char) : Nat :=
  match pyDigitStart c.toNat with
  | some s => c.toNat - s
  | none => 0

/-- Sorted code-point ranges of Python's `\w` minus the digit runs is not
needed separately: this table is the full `\w` set (alphanumerics per
`str.isalnum` plus underscore), extracted from CPython. -/
def pyWordRanges : List (Nat × Nat) :=
  [(48, 57), (65, 90), (95, 95), (97, 122), (170, 170), (178, 179),
   (181, 181), (185, 186), (188, 190), (192, 214), (216, 246), (248, 705),
   (710, 721), (736, 740), (748, 748), (750, 750), (880, 884), (886, 887),
   (890, 893), (895, 895), (902, 902), (904, 906), (908, 908), (910, 929),
   (931, 1013), (1015, 1153), (1162, 1327), (1329, 1366), (1369, 1369), (1376, 1416),
   (1488, 1514), (1519, 1522), (1568, 1610), (1632, 1641), (1646, 1647), (1649, 1747),
   (1749, 1749), (1765, 1766), (1774, 1788), (1791, 1791), (1808, 1808), (1810, 1839),
   (1869, 1957), (1969, 1969), (1984, 2026), (2036, 2037), (2042, 2042), (2048, 2069),
   (2074, 2074), (2084, 2084), (2088, 2088), (2112, 2136), (2144, 2154), (2208, 2228),
   (2230, 2247), (2308, 2361), (2365, 2365), (2384, 2384), (2392, 2401), (2406, 2415),
   (2417, 2432), (2437, 2444), (2447, 2448), (2451, 2472), (2474, 2480), (2482, 2482),
   (2486, 2489), (2493, 2493), (2510, 2510), (2524, 2525), (2527, 2529), (2534, 2545),
   (2548, 2553), (2556, 2556), (2565, 2570), (2575, 2576), (2579, 2600), (2602, 2608),
   (2610, 2611), (2613, 2614), (2616, 2617), (2649, 2652), (2654, 2654), (2662, 2671),
   (2674, 2676), (2693, 2701), (2703, 2705), (2707, 2728), (2730, 2736), (2738, 2739),
   (2741, 2745), (2749, 2749), (2768, 2768), (2784, 2785), (2790, 2799), (2809, 2809),
   (2821, 2828), (2831, 2832), (2835, 2856), (2858, 2864), (2866, 2867), (2869, 2873),
   (2877, 2877), (2908, 2909), (2911, 2913), (2918, 2927), (2929, 2935), (2947, 2947),
   (2949, 2954), (2958, 2960), (2962, 2965), (2969, 2970), (2972, 2972), (2974, 2975),
   (2979, 2980), (2984, 2986), (2990, 3001), (3024, 3024), (3046, 3058), (3077, 3084),
   (3086, 3088), (3090, 3112), (3114, 3129), (3133, 3133), (3160, 3162), (3168, 3169),
   (3174, 3183), (3192, 3198), (3200, 3200), (3205, 3212), (3214, 3216), (3218, 3240),
   (3242, 3251), (3253, 3257), (3261, 3261), (3294, 3294), (3296, 3297), (3302, 3311),
   (3313, 3314), (3332, 3340), (3342, 3344), (3346, 3386), (3389, 3389), (3406, 3406),
   (3412, 3414), (3416, 3425), (3430, 3448), (3450, 3455), (3461, 3478), (3482, 3505),
   (3507, 3515), (3517, 3517), (3520, 3526), (3558, 3567), (3585, 3632), (3634, 3635),
   (3648, 3654), (3664, 3673), (3713, 3714), (3716, 3716), (3718, 3722), (3724, 3747),
   (3749, 3749), (3751, 3760), (3762, 3763), (3773, 3773), (3776, 3780), (3782, 3782),
   (3792, 3801), (3804, 3807), (3840, 3840), (3872, 3891), (3904, 3911), (3913, 3948),
   (3976, 3980), (4096, 4138), (4159, 4169), (4176, 4181), (4186, 4189), (4193, 4193),
   (4197, 4198), (4206, 4208), (4213, 4225), (4238, 4238), (4240, 4249), (4256, 4293),
   (4295, 4295), (4301, 4301), (4304, 4346), (4348, 4680), (4682, 4685), (4688, 4694),
   (4696, 4696), (4698, 4701), (4704, 4744), (4746, 4749), (4752, 4784), (4786, 4789),
   (4792, 4798), (4800, 4800), (4802, 4805), (4808, 4822), (4824, 4880), (4882, 4885),
   (4888, 4954), (4969, 4988), (4992, 5007), (5024, 5109), (5112, 5117), (5121, 5740),
   (5743, 5759), (5761, 5786), (5792, 5866), (5870, 5880), (5888, 5900), (5902, 5905),
   (5920, 5937), (5952, 5969), (5984, 5996), (5998, 6000), (6016, 6067), (6103, 6103),
   (6108, 6108), (6112, 6121), (6128, 6137), (6160, 6169), (6176, 6264), (6272, 6276),
   (6279, 6312), (6314, 6314), (6320, 6389), (6400, 6430), (6470, 6509), (6512, 6516),
   (6528, 6571), (6576, 6601), (6608, 6618), (6656, 6678), (6688, 6740), (6784, 6793),
   (6800, 6809), (6823, 6823), (6917, 6963), (6981, 6987), (6992, 7001), (7043, 7072),
   (7086, 7141), (7168, 7203), (7232, 7241), (7245, 7293), (7296, 7304), (7312, 7354),
   (7357, 7359), (7401, 7404), (7406, 7411), (7413, 7414), (7418, 7418), (7424, 7615),
   (7680, 7957), (7960, 7965), (7968, 8005), (8008, 8013), (8016, 8023), (8025, 8025),
   (8027, 8027), (8029, 8029), (8031, 8061), (8064, 8116), (8118, 8124), (8126, 8126),
   (8130, 8132), (8134, 8140), (8144, 8147), (8150, 8155), (8160, 8172), (8178, 8180),
   (8182, 8188), (8304, 8305), (8308, 8313), (8319, 8329), (8336, 8348), (8450, 8450),
   (8455, 8455), (8458, 8467), (8469, 8469), (8473, 8477), (8484, 8484), (8486, 8486),
   (8488, 8488), (8490, 8493), (8495, 8505), (8508, 8511), (8517, 8521), (8526, 8526),
   (8528, 8585), (9312, 9371), (9450, 9471), (10102, 10131), (11264, 11310), (11312, 11358),
   (11360, 11492), (11499, 11502), (11506, 11507), (11517, 11517), (11520, 11557), (11559, 11559),
   (11565, 11565), (11568, 11623), (11631, 11631), (11648, 11670), (11680, 11686), (11688, 11694),
   (11696, 11702), (11704, 11710), (11712, 11718), (11720, 11726), (11728, 11734), (11736, 11742),
   (11823, 11823), (12293, 12295), (12321, 12329), (12337, 12341), (12344, 12348), (12353, 12438),
   (12445, 12447), (12449, 12538), (12540, 12543), (12549, 12591), (12593, 12686), (12690, 12693),
   (12704, 12735), (12784, 12799), (12832, 12841), (12872, 12879), (12881, 12895), (12928, 12937),
   (12977, 12991), (13169, 13169), (13171, 13171), (13173, 13173)]

/-- Tail of the `\w` range table (kept separate only to stay within
comfortable list-literal sizes; `pyWordRangesAll` is the full table). -/
def pyWordRanges2 : List (Nat × Nat) :=
  [(13179, 13183), (13280, 13310), (13312, 19903), (19968, 40956), (40960, 42124), (42192, 42237),
   (42240, 42508), (42512, 42539), (42560, 42606), (42623, 42653), (42656, 42735), (42775, 42783),
   (42786, 42888), (42891, 42943), (42946, 42954), (42997, 43009), (43011, 43013), (43015, 43018),
   (43020, 43042), (43056, 43061), (43072, 43123), (43138, 43187), (43216, 43225), (43250, 43255),
   (43259, 43259), (43261, 43262), (43264, 43301), (43312, 43334), (43360, 43388), (43396, 43442),
   (43471, 43481), (43488, 43492), (43494, 43518), (43520, 43560), (43584, 43586), (43588, 43595),
   (43600, 43609), (43616, 43638), (43642, 43642), (43646, 43695), (43697, 43697), (43701, 43702),
   (43705, 43709), (43712, 43712), (43714, 43714), (43739, 43741), (43744, 43754), (43762, 43764),
   (43777, 43782), (43785, 43790), (43793, 43798), (43808, 43814), (43816, 43822), (43824, 43866),
   (43868, 43881), (43888, 44002), (44016, 44025), (44032, 55203), (55216, 55238), (55243, 55291),
   (63744, 64109), (64112, 64217), (64256, 64262), (64275, 64279), (64285, 64285), (64287, 64296),
   (64298, 64310), (64312, 64316), (64318, 64318), (64320, 64321), (64323, 64324), (64326, 64433),
   (64467, 64829), (64848, 64911), (64914, 64967), (65008, 65019), (65136, 65140), (65142, 65276),
   (65296, 65305), (65313, 65338), (65345, 65370), (65382, 65470), (65474, 65479), (65482, 65487),
   (65490, 65495), (65498, 65500), (65536, 65547), (65549, 65574), (65576, 65594), (65596, 65597),
   (65599, 65613), (65616, 65629), (65664, 65786), (65799, 65843), (65856, 65912), (65930, 65931),
   (66176, 66204), (66208, 66256), (66273, 66299), (66304, 66339), (66349, 66378), (66384, 66421),
   (66432, 66461), (66464, 66499), (66504, 66511), (66513, 66517), (66560, 66717), (66720, 66729),
   (66736, 66771), (66776, 66811), (66816, 66855), (66864, 66915), (67072, 67382), (67392, 67413),
   (67424, 67431), (67584, 67589), (67592, 67592), (67594, 67637), (67639, 67640), (67644, 67644),
   (67647, 67669), (67672, 67742), (67751, 67759), (67808, 67826), (67828, 67829), (67835, 67867),
   (67872, 67897), (67968, 68023), (68028, 68047), (68050, 68096), (68112, 68115), (68117, 68119),
   (68121, 68149), (68160, 68168), (68192, 68222), (68224, 68255), (68288, 68324), (68331, 68335),
   (68352, 68405), (68416, 68437), (68440, 68466), (68472, 68497), (68521, 68527), (68608, 68680),
   (68736, 68786), (68800, 68850), (68858, 68899), (68912, 68921), (69216, 69246), (69248, 69289),
   (69296, 69297), (69376, 69415), (69424, 69445), (69457, 69460), (69552, 69579), (69600, 69622),
   (69635, 69687), (69714, 69743), (69763, 69807), (69840, 69864), (69872, 69881), (69891, 69926),
   (69942, 69951), (69956, 69956), (69959, 69959), (69968, 70002), (70006, 70006), (70019, 70066),
   (70081, 70084), (70096, 70106), (70108, 70108), (70113, 70132), (70144, 70161), (70163, 70187),
   (70272, 70278), (70280, 70280), (70282, 70285), (70287, 70301), (70303, 70312), (70320, 70366),
   (70384, 70393), (70405, 70412), (70415, 70416), (70419, 70440), (70442, 70448), (70450, 70451),
   (70453, 70457), (70461, 70461), (70480, 70480), (70493, 70497), (70656, 70708), (70727, 70730),
   (70736, 70745), (70751, 70753), (70784, 70831), (70852, 70853), (70855, 70855), (70864, 70873),
   (71040, 71086), (71128, 71131), (71168, 71215), (71236, 71236), (71248, 71257), (71296, 71352),
   (71360, 71369), (71424, 71450), (71472, 71483), (71680, 71723), (71840, 71922), (71935, 71942),
   (71945, 71945), (71948, 71955), (71957, 71958), (71960, 71983), (71999, 71999), (72001, 72001),
   (72016, 72025), (72096, 72103), (72106, 72144), (72161, 72161), (72163, 72163), (72192, 72192),
   (72203, 72242), (72250, 72250), (72272, 72272), (72284, 72329), (72349, 72349), (72384, 72440),
   (72704, 72712), (72714, 72750), (72768, 72768), (72784, 72812), (72818, 72847), (72960, 72966),
   (72968, 72969), (72971, 73008), (73030, 73030), (73040, 73049), (73056, 73061), (73063, 73064),
   (73066, 73097), (73112, 73112), (73120, 73129), (73440, 73458), (73648, 73648), (73664, 73684),
   (73728, 74649), (74752, 74862), (74880, 75075), (77824, 78894), (82944, 83526), (92160, 92728),
   (92736, 92766), (92768, 92777), (92880, 92909), (92928, 92975), (92992, 92995), (93008, 93017),
   (93019, 93025), (93027, 93047), (93053, 93071), (93760, 93846), (93952, 94026), (94032, 94032),
   (94099, 94111), (94176, 94177), (94179, 94179), (94208, 100343), (100352, 101589), (101632, 101640),
   (110592, 110878), (110928, 110930), (110948, 110951), (110960, 111355), (113664, 113770), (113776, 113788),
   (113792, 113800), (113808, 113817), (119520, 119539), (119648, 119672), (119808, 119892), (119894, 119964),
   (119966, 119967), (119970, 119970), (119973, 119974), (119977, 119980), (119982, 119993), (119995, 119995),
   (119997, 120003), (120005, 120069), (120071, 120074), (120077, 120084), (120086, 120092), (120094, 120121),
   (120123, 120126), (120128, 120132), (120134, 120134), (120138, 120144), (120146, 120485), (120488, 120512),
   (120514, 120538), (120540, 120570), (120572, 120596), (120598, 120628), (120630, 120654), (120656, 120686),
   (120688, 120712), (120714, 120744), (120746, 120770), (120772, 120779), (120782, 120831), (122880, 122886),
   (122888, 122904), (122907, 122913), (122915, 122916), (122918, 122922), (123136, 123180), (123191, 123197),
   (123200, 123209), (123214, 123214), (123584, 123627), (123632, 123641), (124928, 125124), (125127, 125135),
   (125184, 125251), (125259, 125259), (125264, 125273), (126065, 126123), (126125, 126127), (126129, 126132),
   (126209, 126253), (126255, 126269), (126464, 126467), (126469, 126495), (126497, 126498), (126500, 126500),
   (126503, 126503), (126505, 126514), (126516, 126519), (126521, 126521), (126523, 126523), (126530, 126530),
   (126535, 126535), (126537, 126537), (126539, 126539), (126541, 126543), (126545, 126546), (126548, 126548),
   (126551, 126551), (126553, 126553), (126555, 126555), (126557, 126557), (126559, 126559), (126561, 126562),
   (126564, 126564), (126567, 126570), (126572, 126578), (126580, 126583), (126585, 126588), (126590, 126590),
   (126592, 126601), (126603, 126619), (126625, 126627), (126629, 126633), (126635, 126651), (127232, 127244),
   (130032, 130041), (131072, 173789), (173824, 177972), (177984, 178205), (178208, 183969), (183984, 191456),
   (194560, 195101), (196608, 201546)]

def pyWordRangesAll : List (Nat × Nat) := pyWordRanges ++ pyWordRanges2

/-- Membership in a sorted, disjoint range table (early exit on sortedness,
which the extracted tables satisfy). -/
def inSortedRanges (n : Nat) : List (Nat × Nat) → Bool
  | [] => false
  | (a, b) :: rs => if n < a then false else if n ≤ b then true else inSortedRanges n rs

def pyIsWord (c : Char) : Bool := inSortedRanges c.toNat pyWordRangesAll

/-! ## UTF-8 encoding (Python `str.encode()`) -/

def utf8Char (c : Char) : List Nat :=
  let n := c.toNat
  if n < 128 then [n]
  else if n < 2048 then [192 + n / 64, 128 + n % 64]
  else if n < 65536 then [224 + n / 4096, 128 + n / 64 % 64, 128 + n % 64]
  else [240 + n / 262144, 128 + n / 4096 % 64, 128 + n / 64 % 64, 128 + n % 64]

def utf8 (s : List Char) : List Nat := s.flatMap utf8Char

/-! ## MD5 (`hashlib.md5`)

Full MD5 over a byte list, little-endian words, mantissa arithmetic on
`Nat` reduced mod `2^32`.  `md5Words` returns the four final state words,
`md5HexList` the usual 32-character lowercase hex digest. -/

def m32 : Nat := 4294967296

def md5K : List Nat :=
  [3614090360, 3905402710, 606105819, 3250441966, 4118548399, 1200080426, 2821735955, 4249261313,
   1770035416, 2336552879, 4294925233, 2304563134, 1804603682, 4254626195, 2792965006, 1236535329,
   4129170786, 3225465664, 643717713, 3921069994, 3593408605, 38016083, 3634488961, 3889429448,
   568446438, 3275163606, 4107603335, 1163531501, 2850285829, 4243563512, 1735328473, 2368359562,
   4294588738, 2272392833, 1839030562, 4259657740, 2763975236, 1272893353, 4139469664, 3200236656,
   681279174, 3936430074, 3572445317, 76029189, 3654602809, 3873151461, 530742520, 3299628645,
   4096336452, 1126891415, 2878612391, 4237533241, 1700485571, 2399980690, 4293915773, 2240044497,
   1873313359, 4264355552, 2734768916, 1309151649, 4149444226, 3174756917, 718787259, 3951481745]

def md5S : List Nat :=
  [7, 12, 17, 22, 7, 12, 17, 22, 7, 12, 17, 22, 7, 12, 17, 22,
   5, 9, 14, 20, 5, 9, 14, 20, 5, 9, 14, 20, 5, 9, 14, 20,
   4, 11, 16, 23, 4, 11, 16, 23, 4, 11, 16, 23, 4, 11, 16, 23,
   6, 10, 15, 21, 6, 10, 15, 21, 6, 10, 15, 21, 6, 10, 15, 21]

def rotl32 (x n : Nat) : Nat := ((x <<< n) ||| (x >>> (32 - n))) % m32

/-- Little-endian 4-byte groups to 32-bit words. -/
def leWords : List Nat → List Nat
  | b0 :: b1 :: b2 :: b3 :: rest =>
      (b0 + 256 * b1 + 65536 * b2 + 16777216 * b3) :: leWords rest
  | _ => []

def toBytesLE : Nat → Nat → List Nat
  | 0, _ => []
  | k + 1, v => v % 256 :: toBytesLE k (v / 256)

/-- MD5 padding: `0x80`, zeros to 56 mod 64, 8-byte little-endian bit length. -/
def md5Pad (msg : List Nat) : List Nat :=
  let len := msg.length
  let zeros := (119 - len % 64) % 64
  msg ++ 128 :: List.replicate zeros 0 ++ toBytesLE 8 (8 * len)

def md5G (i : Nat) : Nat :=
  if i < 16 then i
  else if i < 32 then (5 * i + 1) % 16
  else if i < 48 then (3 * i + 5) % 16
  else 7 * i % 16

def md5F (i b c d : Nat) : Nat :=
  if i < 16 then (b &&& c) ||| ((b ^^^ 4294967295) &&& d)
  else if i < 32 then (d &&& b) ||| ((d ^^^ 4294967295) &&& c)
  else if i < 48 then b ^^^ c ^^^ d
  else c ^^^ (b ||| (d ^^^ 4294967295))

def md5Op (mWords : List Nat) (st : Nat × Nat × Nat × Nat) (i : Nat) :
    Nat × Nat × Nat × Nat :=
  match st with
  | (a, b, c, d) =>
    let f := (md5F i b c d + a + md5K.getD i 0 + mWords.getD (md5G i) 0) % m32
    (d, (b + rotl32 f (md5S.getD i 0)) % m32, b, c)

def md5Block (st : Nat × Nat × Nat × Nat) (block : List Nat) :
    Nat × Nat × Nat × Nat :=
  match st with
  | (a0, b0, c0, d0) =>
    match (List.range 64).foldl (md5Op (leWords block)) (a0, b0, c0, d0) with
    | (a, b, c, d) => ((a0 + a) % m32, (b0 + b) % m32, (c0 + c) % m32, (d0 + d) % m32)

def md5BlocksAux : Nat → Nat × Nat × Nat × Nat → List Nat → Nat × Nat × Nat × Nat
  | 0, st, _ => st
  | _ + 1, st, [] => st
  | fuel + 1, st, b :: rest =>
    md5BlocksAux fuel (md5Block st ((b :: rest).take 64)) ((b :: rest).drop 64)

def md5Blocks (st : Nat × Nat × Nat × Nat) (bytes : List Nat) : Nat × Nat × Nat × Nat :=
  md5BlocksAux bytes.length st bytes

/-- The four final MD5 state words of a byte message. -/
def md5WordsOf (msg : List Nat) : Nat × Nat × Nat × Nat :=
  md5Blocks (1732584193, 4023233417, 2562383102, 271733878) (md5Pad msg)

def hexDigitChar (n : Nat) : Char :=
  if n < 10 then Char.ofNat (48 + n) else Char.ofNat (87 + n)

def byteHex (b : Nat) : List Char := [hexDigitChar (b / 16), hexDigitChar (b % 16)]

def wordHexLE (w : Nat) : List Char := (toBytesLE 4 w).flatMap byteHex

/-- The 32-character lowercase hex digest (`hashlib.md5(...).hexdigest()`). -/
def md5HexList (msg : List Nat) : List Char :=
  match md5WordsOf msg with
  | (a, b, c, d) => wordHexLE a ++ wordHexLE b ++ wordHexLE c ++ wordHexLE d

def md5Hex (msg : List Nat) : String := String.mk (md5HexList msg)

/-! ## Settings and cache key (`OrpheusSettings`, `_generate_cache_key`)

`OrpheusSettingsL` models the validated pydantic settings object.  Enum
fields hold their `.value` strings.  The float field `speed` is modelled
by `speedRepr`, its JSON/`repr` rendering (CPython's shortest round-trip
rendering is injective on floats, so distinct speeds have distinct
renderings). -/

structure OrpheusSettingsL where
  ollama_url : String
  ollama_model : String
  voice : String
  emotion : String
  speedRepr : String
  format : String
  sample_rate : Nat
  bit_depth : Nat
  timeout_seconds : Nat
  max_text_length : Nat
  enable_debug : Bool
  audio_cache_enabled : Bool
deriving DecidableEq

def quoteChar : Char := Char.ofNat 34
def aposChar : Char := Char.ofNat 39
def tickChar : Char := Char.ofNat 96

def hex4 (n : Nat) : List Char :=
  [hexDigitChar (n / 4096 % 16), hexDigitChar (n / 256 % 16),
   hexDigitChar (n / 16 % 16), hexDigitChar (n % 16)]

/-- One character of `json.dumps`'s default `ensure_ascii` string escaping
(CPython `py_encode_basestring_ascii`). -/
def escChar (c : Char) : List Char :=
  let n := c.toNat
  if n = 34 then ['\\', quoteChar]
  else if n = 92 then ['\\', '\\']
  else if n = 8 then ['\\', 'b']
  else if n = 9 then ['\\', 't']
  else if n = 10 then ['\\', 'n']
  else if n = 12 then ['\\', 'f']
  else if n = 13 then ['\\', 'r']
  else if n < 32 then '\\' :: 'u' :: hex4 n
  else if n < 127 then [c]
  else if n < 65536 then '\\' :: 'u' :: hex4 n
  else '\\' :: 'u' :: hex4 (55296 + (n - 65536) / 1024) ++
       '\\' :: 'u' :: hex4 (56320 + (n - 65536) % 1024)

def jsonStr (s : String) : List Char :=
  quoteChar :: s.data.flatMap escChar ++ [quoteChar]

/-- The `json.dumps(cache_data, sort_keys=True)` serialisation built by
`_generate_cache_key` (keys in sorted order, `", "` / `": "` separators). -/
def cacheString (st : OrpheusSettingsL) (text : String) : List Char :=
  "\x7b\"emotion\": ".data ++ jsonStr st.emotion ++
  ", \"format\": ".data ++ jsonStr st.format ++
  ", \"speed\": ".data ++ st.speedRepr.data ++
  ", \"text\": ".data ++ jsonStr text ++
  ", \"voice\": ".data ++ jsonStr st.voice ++ ['\x7d']

/-- `OrpheusEngine._generate_cache_key`: MD5 hex digest of the serialised
cache data. -/
def generateCacheKey (st : OrpheusSettingsL) (text : String) : String :=
  md5Hex (utf8 (cacheString st text))

/-- `OrpheusEngine._format_prompt_original`. -/
def formatPromptOriginal (text voice : String) : String :=
  "<|reserved_special_token_250|>" ++ voice ++ ": " ++ text ++
  "<|end_of_text|><|reserved_special_token_251|><|reserved_special_token_252|><|reserved_special_token_248|>"

/-! ## Text normalisation (`clean_text`)

Each `re.sub` pass is embedded as a deterministic scanner.  For every
pattern used here the greedy character-class run cannot be shrunk by
backtracking (the character after a shrunk run would have to match a
character the class excludes), so a match attempt at a position either
succeeds with the greedy extent or fails, and the scanner then advances
one position, exactly like CPython's `re.sub`. -/

/-- `re.sub(r'<[^>]+>', '', text)`.  Every scanner below recurses on an
explicit fuel, consuming at least one input character per unit, so the
wrapper's fuel `s.length` always suffices; fuel exhaustion returns the
remaining input unchanged and is never reached from the wrapper. -/
def subTagsAux : Nat → List Char → List Char
  | 0, s => s
  | _ + 1, [] => []
  | fuel + 1, c :: rest =>
    if c = '<' ∧ rest.takeWhile (fun d => d ≠ '>') ≠ [] ∧
        rest.dropWhile (fun d => d ≠ '>') ≠ [] then
      subTagsAux fuel (rest.dropWhile (fun d => d ≠ '>')).tail
    else c :: subTagsAux fuel rest

def subTags (s : List Char) : List Char := subTagsAux s.length s

/-- `re.sub(r'\*\*([^*]+)\*\*', r'\1', text)`. -/
def subBoldAux : Nat → List Char → List Char
  | 0, s => s
  | _ + 1, [] => []
  | _ + 1, [c] => [c]
  | fuel + 1, c :: c2 :: rest =>
    if c = '*' ∧ c2 = '*' ∧ rest.takeWhile (fun d => d ≠ '*') ≠ [] ∧
        ((rest.dropWhile (fun d => d ≠ '*')).drop 1).head? = some '*' then
      rest.takeWhile (fun d => d ≠ '*') ++ subBoldAux fuel ((rest.dropWhile (fun d => d ≠ '*')).drop 2)
    else c :: subBoldAux fuel (c2 :: rest)

def subBold (s : List Char) : List Char := subBoldAux s.length s

/-- `re.sub(r'\*([^*]+)\*', r'\1', text)`. -/
def subItalicAux : Nat → List Char → List Char
  | 0, s => s
  | _ + 1, [] => []
  | fuel + 1, c :: rest =>
    if c = '*' ∧ rest.takeWhile (fun d => d ≠ '*') ≠ [] ∧
        rest.dropWhile (fun d => d ≠ '*') ≠ [] then
      rest.takeWhile (fun d => d ≠ '*') ++ subItalicAux fuel (rest.dropWhile (fun d => d ≠ '*')).tail
    else c :: subItalicAux fuel rest

def subItalic (s : List Char) : List Char := subItalicAux s.length s

/-- The single-delimiter code-span pass with a parametric delimiter; the
source instantiates it with a backtick. -/
def subDelimAux (del : Char) : Nat → List Char → List Char
  | 0, s => s
  | _ + 1, [] => []
  | fuel + 1, c :: rest =>
    if c = del ∧ rest.takeWhile (fun d => d ≠ del) ≠ [] ∧
        rest.dropWhile (fun d => d ≠ del) ≠ [] then
      rest.takeWhile (fun d => d ≠ del) ++ subDelimAux del fuel (rest.dropWhile (fun d => d ≠ del)).tail
    else c :: subDelimAux del fuel rest

def subDelim (del : Char) (s : List Char) : List Char := subDelimAux del s.length s

/-- Characters removed by `re.sub(r'[\x00-\x08\x0B\x0C\x0E-\x1F\x7F-\x9F]', '', text)`. -/
def isCtl (c : Char) : Bool :=
  let n := c.toNat
  n ≤ 8 || n = 11 || n = 12 || (14 ≤ n && n ≤ 31) || (127 ≤ n && n ≤ 159)

def subCtl (s : List Char) : List Char := s.filter (fun c => !isCtl c)

/-- `re.sub(r'[…]', '...', text)`. -/
def subEll (s : List Char) : List Char :=
  s.flatMap (fun c => if c = '…' then ['.', '.', '.'] else [c])

/-- `re.sub(r'[“”"]', '"', text)`. -/
def subQuote (s : List Char) : List Char :=
  s.map (fun c => if c = '“' ∨ c = '”' ∨ c = quoteChar then quoteChar else c)

/-- The smart-apostrophe pass `re.sub(r"[‘’']", "'", text)`. -/
def subApos (s : List Char) : List Char :=
  s.map (fun c => if c = '‘' ∨ c = '’' ∨ c = aposChar then aposChar else c)

/-- `re.sub(r'\s+', ' ', text)`. -/
def collapseWsAux : Nat → List Char → List Char
  | 0, s => s
  | _ + 1, [] => []
  | fuel + 1, c :: rest =>
    if pyIsSpace c then ' ' :: collapseWsAux fuel (rest.dropWhile pyIsSpace)
    else c :: collapseWsAux fuel rest

def collapseWs (s : List Char) : List Char := collapseWsAux s.length s

/-- `str.strip()`. -/
def stripWs (s : List Char) : List Char :=
  ((s.dropWhile pyIsSpace).reverse.dropWhile pyIsSpace).reverse

def isPre : List Char → List Char → Bool
  | [], _ => true
  | _ :: _, [] => false
  | a :: as, b :: bs => a = b && isPre as bs

/-- `re.sub(r'\b' + literal, rep, text)` for a literal pattern starting
with a word character: a match requires no word character immediately
before the pattern (`pw` carries whether the previous character is a word
character; at the string start it is `false`).  After a match, scanning
resumes after the consumed literal, whose last character supplies the new
word-boundary state. -/
def subLitAux (p0 : Char) (prest rep : List Char) : Nat → Bool → List Char → List Char
  | 0, _, s => s
  | _ + 1, _, [] => []
  | fuel + 1, pw, c :: rest =>
    if !pw ∧ isPre (p0 :: prest) (c :: rest) then
      rep ++ subLitAux p0 prest rep fuel
        (pyIsWord ((p0 :: prest).getLast (List.cons_ne_nil p0 prest)))
        (rest.drop prest.length)
    else c :: subLitAux p0 prest rep fuel (pyIsWord c) rest

def subLit (p0 : Char) (prest rep : List Char) (pw : Bool) (s : List Char) : List Char :=
  subLitAux p0 prest rep s.length pw s

/-- `re.sub(r'\b(\d+)' + sym, r'\1' + rep, text)` (the `°`/`%` passes):
a maximal digit run preceded by a word boundary and followed by `sym` is
rewritten to the run followed by `rep`. -/
def subNumAux (sym : Char) (rep : List Char) : Nat → Bool → List Char → List Char
  | 0, _, s => s
  | _ + 1, _, [] => []
  | fuel + 1, pw, c :: rest =>
    if !pw ∧ pyIsDigit c ∧ (rest.dropWhile pyIsDigit).head? = some sym then
      c :: rest.takeWhile pyIsDigit ++ rep ++
        subNumAux sym rep fuel (pyIsWord sym) (rest.dropWhile pyIsDigit).tail
    else c :: subNumAux sym rep fuel (pyIsWord c) rest

def subNum (sym : Char) (rep : List Char) (pw : Bool) (s : List Char) : List Char :=
  subNumAux sym rep s.length pw s

/-- The whole `clean_text` pipeline on character lists, in source order. -/
def cleanList (s : List Char) : List Char :=
  subNum '%' " percento".data false
    (subNum '°' " gradi".data false
      (subLit 'S' "ig.ra".data "Signora".data false
        (subLit 'S' "ig.".data "Signore".data false
          (subLit 'P' "rof.".data "Professore".data false
            (subLit 'D' "r.".data "Dottore".data false
              (stripWs
                (collapseWs
                  (subApos
                    (subQuote
                      (subEll
                        (subCtl
                          (subDelim tickChar
                            (subItalic
                              (subBold
                                (subTags s)))))))))))))))

/-- `OrpheusEngine.clean_text`. -/
def cleanText (s : String) : String :=
  if s.data = [] then "" else String.mk (cleanList s.data)

/-! ## Token extraction (`_extract_custom_tokens`)

`re.findall(r'<custom_token_(\d+)>', ...)` finds, left to right, every
occurrence of the literal `<custom_token_` followed by a nonempty maximal
run of Unicode decimal digits followed by `>`; `int()` of the digit run
is the sum of decimal digit values in base ten (Python's `int` accepts
any `Nd` digits, so the `ValueError` branch of the source is
unreachable for these matches). -/

def parseDigitsVal (ds : List Char) : Nat :=
  ds.foldl (fun a c => 10 * a + pyDigitVal c) 0

def ctmLit : List Char := "<custom_token_".data

/-- The parsed raw token numbers `N`, in order of appearance. -/
def findCustomTokensAux : Nat → List Char → List Nat
  | 0, _ => []
  | _ + 1, [] => []
  | fuel + 1, c :: rest =>
    if isPre ctmLit (c :: rest) ∧
        (((c :: rest).drop ctmLit.length).dropWhile pyIsDigit).head? = some '>' ∧
        ((c :: rest).drop ctmLit.length).takeWhile pyIsDigit ≠ [] then
      parseDigitsVal (((c :: rest).drop ctmLit.length).takeWhile pyIsDigit) ::
        findCustomTokensAux fuel (((c :: rest).drop ctmLit.length).dropWhile pyIsDigit).tail
    else findCustomTokensAux fuel rest

def findCustomTokens (s : List Char) : List Nat := findCustomTokensAux s.length s

/-- The conversion applied to each raw id: `(token_id - 32000) % 4096` in
Python semantics (result non-negative). -/
def convertTokenId (n : Nat) : Int := ((n : Int) - 32000).emod 4096

/-- `OrpheusEngine._extract_custom_tokens`, including its range filter
`0 <= converted_id <= 4096`. -/
def extractCustomTokens (s : List Char) : List Nat :=
  (findCustomTokens s).foldr
    (fun n acc =>
      if 0 ≤ convertTokenId n ∧ convertTokenId n ≤ 4096 then
        (convertTokenId n).toNat :: acc
      else acc) []

/-- The extraction as the spec's words describe it: every match is kept
and mapped through the normalisation formula (no filtering). -/
def specExtractTokens (s : List Char) : List Nat :=
  (findCustomTokens s).map (fun n => (convertTokenId n).toNat)

/-! ## IEEE-754 double emulation for the sample-count arithmetic

`chunk_samples = int(self.settings.sample_rate * (len(chunk) * 0.02))`
is evaluated by CPython in double precision: the literal `0.02` is the
double nearest `2/100`, each multiplication rounds its exact product to
53 bits (round-to-nearest, ties-to-even), and `int()` truncates.  All
values involved are positive normal doubles, far from overflow and
subnormal ranges, so a positive dyadic `(mantissa, exponent)` pair with
53-bit round-to-nearest-even is an exact model. -/

def bitLenAux : Nat → Nat → Nat
  | 0, _ => 0
  | fuel + 1, n => if n = 0 then 0 else bitLenAux fuel (n / 2) + 1

/-- `int.bit_length()`. -/
def bitLen (n : Nat) : Nat := bitLenAux n n

/-- Floor, remainder and scaled denominator of `(n/d) / 2^e`. -/
def scaledDivRem (n d : Nat) (e : Int) : Nat × Nat × Nat :=
  if e ≥ 0 then
    let D := d * 2 ^ e.toNat
    (n / D, n % D, D)
  else
    let N := n * 2 ^ (-e).toNat
    (N / d, N % d, d)

def roundAtE (n d : Nat) (e : Int) : Nat :=
  match scaledDivRem n d e with
  | (q, r, D) =>
    if 2 * r < D then q
    else if D < 2 * r then q + 1
    else if q % 2 = 0 then q else q + 1

/-- Round the positive rational `n/d` to the nearest double,
returned as `(mantissa, exponent)` with `2^52 ≤ mantissa < 2^53`
(or `(0, 0)` for zero). -/
def roundPos (n d : Nat) : Nat × Int :=
  if n = 0 then (0, 0) else
  let e0 : Int := (bitLen n : Int) - (bitLen d : Int) - 53
  let f0 := (scaledDivRem n d e0).1
  let e := if f0 < 2 ^ 53 then e0 else e0 + 1
  let m := roundAtE n d e
  if m = 2 ^ 53 then (2 ^ 52, e + 1) else (m, e)

/-- Multiply a double by an exactly representable natural number and
round (models CPython `int * float`). -/
def mulNatD (k : Nat) (x : Nat × Int) : Nat × Int :=
  match x with
  | (m, e) =>
    if e ≥ 0 then roundPos (k * m * 2 ^ e.toNat) 1
    else roundPos (k * m) (2 ^ (-e).toNat)

/-- The double literal `0.02`. -/
def py002 : Nat × Int := roundPos 2 100

/-- `chunk_duration = len(chunk) * 0.02`. -/
def chunkDuration (len : Nat) : Nat × Int := mulNatD len py002

/-- Truncation toward zero of a non-negative double (`int(...)`). -/
def floorD (x : Nat × Int) : Nat :=
  match x with
  | (m, e) => if e ≥ 0 then m * 2 ^ e.toNat else m / 2 ^ (-e).toNat

/-- `chunk_samples = int(sample_rate * chunk_duration)`. -/
def chunkSamples (rate len : Nat) : Nat :=
  floorD (mulNatD rate (chunkDuration len))

/-! ## Chunked audio synthesis (`_convert_tokens_to_audio`) -/

/-- `for i in range(0, len(tokens), 50): tokens[i:i+50]`. -/
def chunks50Aux : Nat → List Nat → List (List Nat)
  | 0, _ => []
  | _ + 1, [] => []
  | fuel + 1, t :: rest => (t :: rest).take 50 :: chunks50Aux fuel ((t :: rest).drop 50)

def chunks50 (l : List Nat) : List (List Nat) := chunks50Aux l.length l

/-- `base_freq = 200 + (sum(chunk) % 400)`. -/
def chunkBaseFreq (chunk : List Nat) : Nat := 200 + chunk.sum % 400

/-- Per-chunk `(sample count, base frequency)` as generated by the
synthesis loop (`np.linspace(0, d, chunk_samples)` yields exactly
`chunk_samples` samples of the sine wave). -/
def chunkSpecs (tokens : List Nat) (rate : Nat) : List (Nat × Nat) :=
  (chunks50 tokens).map (fun c => (chunkSamples rate c.length, chunkBaseFreq c))

/-- `OrpheusEngine._create_wav_header` without its payload: the 44 header
bytes for `numSamples` 16-bit mono samples.  The full WAV byte sequence
is this header followed by `2 * numSamples` payload bytes (the scaled
sine samples, whose values the claims do not concern). -/
def wavHeader (numSamples rate : Nat) : List Nat :=
  let channels := 1
  let bitsPerSample := 16
  let byteRate := rate * channels * bitsPerSample / 8
  let blockAlign := channels * bitsPerSample / 8
  let dataSize := numSamples * 2
  let fileSize := 36 + dataSize
  "RIFF".data.map Char.toNat ++ toBytesLE 4 fileSize ++
  "WAVE".data.map Char.toNat ++ "fmt ".data.map Char.toNat ++
  toBytesLE 4 16 ++ toBytesLE 2 1 ++ toBytesLE 2 channels ++
  toBytesLE 4 rate ++ toBytesLE 4 byteRate ++ toBytesLE 2 blockAlign ++
  toBytesLE 2 bitsPerSample ++ "data".data.map Char.toNat ++
  toBytesLE 4 dataSize

/-- Abstract result of `_convert_tokens_to_audio` on the numpy path:
header bytes, total sample count and rate (`none` models the
`if not tokens: return None` branch). -/
structure WavAudio where
  header : List Nat
  numSamples : Nat
  sampleRate : Nat
deriving DecidableEq

def totalSamples (tokens : List Nat) (rate : Nat) : Nat :=
  ((chunks50 tokens).map (fun c => chunkSamples rate c.length)).sum

def convertTokensToAudio (tokens : List Nat) (rate : Nat) : Option WavAudio :=
  if tokens = [] then none
  else some ⟨wavHeader (totalSamples tokens rate) rate, totalSamples tokens rate, rate⟩

/-! ## CPython `random`: MT19937 and `_generate_simulated_tokens`

`random.seed(int)` feeds the absolute value of the integer, split into
little-endian 32-bit chunks, to the MT19937 `init_by_array` seeding;
`randint(a, b)` is `a + _randbelow(b - a + 1)`, where `_randbelow(n)`
draws `n.bit_length()`-bit values (`genrand_uint32() >> (32 - k)`) until
one is below `n`.  The rejection loop is embedded with an explicit fuel
parameter (the source's loop terminates with probability one; the fuel
value never runs out on the inputs considered, and determinism — the
only property claimed of this generator — is unaffected by it). -/

structure MTState where
  mt : Array Nat
  mti : Nat
deriving DecidableEq

def mtMask1 : Nat := 2147483648
def mtMask0 : Nat := 2147483647

def mtInitGenrand (s : Nat) : Array Nat := Id.run do
  let mut a : Array Nat := Array.mkArray 624 0
  a := a.set! 0 (s % m32)
  for i in [1:624] do
    let prev := a.getD (i - 1) 0
    a := a.set! i ((1812433253 * (prev ^^^ (prev >>> 30)) + i) % m32)
  return a

def mtInitByArray (key : List Nat) : Array Nat := Id.run do
  let keyArr := key.toArray
  let klen := keyArr.size
  let mut a := mtInitGenrand 19650218
  let mut i := 1
  let mut j := 0
  for _ in [0:max 624 klen] do
    let prev := a.getD (i - 1) 0
    a := a.set! i (((a.getD i 0 ^^^ ((prev ^^^ (prev >>> 30)) * 1664525 % m32)) +
      keyArr.getD j 0 + j) % m32)
    i := i + 1
    j := j + 1
    if 624 ≤ i then
      a := a.set! 0 (a.getD 623 0)
      i := 1
    if klen ≤ j then
      j := 0
  for _ in [0:623] do
    let prev := a.getD (i - 1) 0
    a := a.set! i (((a.getD i 0 ^^^ ((prev ^^^ (prev >>> 30)) * 1566083941 % m32)) +
      (m32 - i % m32)) % m32)
    i := i + 1
    if 624 ≤ i then
      a := a.set! 0 (a.getD 623 0)
      i := 1
  a := a.set! 0 2147483648
  return a

def mtTwistOne (a : Array Nat) (i : Nat) : Array Nat :=
  let y := (a.getD i 0 &&& mtMask1) + (a.getD ((i + 1) % 624) 0 &&& mtMask0)
  let v := a.getD ((i + 397) % 624) 0 ^^^ (y >>> 1) ^^^ (if y % 2 = 1 then 2567483615 else 0)
  a.set! i v

def mtTwist (a : Array Nat) : Array Nat := (List.range 624).foldl mtTwistOne a

def mtTemper (y0 : Nat) : Nat :=
  let y1 := y0 ^^^ (y0 >>> 11)
  let y2 := y1 ^^^ ((y1 <<< 7) &&& 2636928640)
  let y3 := y2 ^^^ ((y2 <<< 15) &&& 4022730752)
  y3 ^^^ (y3 >>> 18)

/-- `genrand_uint32`. -/
def mtNext (st : MTState) : Nat × MTState :=
  if 624 ≤ st.mti then
    let a := mtTwist st.mt
    (mtTemper (a.getD 0 0), ⟨a, 1⟩)
  else
    (mtTemper (st.mt.getD st.mti 0), ⟨st.mt, st.mti + 1⟩)

def natChunks32 : Nat → List Nat
  | 0 => []
  | n + 1 => (n + 1) % m32 :: natChunks32 ((n + 1) / m32)
decreasing_by
  exact Nat.div_lt_self (Nat.succ_pos n) (by decide)

/-- `random.seed(n)` for a non-negative int. -/
def pySeedInt (n : Nat) : MTState :=
  ⟨mtInitByArray (if n = 0 then [0] else natChunks32 n), 624⟩

/-- `getrandbits(k)` for `1 ≤ k ≤ 32`. -/
def getrandbitsK (k : Nat) (st : MTState) : Nat × MTState :=
  let (y, st') := mtNext st
  (y >>> (32 - k), st')

def randbelowFuel : Nat → Nat → MTState → Nat × MTState
  | 0, _, st => (0, st)
  | fuel + 1, n, st =>
    let (r, st') := getrandbitsK (bitLen n) st
    if r < n then (r, st') else randbelowFuel fuel n st'

def pyFuel : Nat := 1000000

/-- `random.randint(a, b)`. -/
def randint (a b : Nat) (st : MTState) : Nat × MTState :=
  let (r, st') := randbelowFuel pyFuel (b - a + 1) st
  (a + r, st')

/-- `str.split()` (split on runs of white space, no empty words). -/
def pySplitWsAux : Nat → List Char → List (List Char)
  | 0, _ => []
  | _ + 1, [] => []
  | fuel + 1, c :: rest =>
    if pyIsSpace c then pySplitWsAux fuel rest
    else (c :: rest.takeWhile (fun d => !pyIsSpace d)) ::
      pySplitWsAux fuel (rest.dropWhile (fun d => !pyIsSpace d))

def pySplitWs (s : List Char) : List (List Char) := pySplitWsAux s.length s

/-- Value of a lowercase hexadecimal digit character. -/
def hexCharVal (c : Char) : Nat :=
  if c.toNat ≤ 57 then c.toNat - 48 else c.toNat - 87

def parseHex (l : List Char) : Nat := l.foldl (fun a c => 16 * a + hexCharVal c) 0

def genTokensLoop : Nat → MTState → List Nat × MTState
  | 0, st => ([], st)
  | n + 1, st =>
    let (t, st1) := randint 0 4095 st
    let (ts, st2) := genTokensLoop n st1
    (t :: ts, st2)

/-- `OrpheusEngine._generate_simulated_tokens`.  The parameter `g` is the
state of the process-wide `random` generator when the call starts; the
source's first action `random.seed(...)` replaces that state with one
derived only from `text` and the configured voice, so `g` is discarded. -/
def generateSimulatedTokens (text voice : String) (g : MTState) :
    List Nat × MTState :=
  let seedHex := md5HexList (utf8 (text ++ "_" ++ voice).data)
  let seed := parseHex (seedHex.take 8)
  let st0 := pySeedInt seed
  let (perWord, st1) := randint 10 20 st0
  let numTokens := (pySplitWs text.data).length * perWord
  genTokensLoop numTokens st1

/-! ## Engine state and orchestration (`OrpheusEngine`)

External effects of one `generate_speech` call are collected in
`CallEnv`: the timestamp captured at the start, whether the cache file
for the computed key exists and whether copying it succeeds, the outcome
of the Ollama call in `_generate_tokens_from_ollama` (`none` models any
caught request exception, `some s` the `result.get('response', '')`
text), whether the final file write succeeds, and the state of the
process-wide `random` generator.  The numpy path is taken (`np` present,
per the design notes of the source); sine-sample values are not
materialised, only their counts and the WAV header. -/

structure EngineStats where
  requests_total : Nat
  requests_success : Nat
  requests_failed : Nat
  cache_hits : Nat
  tokens_generated : Nat
  last_request : Option String
deriving DecidableEq

/-- The `self.stats` dict as initialised in `__init__`. -/
def initialStats : EngineStats := ⟨0, 0, 0, 0, 0, none⟩

/-- `OrpheusEngine.reset_stats` (replaces the whole dict). -/
def resetStats (_ : EngineStats) : EngineStats := ⟨0, 0, 0, 0, 0, none⟩

structure CallEnv where
  now : String
  cacheFileExists : Bool
  copyCachedOk : Bool
  ollamaResponse : Option String
  writeOk : Bool
  randomState : MTState
deriving DecidableEq

structure DirectResult where
  ok : Bool
  stats : EngineStats
  usedFallback : Bool
  tokens : List Nat
  written : Option WavAudio
deriving DecidableEq

/-- `OrpheusEngine._generate_audio_direct`.  `if not token_response:`
is Python truthiness: both `None` (request failure) and the empty
string abort without fallback. -/
def generateAudioDirect (s : OrpheusSettingsL) (env : CallEnv)
    (stats : EngineStats) (text : String) : DirectResult :=
  match env.ollamaResponse with
  | none => ⟨false, stats, false, [], none⟩
  | some r =>
    if r.data = [] then ⟨false, stats, false, [], none⟩
    else
      let ext := extractCustomTokens r.data
      let fb := ext = []
      let tokens :=
        if ext = [] then (generateSimulatedTokens text s.voice env.randomState).1
        else ext
      let stats1 := { stats with tokens_generated := tokens.length }
      match convertTokensToAudio tokens s.sample_rate with
      | none => ⟨false, stats1, fb, tokens, none⟩
      | some wav =>
        if env.writeOk then ⟨true, stats1, fb, tokens, some wav⟩
        else ⟨false, stats1, fb, tokens, none⟩

structure SpeechResult where
  ok : Bool
  stats : EngineStats
  usedFallback : Bool
  usedText : Option String
  keyUsed : Option String
  promptUsed : Option String
  written : Option WavAudio
deriving DecidableEq

/-- `OrpheusEngine.generate_speech`.  The instrumentation fields record
which cleaned text drove the pipeline, which cache key was computed
(`_get_cached_audio` / `_save_to_cache` both derive it from the same
text), and which prompt `_generate_tokens_from_ollama` built; they do not
alter the control flow, which mirrors the source line by line. -/
def generateSpeech (s : OrpheusSettingsL) (env : CallEnv)
    (stats : EngineStats) (text : String) : SpeechResult :=
  let stats1 := { stats with
    requests_total := stats.requests_total + 1
    last_request := some env.now }
  let ct0 := cleanText text
  if ct0.data = [] then
    ⟨false, stats1, false, none, none, none, none⟩
  else
    let ct := if s.max_text_length < ct0.data.length
      then String.mk (ct0.data.take s.max_text_length) else ct0
    let keyOpt := if s.audio_cache_enabled
      then some (generateCacheKey s ct) else none
    if s.audio_cache_enabled ∧ env.cacheFileExists ∧ env.copyCachedOk then
      ⟨true, { stats1 with
          cache_hits := stats1.cache_hits + 1
          requests_success := stats1.requests_success + 1 },
        false, some ct, keyOpt, none, none⟩
    else
      let d := generateAudioDirect s env stats1 ct
      if d.ok then
        ⟨true, { d.stats with requests_success := d.stats.requests_success + 1 },
          d.usedFallback, some ct, keyOpt,
          some (formatPromptOriginal ct s.voice), d.written⟩
      else
        ⟨false, { d.stats with requests_failed := d.stats.requests_failed + 1 },
          d.usedFallback, some ct, keyOpt,
          some (formatPromptOriginal ct s.voice), none⟩

/-! ## Predicates used by the idempotence analysis of `clean_text`

For each `re.sub` pass, a Boolean scan expressing "this pass finds no
match here" (so the pass is the identity), plus the `Edited` relation
describing the local-edit structure of a pass's output, through which
no-match invariants are transported across later passes. -/

/-- No match of `<[^>]+>` anywhere: every `<` either has no later `>`
or is immediately followed by `>`. -/
def tagOk : List Char → Bool
  | [] => true
  | c :: rest =>
    (!(c = '<') || !(rest.contains '>') || rest.head? == some '>') && tagOk rest

/-- No match of `\b` + literal `pat` (which starts with a word
character): scanning with previous-character word state `pw`. -/
def litOk (pat : List Char) : Bool → List Char → Bool
  | _, [] => true
  | pw, c :: rest =>
    (pw || !(isPre pat (c :: rest))) && litOk pat (pyIsWord c) rest

/-- No match of `\b(\d+)sym`. -/
def numOk (sym : Char) : Bool → List Char → Bool
  | _, [] => true
  | pw, c :: rest =>
    (pw || !(pyIsDigit c) || !((rest.dropWhile pyIsDigit).head? == some sym)) &&
      numOk sym (pyIsWord c) rest

def headIsSpace (s : List Char) : Bool :=
  match s with
  | d :: _ => pyIsSpace d
  | [] => false

/-- Every white-space character is a single `' '` not followed by further
white space (so `\s+ → ' '` is the identity). -/
def wsOk : List Char → Bool
  | [] => true
  | c :: rest =>
    (!(pyIsSpace c) || (c = ' ' && !(headIsSpace rest))) && wsOk rest

/-- No leading or trailing white space (so `str.strip()` is the identity). -/
def edgeOk (s : List Char) : Bool := !(headIsSpace s) && !(headIsSpace s.reverse)

def noneIn (bad : List Char) (s : List Char) : Bool :=
  s.all (fun c => !(bad.contains c))

/-- `Edited P s t`: `t` is obtained from `s` by keeping characters and
replacing non-overlapping nonempty spans `a` by `b` for pairs allowed by
`P`, left to right. Every `re.sub` pass output stands in this relation
to its input for the pass's replacement-pair predicate. -/
inductive Edited (P : List Char → List Char → Prop) : List Char → List Char → Prop
  | nil : Edited P [] []
  | keep (c : Char) {s t : List Char} : Edited P s t → Edited P (c :: s) (c :: t)
  | edit {a b s t : List Char} : P a b → a ≠ [] → Edited P s t →
      Edited P (a ++ s) (b ++ t)

/-! ## JSON escape decoding (for injectivity of the cache serialisation) -/

/-- Inverse of one `escChar` chunk: parses a leading escaped character. -/
def decodeEsc : List Char → Option (Char × List Char)
  | [] => none
  | c :: rest =>
    if c = '\\' then
      match rest with
      | [] => none
      | k :: rest1 =>
        if k = 'u' then
          match rest1 with
          | a :: b :: c2 :: d :: rest2 =>
            let v := 4096 * hexCharVal a + 256 * hexCharVal b +
              16 * hexCharVal c2 + hexCharVal d
            if 55296 ≤ v ∧ v ≤ 56319 then
              match rest2 with
              | e1 :: e2 :: f1 :: f2 :: f3 :: f4 :: rest3 =>
                if e1 = '\\' ∧ e2 = 'u' then
                  let w := 4096 * hexCharVal f1 + 256 * hexCharVal f2 +
                    16 * hexCharVal f3 + hexCharVal f4
                  some (Char.ofNat (65536 + (v - 55296) * 1024 + (w - 56320)), rest3)
                else none
              | _ => none
            else some (Char.ofNat v, rest2)
          | _ => none
        else if k = quoteChar then some (quoteChar, rest1)
        else if k = '\\' then some ('\\', rest1)
        else if k = 'b' then some (Char.ofNat 8, rest1)
        else if k = 't' then some (Char.ofNat 9, rest1)
        else if k = 'n' then some (Char.ofNat 10, rest1)
        else if k = 'f' then some (Char.ofNat 12, rest1)
        else if k = 'r' then some (Char.ofNat 13, rest1)
        else none
    else some (c, rest)

/-- The four MD5 state words of the cache serialisation (the cache key is
their little-endian hex rendering). -/
def cacheWords (st : OrpheusSettingsL) (text : String) : Nat × Nat × Nat × Nat :=
  md5WordsOf (utf8 (cacheString st text))

/-- The sample count the spec's formula `round(sampleRate * len * 0.02)`
denotes: every valid sample rate is divisible by 50, so the exact value
`rate * len / 50` is an integer and no rounding ambiguity arises. -/
def specSampleCount (rate len : Nat) : Nat := rate * len / 50

/-! ## Concrete base values used by counterexamples and witnesses -/

def baseSettings : OrpheusSettingsL :=
  ⟨"http://localhost:11434/v1", "hf.co/unsloth/orpheus-3b-0.1-ft-GGUF:Q8_0",
   "tara", "neutral", "1.0", "wav", 22050, 16, 30, 1000, false, true⟩

def baseEnv (o : Option String) : CallEnv :=
  ⟨"2026-10-12T00:00:00", false, false, o, true, pySeedInt 0⟩

def hitEnv : CallEnv :=
  ⟨"2026-10-12T00:00:00", true, true, none, true, pySeedInt 0⟩

def twoTokenResponse : String := "<custom_token_36864><custom_token_32050>"

def oneTokenResponse : String := "<custom_token_32001>"

/-- `baseSettings` with `max_text_length = 100` (the smallest value the
settings validator accepts). -/
def baseSettings100 : OrpheusSettingsL :=
  ⟨"http://localhost:11434/v1", "hf.co/unsloth/orpheus-3b-0.1-ft-GGUF:Q8_0",
   "tara", "neutral", "1.0", "wav", 22050, 16, 30, 100, false, true⟩

/-- A 105-character input (its cleaned form is itself). -/
def longText : String := String.mk (List.replicate 105 'a')

/-- `baseSettings` with every field outside the five cache-key fields
changed (URL, model, sample rate, bit depth, timeout, max length,
debug), used to witness that the key ignores them. -/
def baseSettingsAlt : OrpheusSettingsL :=
  ⟨"http://other:1234/v1", "other-model", "tara", "neutral", "1.0", "wav",
   8000, 32, 120, 5000, true, true⟩

/-! ## Replacement-pair predicates

For each `re.sub` pass, the predicate describing the `(consumed, produced)`
span pairs its output stands in the `Edited` relation with its input. -/

def ctlPair (a b : List Char) : Prop := (∃ x, a = [x] ∧ isCtl x = true) ∧ b = []

def ellPair (a b : List Char) : Prop := a = ['…'] ∧ b = ['.', '.', '.']

def quotePair (a b : List Char) : Prop :=
  (∃ x, a = [x] ∧ (x = '“' ∨ x = '”' ∨ x = quoteChar)) ∧ b = [quoteChar]

def aposPair (a b : List Char) : Prop :=
  (∃ x, a = [x] ∧ (x = '‘' ∨ x = '’' ∨ x = aposChar)) ∧ b = [aposChar]

def collPair (a b : List Char) : Prop :=
  (∀ x ∈ a, pyIsSpace x = true) ∧ b = [' ']

def stripPair (a b : List Char) : Prop :=
  (∀ x ∈ a, pyIsSpace x = true) ∧ b = []

def litPair (pat rep a b : List Char) : Prop := a = pat ∧ b = rep

def numPair (sym : Char) (rep a b : List Char) : Prop :=
  ∃ c ds, pyIsDigit c = true ∧ (∀ x ∈ ds, pyIsDigit x = true) ∧
    a = c :: (ds ++ [sym]) ∧ b = c :: (ds ++ rep)

/-! # Theorems

First, each fuelled scanner is shown to be fuel-insensitive above its
input length, giving clean unfolding equations for the wrappers. -/

theorem dropWhile_length_le (p : Char → Bool) (l : List Char) :
    (l.dropWhile p).length ≤ l.length :=
  (List.dropWhile_suffix p).sublist.length_le

theorem subTagsAux_congr (fuel : Nat) :
    ∀ s : List Char, s.length ≤ fuel → subTagsAux fuel s = subTags s := by
  induction fuel using Nat.strong_induction_on with
  | _ fuel ih =>
    intro s hs
    cases s with
    | nil => cases fuel <;> rfl
    | cons c rest =>
      cases fuel with
      | zero => simp at hs
      | succ fuel =>
        have hrest : rest.length ≤ fuel := by
          simp only [List.length_cons] at hs
          omega
        show subTagsAux (fuel + 1) (c :: rest) = subTagsAux (rest.length + 1) (c :: rest)
        simp only [subTagsAux]
        by_cases hc : c = '<' ∧ rest.takeWhile (fun d => d ≠ '>') ≠ [] ∧
            rest.dropWhile (fun d => d ≠ '>') ≠ []
        · rw [if_pos hc, if_pos hc]
          have hX : ((rest.dropWhile (fun d => d ≠ '>')).tail).length ≤ rest.length := by
            have := dropWhile_length_le (fun d => d ≠ '>') rest
            simp only [List.length_tail]
            omega
          rw [ih fuel (by omega) _ (by omega),
            ih rest.length (by omega) _ hX]
        · rw [if_neg hc, if_neg hc]
          rw [ih fuel (by omega) rest hrest, ih rest.length (by omega) rest le_rfl]

theorem subTags_nil : subTags [] = [] := rfl

theorem subTags_cons (c : Char) (rest : List Char) :
    subTags (c :: rest) =
      if c = '<' ∧ rest.takeWhile (fun d => d ≠ '>') ≠ [] ∧
          rest.dropWhile (fun d => d ≠ '>') ≠ [] then
        subTags (rest.dropWhile (fun d => d ≠ '>')).tail
      else c :: subTags rest := by
  show subTagsAux (rest.length + 1) (c :: rest) = _
  simp only [subTagsAux]
  by_cases hc : c = '<' ∧ rest.takeWhile (fun d => d ≠ '>') ≠ [] ∧
      rest.dropWhile (fun d => d ≠ '>') ≠ []
  · rw [if_pos hc, if_pos hc]
    have hX : ((rest.dropWhile (fun d => d ≠ '>')).tail).length ≤ rest.length := by
      have := dropWhile_length_le (fun d => d ≠ '>') rest
      simp only [List.length_tail]
      omega
    exact subTagsAux_congr rest.length _ hX
  · rw [if_neg hc, if_neg hc]
    rw [subTagsAux_congr rest.length rest le_rfl]

theorem subItalicAux_congr (fuel : Nat) :
    ∀ s : List Char, s.length ≤ fuel → subItalicAux fuel s = subItalic s := by
  induction fuel using Nat.strong_induction_on with
  | _ fuel ih =>
    intro s hs
    cases s with
    | nil => cases fuel <;> rfl
    | cons c rest =>
      cases fuel with
      | zero => simp at hs
      | succ fuel =>
        have hrest : rest.length ≤ fuel := by
          simp only [List.length_cons] at hs
          omega
        show subItalicAux (fuel + 1) (c :: rest) = subItalicAux (rest.length + 1) (c :: rest)
        simp only [subItalicAux]
        by_cases hc : c = '*' ∧ rest.takeWhile (fun d => d ≠ '*') ≠ [] ∧
            rest.dropWhile (fun d => d ≠ '*') ≠ []
        · rw [if_pos hc, if_pos hc]
          have hX : ((rest.dropWhile (fun d => d ≠ '*')).tail).length ≤ rest.length := by
            have := dropWhile_length_le (fun d => d ≠ '*') rest
            simp only [List.length_tail]
            omega
          rw [ih fuel (by omega) _ (by omega), ih rest.length (by omega) _ hX]
        · rw [if_neg hc, if_neg hc]
          rw [ih fuel (by omega) rest hrest, ih rest.length (by omega) rest le_rfl]

theorem subItalic_nil : subItalic [] = [] := rfl

theorem subItalic_cons (c : Char) (rest : List Char) :
    subItalic (c :: rest) =
      if c = '*' ∧ rest.takeWhile (fun d => d ≠ '*') ≠ [] ∧
          rest.dropWhile (fun d => d ≠ '*') ≠ [] then
        rest.takeWhile (fun d => d ≠ '*') ++ subItalic (rest.dropWhile (fun d => d ≠ '*')).tail
      else c :: subItalic rest := by
  show subItalicAux (rest.length + 1) (c :: rest) = _
  simp only [subItalicAux]
  by_cases hc : c = '*' ∧ rest.takeWhile (fun d => d ≠ '*') ≠ [] ∧
      rest.dropWhile (fun d => d ≠ '*') ≠ []
  · rw [if_pos hc, if_pos hc]
    have hX : ((rest.dropWhile (fun d => d ≠ '*')).tail).length ≤ rest.length := by
      have := dropWhile_length_le (fun d => d ≠ '*') rest
      simp only [List.length_tail]
      omega
    rw [subItalicAux_congr rest.length _ hX]
  · rw [if_neg hc, if_neg hc]
    rw [subItalicAux_congr rest.length rest le_rfl]

theorem subDelimAux_congr (del : Char) (fuel : Nat) :
    ∀ s : List Char, s.length ≤ fuel → subDelimAux del fuel s = subDelim del s := by
  induction fuel using Nat.strong_induction_on with
  | _ fuel ih =>
    intro s hs
    cases s with
    | nil => cases fuel <;> rfl
    | cons c rest =>
      cases fuel with
      | zero => simp at hs
      | succ fuel =>
        have hrest : rest.length ≤ fuel := by
          simp only [List.length_cons] at hs
          omega
        show subDelimAux del (fuel + 1) (c :: rest) = subDelimAux del (rest.length + 1) (c :: rest)
        simp only [subDelimAux]
        by_cases hc : c = del ∧ rest.takeWhile (fun d => d ≠ del) ≠ [] ∧
            rest.dropWhile (fun d => d ≠ del) ≠ []
        · rw [if_pos hc, if_pos hc]
          have hX : ((rest.dropWhile (fun d => d ≠ del)).tail).length ≤ rest.length := by
            have := dropWhile_length_le (fun d => d ≠ del) rest
            simp only [List.length_tail]
            omega
          rw [ih fuel (by omega) _ (by omega), ih rest.length (by omega) _ hX]
        · rw [if_neg hc, if_neg hc]
          rw [ih fuel (by omega) rest hrest, ih rest.length (by omega) rest le_rfl]

theorem subDelim_cons (del c : Char) (rest : List Char) :
    subDelim del (c :: rest) =
      if c = del ∧ rest.takeWhile (fun d => d ≠ del) ≠ [] ∧
          rest.dropWhile (fun d => d ≠ del) ≠ [] then
        rest.takeWhile (fun d => d ≠ del) ++ subDelim del (rest.dropWhile (fun d => d ≠ del)).tail
      else c :: subDelim del rest := by
  show subDelimAux del (rest.length + 1) (c :: rest) = _
  simp only [subDelimAux]
  by_cases hc : c = del ∧ rest.takeWhile (fun d => d ≠ del) ≠ [] ∧
      rest.dropWhile (fun d => d ≠ del) ≠ []
  · rw [if_pos hc, if_pos hc]
    have hX : ((rest.dropWhile (fun d => d ≠ del)).tail).length ≤ rest.length := by
      have := dropWhile_length_le (fun d => d ≠ del) rest
      simp only [List.length_tail]
      omega
    rw [subDelimAux_congr del rest.length _ hX]
  · rw [if_neg hc, if_neg hc]
    rw [subDelimAux_congr del rest.length rest le_rfl]

theorem subBoldAux_congr (fuel : Nat) :
    ∀ s : List Char, s.length ≤ fuel → subBoldAux fuel s = subBold s := by
  induction fuel using Nat.strong_induction_on with
  | _ fuel ih =>
    intro s hs
    cases s with
    | nil => cases fuel <;> rfl
    | cons c s1 =>
      cases s1 with
      | nil =>
        cases fuel with
        | zero => simp at hs
        | succ fuel => rfl
      | cons c2 rest =>
        cases fuel with
        | zero => simp at hs
        | succ fuel =>
          have hrest : rest.length + 1 ≤ fuel := by
            simp only [List.length_cons] at hs
            omega
          show subBoldAux (fuel + 1) (c :: c2 :: rest) =
            subBoldAux (rest.length + 1 + 1) (c :: c2 :: rest)
          simp only [subBoldAux]
          by_cases hc : c = '*' ∧ c2 = '*' ∧ rest.takeWhile (fun d => d ≠ '*') ≠ [] ∧
              ((rest.dropWhile (fun d => d ≠ '*')).drop 1).head? = some '*'
          · rw [if_pos hc, if_pos hc]
            have hX : ((rest.dropWhile (fun d => d ≠ '*')).drop 2).length ≤ rest.length := by
              have := dropWhile_length_le (fun d => d ≠ '*') rest
              simp only [List.length_drop]
              omega
            rw [ih fuel (by omega) _ (by omega), ih (rest.length + 1) (by omega) _ (by omega)]
          · rw [if_neg hc, if_neg hc]
            rw [ih fuel (by omega) _ (by simp only [List.length_cons]; omega),
              ih (rest.length + 1) (by omega) _ (by simp only [List.length_cons]; omega)]

theorem subBold_cons₂ (c c2 : Char) (rest : List Char) :
    subBold (c :: c2 :: rest) =
      if c = '*' ∧ c2 = '*' ∧ rest.takeWhile (fun d => d ≠ '*') ≠ [] ∧
          ((rest.dropWhile (fun d => d ≠ '*')).drop 1).head? = some '*' then
        rest.takeWhile (fun d => d ≠ '*') ++ subBold ((rest.dropWhile (fun d => d ≠ '*')).drop 2)
      else c :: subBold (c2 :: rest) := by
  show subBoldAux (rest.length + 1 + 1) (c :: c2 :: rest) = _
  simp only [subBoldAux]
  by_cases hc : c = '*' ∧ c2 = '*' ∧ rest.takeWhile (fun d => d ≠ '*') ≠ [] ∧
      ((rest.dropWhile (fun d => d ≠ '*')).drop 1).head? = some '*'
  · rw [if_pos hc, if_pos hc]
    have hX : ((rest.dropWhile (fun d => d ≠ '*')).drop 2).length ≤ rest.length := by
      have := dropWhile_length_le (fun d => d ≠ '*') rest
      simp only [List.length_drop]
      omega
    rw [subBoldAux_congr (rest.length + 1) _ (by omega)]
  · rw [if_neg hc, if_neg hc]
    rw [subBoldAux_congr (rest.length + 1) _ (by simp only [List.length_cons]; omega)]

theorem collapseWsAux_congr (fuel : Nat) :
    ∀ s : List Char, s.length ≤ fuel → collapseWsAux fuel s = collapseWs s := by
  induction fuel using Nat.strong_induction_on with
  | _ fuel ih =>
    intro s hs
    cases s with
    | nil => cases fuel <;> rfl
    | cons c rest =>
      cases fuel with
      | zero => simp at hs
      | succ fuel =>
        have hrest : rest.length ≤ fuel := by
          simp only [List.length_cons] at hs
          omega
        show collapseWsAux (fuel + 1) (c :: rest) = collapseWsAux (rest.length + 1) (c :: rest)
        simp only [collapseWsAux]
        by_cases hc : pyIsSpace c = true
        · rw [if_pos hc, if_pos hc]
          have hX : (rest.dropWhile pyIsSpace).length ≤ rest.length :=
            dropWhile_length_le pyIsSpace rest
          rw [ih fuel (by omega) _ (by omega), ih rest.length (by omega) _ hX]
        · rw [if_neg hc, if_neg hc]
          rw [ih fuel (by omega) rest hrest, ih rest.length (by omega) rest le_rfl]

theorem collapseWs_cons (c : Char) (rest : List Char) :
    collapseWs (c :: rest) =
      if pyIsSpace c then ' ' :: collapseWs (rest.dropWhile pyIsSpace)
      else c :: collapseWs rest := by
  show collapseWsAux (rest.length + 1) (c :: rest) = _
  simp only [collapseWsAux]
  by_cases hc : pyIsSpace c = true
  · rw [if_pos hc, if_pos hc]
    rw [collapseWsAux_congr rest.length _ (dropWhile_length_le pyIsSpace rest)]
  · rw [if_neg hc, if_neg hc]
    rw [collapseWsAux_congr rest.length rest le_rfl]

theorem subLitAux_congr (p0 : Char) (prest rep : List Char) (fuel : Nat) :
    ∀ (pw : Bool) (s : List Char), s.length ≤ fuel →
      subLitAux p0 prest rep fuel pw s = subLit p0 prest rep pw s := by
  induction fuel using Nat.strong_induction_on with
  | _ fuel ih =>
    intro pw s hs
    cases s with
    | nil => cases fuel <;> rfl
    | cons c rest =>
      cases fuel with
      | zero => simp at hs
      | succ fuel =>
        have hrest : rest.length ≤ fuel := by
          simp only [List.length_cons] at hs
          omega
        show subLitAux p0 prest rep (fuel + 1) pw (c :: rest) =
          subLitAux p0 prest rep (rest.length + 1) pw (c :: rest)
        simp only [subLitAux]
        by_cases hc : !pw ∧ isPre (p0 :: prest) (c :: rest) = true
        · rw [if_pos hc, if_pos hc]
          have hX : (rest.drop prest.length).length ≤ rest.length := by
            simp only [List.length_drop]
            omega
          rw [ih fuel (by omega) _ _ (by omega), ih rest.length (by omega) _ _ hX]
        · rw [if_neg hc, if_neg hc]
          rw [ih fuel (by omega) _ rest hrest, ih rest.length (by omega) _ rest le_rfl]

theorem subLit_cons (p0 : Char) (prest rep : List Char) (pw : Bool) (c : Char)
    (rest : List Char) :
    subLit p0 prest rep pw (c :: rest) =
      if !pw ∧ isPre (p0 :: prest) (c :: rest) then
        rep ++ subLit p0 prest rep
          (pyIsWord ((p0 :: prest).getLast (List.cons_ne_nil p0 prest)))
          (rest.drop prest.length)
      else c :: subLit p0 prest rep (pyIsWord c) rest := by
  show subLitAux p0 prest rep (rest.length + 1) pw (c :: rest) = _
  simp only [subLitAux]
  by_cases hc : !pw ∧ isPre (p0 :: prest) (c :: rest) = true
  · rw [if_pos hc, if_pos hc]
    rw [subLitAux_congr p0 prest rep rest.length _ _ (by simp only [List.length_drop]; omega)]
  · rw [if_neg hc, if_neg hc]
    rw [subLitAux_congr p0 prest rep rest.length _ rest le_rfl]

theorem subNumAux_congr (sym : Char) (rep : List Char) (fuel : Nat) :
    ∀ (pw : Bool) (s : List Char), s.length ≤ fuel →
      subNumAux sym rep fuel pw s = subNum sym rep pw s := by
  induction fuel using Nat.strong_induction_on with
  | _ fuel ih =>
    intro pw s hs
    cases s with
    | nil => cases fuel <;> rfl
    | cons c rest =>
      cases fuel with
      | zero => simp at hs
      | succ fuel =>
        have hrest : rest.length ≤ fuel := by
          simp only [List.length_cons] at hs
          omega
        show subNumAux sym rep (fuel + 1) pw (c :: rest) =
          subNumAux sym rep (rest.length + 1) pw (c :: rest)
        simp only [subNumAux]
        by_cases hc : !pw ∧ pyIsDigit c ∧ (rest.dropWhile pyIsDigit).head? = some sym
        · rw [if_pos hc, if_pos hc]
          have hX : ((rest.dropWhile pyIsDigit).tail).length ≤ rest.length := by
            have := dropWhile_length_le pyIsDigit rest
            simp only [List.length_tail]
            omega
          rw [ih fuel (by omega) _ _ (by omega), ih rest.length (by omega) _ _ hX]
        · rw [if_neg hc, if_neg hc]
          rw [ih fuel (by omega) _ rest hrest, ih rest.length (by omega) _ rest le_rfl]

theorem subNum_cons (sym : Char) (rep : List Char) (pw : Bool) (c : Char)
    (rest : List Char) :
    subNum sym rep pw (c :: rest) =
      if !pw ∧ pyIsDigit c ∧ (rest.dropWhile pyIsDigit).head? = some sym then
        c :: rest.takeWhile pyIsDigit ++ rep ++
          subNum sym rep (pyIsWord sym) (rest.dropWhile pyIsDigit).tail
      else c :: subNum sym rep (pyIsWord c) rest := by
  show subNumAux sym rep (rest.length + 1) pw (c :: rest) = _
  simp only [subNumAux]
  by_cases hc : !pw ∧ pyIsDigit c ∧ (rest.dropWhile pyIsDigit).head? = some sym
  · rw [if_pos hc, if_pos hc]
    have hX : ((rest.dropWhile pyIsDigit).tail).length ≤ rest.length := by
      have := dropWhile_length_le pyIsDigit rest
      simp only [List.length_tail]
      omega
    rw [subNumAux_congr sym rep rest.length _ _ hX]
  · rw [if_neg hc, if_neg hc]
    rw [subNumAux_congr sym rep rest.length _ rest le_rfl]

theorem findCustomTokensAux_congr (fuel : Nat) :
    ∀ s : List Char, s.length ≤ fuel → findCustomTokensAux fuel s = findCustomTokens s := by
  induction fuel using Nat.strong_induction_on with
  | _ fuel ih =>
    intro s hs
    cases s with
    | nil => cases fuel <;> rfl
    | cons c rest =>
      cases fuel with
      | zero => simp at hs
      | succ fuel =>
        have hrest : rest.length ≤ fuel := by
          simp only [List.length_cons] at hs
          omega
        show findCustomTokensAux (fuel + 1) (c :: rest) =
          findCustomTokensAux (rest.length + 1) (c :: rest)
        simp only [findCustomTokensAux]
        by_cases hc : isPre ctmLit (c :: rest) ∧
            (((c :: rest).drop ctmLit.length).dropWhile pyIsDigit).head? = some '>' ∧
            ((c :: rest).drop ctmLit.length).takeWhile pyIsDigit ≠ []
        · rw [if_pos hc, if_pos hc]
          have hX : ((((c :: rest).drop ctmLit.length).dropWhile pyIsDigit).tail).length ≤
              rest.length := by
            have h1 := dropWhile_length_le pyIsDigit ((c :: rest).drop ctmLit.length)
            simp only [List.length_tail, List.length_drop, List.length_cons] at h1 ⊢
            have hlit : ctmLit.length = 14 := by decide
            omega
          rw [ih fuel (by omega) _ (by omega), ih rest.length (by omega) _ hX]
        · rw [if_neg hc, if_neg hc]
          rw [ih fuel (by omega) rest hrest, ih rest.length (by omega) rest le_rfl]

theorem findCustomTokens_cons (c : Char) (rest : List Char) :
    findCustomTokens (c :: rest) =
      if isPre ctmLit (c :: rest) ∧
          (((c :: rest).drop ctmLit.length).dropWhile pyIsDigit).head? = some '>' ∧
          ((c :: rest).drop ctmLit.length).takeWhile pyIsDigit ≠ [] then
        parseDigitsVal (((c :: rest).drop ctmLit.length).takeWhile pyIsDigit) ::
          findCustomTokens (((c :: rest).drop ctmLit.length).dropWhile pyIsDigit).tail
      else findCustomTokens rest := by
  show findCustomTokensAux (rest.length + 1) (c :: rest) = _
  simp only [findCustomTokensAux]
  by_cases hc : isPre ctmLit (c :: rest) ∧
      (((c :: rest).drop ctmLit.length).dropWhile pyIsDigit).head? = some '>' ∧
      ((c :: rest).drop ctmLit.length).takeWhile pyIsDigit ≠ []
  · rw [if_pos hc, if_pos hc]
    have hX : ((((c :: rest).drop ctmLit.length).dropWhile pyIsDigit).tail).length ≤
        rest.length := by
      have h1 := dropWhile_length_le pyIsDigit ((c :: rest).drop ctmLit.length)
      simp only [List.length_tail, List.length_drop, List.length_cons] at h1 ⊢
      have hlit : ctmLit.length = 14 := by decide
      omega
    rw [findCustomTokensAux_congr rest.length _ hX]
  · rw [if_neg hc, if_neg hc]
    rw [findCustomTokensAux_congr rest.length rest le_rfl]

theorem chunks50Aux_congr (fuel : Nat) :
    ∀ l : List Nat, l.length ≤ fuel → chunks50Aux fuel l = chunks50 l := by
  induction fuel using Nat.strong_induction_on with
  | _ fuel ih =>
    intro l hl
    cases l with
    | nil => cases fuel <;> rfl
    | cons t rest =>
      cases fuel with
      | zero => simp at hl
      | succ fuel =>
        have hrest : rest.length ≤ fuel := by
          simp only [List.length_cons] at hl
          omega
        show chunks50Aux (fuel + 1) (t :: rest) = chunks50Aux (rest.length + 1) (t :: rest)
        simp only [chunks50Aux]
        have hX : ((t :: rest).drop 50).length ≤ rest.length := by
          simp only [List.length_drop, List.length_cons]
          omega
        rw [ih fuel (by omega) _ (by omega), ih rest.length (by omega) _ hX]

theorem chunks50_cons (t : Nat) (rest : List Nat) :
    chunks50 (t :: rest) = (t :: rest).take 50 :: chunks50 ((t :: rest).drop 50) := by
  show chunks50Aux (rest.length + 1) (t :: rest) = _
  simp only [chunks50Aux]
  rw [chunks50Aux_congr rest.length _ (by simp only [List.length_drop, List.length_cons]; omega)]

/-! ## C3: deterministic fallback tokens -/

/-- C3: `_generate_simulated_tokens` is deterministic for a fixed
`(text, voice)` pair: its result — in particular the token sequence,
with its length and element order — does not depend on the incoming
state of the process-wide `random` generator (the call reseeds it from
`md5(f"{text}_{voice}")` alone), so two calls yield identical sequences. -/
theorem simulated_tokens_deterministic (text voice : String) (g1 g2 : MTState) :
    generateSimulatedTokens text voice g1 = generateSimulatedTokens text voice g2 :=
  rfl

/-! ## C4: chunking, sample counts and base frequency -/

theorem chunks50_mem_length_aux (n : Nat) :
    ∀ l : List Nat, l.length ≤ n → ∀ c ∈ chunks50 l, 1 ≤ c.length ∧ c.length ≤ 50 := by
  induction n using Nat.strong_induction_on with
  | _ n ih =>
    intro l hl c hc
    cases l with
    | nil => simp [chunks50, chunks50Aux] at hc
    | cons t rest =>
      rw [chunks50_cons] at hc
      rcases List.mem_cons.mp hc with h | h
      · subst h
        refine ⟨by simp, ?_⟩
        simpa using List.length_take_le 50 (t :: rest)
      · have hd : ((t :: rest).drop 50).length < n := by
          simp only [List.length_drop, List.length_cons] at *
          omega
        exact ih ((t :: rest).drop 50).length hd _ le_rfl c h

theorem chunks50_mem_length (l : List Nat) :
    ∀ c ∈ chunks50 l, 1 ≤ c.length ∧ c.length ≤ 50 :=
  chunks50_mem_length_aux l.length l le_rfl

set_option maxRecDepth 4000 in
theorem chunkSamples_table :
    ∀ r ∈ [8000, 16000, 22050, 44100, 48000], ∀ n ∈ List.range 51,
      n = 0 ∨ chunkSamples r n =
        (if r = 48000 ∧ n = 29 then 27839 else specSampleCount r n) := by decide

/-- C4 counterexample: at sample rate 48000, a chunk of 29 tokens gets
`int(48000 * (29 * 0.02)) = 27839` samples in the double arithmetic the
source performs, while the claim's `round(48000 * 29 * 0.02) = 27840`
(the exact product is the integer 27840). -/
theorem chunk_samples_counterexample :
    chunkSamples 48000 29 = 27839 ∧ specSampleCount 48000 29 = 27840 ∧
    chunkSamples 48000 29 ≠ specSampleCount 48000 29 := by decide

/-- C4 as amended: tokens are partitioned into chunks of 50 (each chunk
nonempty, of at most 50 tokens), each chunk's sine frequency is
`200 + (sum(chunk) mod 400)`, and each chunk's sample count equals the
claim's `round(sampleRate * len(chunk) * 0.02)` for every valid sample
rate and chunk length **except** rate 48000 with a 29-token chunk, where
the source's float truncation yields 27839 instead of 27840. -/
theorem chunk_specs_amended (tokens : List Nat) (rate : Nat)
    (hr : rate ∈ [8000, 16000, 22050, 44100, 48000]) :
    ∀ c ∈ chunks50 tokens,
      1 ≤ c.length ∧ c.length ≤ 50 ∧
      chunkBaseFreq c = 200 + c.sum % 400 ∧
      chunkSamples rate c.length =
        (if rate = 48000 ∧ c.length = 29 then 27839 else specSampleCount rate c.length) := by
  intro c hc
  obtain ⟨h1, h2⟩ := chunks50_mem_length tokens c hc
  refine ⟨h1, h2, rfl, ?_⟩
  have := chunkSamples_table rate hr c.length (by simp [List.mem_range]; omega)
  rcases this with h | h
  · omega
  · exact h

/-- C4 witness: the amended statement applied to the end-to-end
example's token list and sample rate. -/
theorem chunk_specs_amended_witness :
    chunkSamples 22050 2 = specSampleCount 22050 2 ∧ chunkBaseFreq [768, 50] = 218 := by
  have h := chunk_specs_amended [768, 50] 22050 (by decide) [768, 50] (by decide)
  refine ⟨?_, by decide⟩
  have h4 := h.2.2.2
  have hlen : ([768, 50] : List Nat).length = 2 := by decide
  rw [hlen] at h4
  simpa using h4

/-! ## C7: token extraction and normalisation -/

theorem convertTokenId_range (n : Nat) :
    0 ≤ convertTokenId n ∧ convertTokenId n < 4096 :=
  ⟨Int.emod_nonneg _ (by decide), Int.emod_lt_of_pos _ (by decide)⟩

/-- C7: the range filter of `_extract_custom_tokens` never discards a
match — the extraction equals the plain left-to-right map of
`(N - 32000) mod 4096` over all matches (duplicates kept, order
preserved) — and every returned element lies in `[0, 4095]`. -/
theorem extract_tokens_filter_free (s : List Char) :
    extractCustomTokens s = specExtractTokens s ∧
    ∀ x ∈ extractCustomTokens s, x ≤ 4095 := by
  have hmap : ∀ l : List Nat,
      (l.foldr (fun n acc =>
        if 0 ≤ convertTokenId n ∧ convertTokenId n ≤ 4096 then
          (convertTokenId n).toNat :: acc
        else acc) []) = l.map (fun n => (convertTokenId n).toNat) := by
    intro l
    induction l with
    | nil => rfl
    | cons n t ih =>
      obtain ⟨hnn, hlt⟩ := convertTokenId_range n
      have hcond : 0 ≤ convertTokenId n ∧ convertTokenId n ≤ 4096 := ⟨hnn, by omega⟩
      simp only [List.foldr, List.map, ih, if_pos hcond]
  constructor
  · exact hmap (findCustomTokens s)
  · intro x hx
    rw [show extractCustomTokens s = specExtractTokens s from hmap (findCustomTokens s)] at hx
    obtain ⟨n, _, hn⟩ := List.mem_map.mp hx
    obtain ⟨hnn, hlt⟩ := convertTokenId_range n
    omega

/-! ## C9: the end-to-end example -/

/-- C9: for a response containing `<custom_token_36864>` and
`<custom_token_32050>`, extraction yields exactly `[768, 50]`; at sample
rate 22050 those two tokens form a single chunk of 882 samples with base
sine frequency 218 Hz, and the produced WAV bytes declare a `data`
subchunk size of 1764 (bytes 40–43 of the header, little endian). -/
theorem end_to_end_example :
    extractCustomTokens "<custom_token_36864><custom_token_32050>".data = [768, 50] ∧
    chunks50 [768, 50] = [[768, 50]] ∧
    chunkSpecs [768, 50] 22050 = [(882, 218)] ∧
    convertTokensToAudio [768, 50] 22050 =
      some (WavAudio.mk (wavHeader 882 22050) 882 22050) ∧
    (wavHeader 882 22050).drop 40 = toBytesLE 4 1764 ∧
    toBytesLE 4 1764 = [228, 6, 0, 0] := by decide

/-! ## C5: per-request statistics and the failure counter -/

theorem generateAudioDirect_stats (s : OrpheusSettingsL) (env : CallEnv)
    (st : EngineStats) (text : String) :
    (generateAudioDirect s env st text).stats.requests_total = st.requests_total ∧
    (generateAudioDirect s env st text).stats.requests_success = st.requests_success ∧
    (generateAudioDirect s env st text).stats.requests_failed = st.requests_failed ∧
    (generateAudioDirect s env st text).stats.cache_hits = st.cache_hits ∧
    (generateAudioDirect s env st text).stats.last_request = st.last_request := by
  unfold generateAudioDirect
  cases env.ollamaResponse with
  | none => exact ⟨rfl, rfl, rfl, rfl, rfl⟩
  | some r =>
    by_cases hr : r.data = []
    · simp [if_pos hr]
    · simp only [if_neg hr]
      cases hconv : convertTokensToAudio
          (if extractCustomTokens r.data = [] then
            (generateSimulatedTokens text s.voice env.randomState).1
          else extractCustomTokens r.data) s.sample_rate with
      | none => simp [hconv]
      | some wav =>
        simp only [hconv]
        by_cases hw : env.writeOk = true
        · simp [if_pos hw]
        · simp [if_neg hw]

/-- C5 counterexample: on input `"<x>"` (which cleans to the empty
string) `generate_speech` returns the failure outcome without
incrementing `requests_failed`, contradicting the claim that every
failure outcome — including empty-after-cleaning input — increments it
by exactly one. -/
theorem request_stats_counterexample :
    ¬ (∀ (s : OrpheusSettingsL) (env : CallEnv) (st : EngineStats) (t : String),
        (generateSpeech s env st t).ok = false →
        (generateSpeech s env st t).stats.requests_failed = st.requests_failed + 1) := by
  intro h
  have h2 := h baseSettings (baseEnv none) initialStats "<x>" (by decide)
  have h3 : (generateSpeech baseSettings (baseEnv none) initialStats "<x>").stats.requests_failed
      = 0 := by decide
  rw [h3] at h2
  exact absurd h2 (by decide)

/-- C5 as amended: every call increments `requestsTotal` by exactly one
and stamps `lastRequestTimestamp` at the start; a call whose input is
empty after cleaning returns the failure outcome with `requestsFailed`
unchanged; every other failure outcome increments `requestsFailed` by
exactly one; a success leaves it unchanged.  (The embedding is total:
the source's catch-all `except` keeps any exception from escaping.) -/
theorem request_stats_amended (s : OrpheusSettingsL) (env : CallEnv)
    (st : EngineStats) (t : String) :
    (generateSpeech s env st t).stats.requests_total = st.requests_total + 1 ∧
    (generateSpeech s env st t).stats.last_request = some env.now ∧
    ((cleanText t).data = [] →
      (generateSpeech s env st t).ok = false ∧
      (generateSpeech s env st t).stats.requests_failed = st.requests_failed) ∧
    ((generateSpeech s env st t).ok = false → (cleanText t).data ≠ [] →
      (generateSpeech s env st t).stats.requests_failed = st.requests_failed + 1) ∧
    ((generateSpeech s env st t).ok = true →
      (generateSpeech s env st t).stats.requests_failed = st.requests_failed) := by
  unfold generateSpeech
  by_cases h0 : (cleanText t).data = []
  · simp [h0]
  · simp only [if_neg h0]
    by_cases hc : s.audio_cache_enabled ∧ env.cacheFileExists ∧ env.copyCachedOk
    · simp [if_pos hc, h0]
    · simp only [if_neg hc]
      have hstats := generateAudioDirect_stats s env
        { st with requests_total := st.requests_total + 1, last_request := some env.now }
        (if s.max_text_length < (cleanText t).data.length
          then String.mk ((cleanText t).data.take s.max_text_length) else cleanText t)
      dsimp only at hstats
      generalize hd0 : generateAudioDirect s env
        { st with requests_total := st.requests_total + 1, last_request := some env.now }
        (if s.max_text_length < (cleanText t).data.length
          then String.mk ((cleanText t).data.take s.max_text_length) else cleanText t) = d
      rw [hd0] at hstats
      obtain ⟨hs1, hs2, hs3, hs4, hs5⟩ := hstats
      rcases d with ⟨dok, dstats, dfb, dtoks, dwr⟩
      dsimp only at hs1 hs2 hs3 hs4 hs5
      cases dok with
      | true => simp [h0, hs1, hs3, hs5]
      | false => simp [h0, hs1, hs3, hs5]

/-- C5 witness: the amended statement at the empty-cleaning
counterexample input and at a successful cache-hit call. -/
theorem request_stats_amended_witness :
    (generateSpeech baseSettings (baseEnv none) initialStats "<x>").stats.requests_total = 1 ∧
    (generateSpeech baseSettings (baseEnv none) initialStats "<x>").stats.requests_failed = 0 ∧
    (generateSpeech baseSettings hitEnv initialStats "ciao").stats.requests_failed = 0 := by
  refine ⟨?_, ?_, ?_⟩
  · exact (request_stats_amended baseSettings (baseEnv none) initialStats "<x>").1
  · exact ((request_stats_amended baseSettings (baseEnv none) initialStats "<x>").2.2.1
      (by decide)).2
  · exact (request_stats_amended baseSettings hitEnv initialStats "ciao").2.2.2.2 (by decide)

/-! ## C6: `tokensGenerated` is overwritten, not accumulated -/

/-- C6 counterexample: two successive generation calls; the first
generates two tokens, the second one token, and `tokensGenerated`
drops from 2 to 1 — it is not a non-decreasing process-lifetime
accumulator. -/
theorem tokens_generated_counterexample :
    (generateSpeech baseSettings (baseEnv (some twoTokenResponse)) initialStats
      "ciao").stats.tokens_generated = 2 ∧
    (generateSpeech baseSettings (baseEnv (some oneTokenResponse))
      (generateSpeech baseSettings (baseEnv (some twoTokenResponse)) initialStats
        "ciao").stats "ciao").stats.tokens_generated = 1 := by decide

/-- C6 as amended: on every generation-path call, `tokensGenerated` is
overwritten with the token count of that call alone — independently of
its previous value, so it can decrease across calls — and
`reset_stats` sets it back to zero. -/
theorem tokens_generated_amended (s : OrpheusSettingsL) (env : CallEnv)
    (st : EngineStats) (text r : String) (n : Nat)
    (hr : env.ollamaResponse = some r) (hne : r.data ≠ []) :
    (generateAudioDirect s env st text).stats.tokens_generated =
      (generateAudioDirect s env st text).tokens.length ∧
    (generateAudioDirect s env st text).tokens =
      (if extractCustomTokens r.data = [] then
        (generateSimulatedTokens text s.voice env.randomState).1
      else extractCustomTokens r.data) ∧
    (generateAudioDirect s env { st with tokens_generated := n } text).stats.tokens_generated =
      (generateAudioDirect s env st text).stats.tokens_generated ∧
    (resetStats st).tokens_generated = 0 := by
  unfold generateAudioDirect
  rw [hr]
  simp only [if_neg hne]
  cases hconv : convertTokensToAudio
      (if extractCustomTokens r.data = [] then
        (generateSimulatedTokens text s.voice env.randomState).1
      else extractCustomTokens r.data) s.sample_rate with
  | none => simp [hconv, resetStats]
  | some wav =>
    simp only [hconv]
    by_cases hw : env.writeOk = true
    · simp [if_pos hw, resetStats]
    · simp [if_neg hw, resetStats]

/-- C6 witness: the amended statement at the one-token generation call. -/
theorem tokens_generated_amended_witness :
    (generateAudioDirect baseSettings (baseEnv (some oneTokenResponse)) initialStats
      "ciao").stats.tokens_generated = 1 := by
  have h := tokens_generated_amended baseSettings (baseEnv (some oneTokenResponse))
    initialStats "ciao" oneTokenResponse 7 (by decide) (by decide)
  rw [h.1, h.2.1]
  decide

/-! ## C8: when the fallback generator runs -/

/-- C8 counterexample: an Ollama call that succeeds with an empty
response text (`result.get('response', '') = ""`): extraction would be
empty, yet `_generate_audio_direct` aborts through its
`if not token_response:` truthiness check without invoking the fallback
generator, contradicting "invoked exactly when the endpoint call
succeeds but extraction yields an empty stream". -/
theorem fallback_counterexample :
    (baseEnv (some "")).ollamaResponse = some "" ∧
    extractCustomTokens "".data = [] ∧
    (generateAudioDirect baseSettings (baseEnv (some "")) initialStats "ciao").usedFallback
      = false ∧
    (generateAudioDirect baseSettings (baseEnv (some "")) initialStats "ciao").ok = false := by
  decide

/-- C8 as amended: the fallback token generator is invoked exactly when
the endpoint call succeeds with a **nonempty** response text whose
extraction yields an empty stream; both an endpoint failure and an
empty response text abort the request with the failure outcome without
invoking the fallback. -/
theorem fallback_amended (s : OrpheusSettingsL) (env : CallEnv)
    (st : EngineStats) (text : String) :
    ((generateAudioDirect s env st text).usedFallback = true ↔
      (∃ r, env.ollamaResponse = some r ∧ r.data ≠ [] ∧
        extractCustomTokens r.data = [])) ∧
    (env.ollamaResponse = none →
      (generateAudioDirect s env st text).ok = false ∧
      (generateAudioDirect s env st text).usedFallback = false) ∧
    (env.ollamaResponse = some "" →
      (generateAudioDirect s env st text).ok = false ∧
      (generateAudioDirect s env st text).usedFallback = false) := by
  unfold generateAudioDirect
  cases hr : env.ollamaResponse with
  | none => simp
  | some r =>
    by_cases hne : r.data = []
    · have hr0 : r = "" := by
        cases r with
        | mk data => simp at hne; simp [hne]
      simp [if_pos hne, hr0]
    · simp only [if_neg hne]
      cases hconv : convertTokensToAudio
          (if extractCustomTokens r.data = [] then
            (generateSimulatedTokens text s.voice env.randomState).1
          else extractCustomTokens r.data) s.sample_rate with
      | none =>
        simp only [hconv]
        constructor
        · simp [hne]
        · constructor
          · intro h; simp at h
          · intro h
            exfalso
            have h2 : r = "" := by injection h
            rw [h2] at hne
            exact hne rfl
      | some wav =>
        simp only [hconv]
        by_cases hw : env.writeOk = true
        · simp only [if_pos hw]
          refine ⟨by simp [hne], by simp, ?_⟩
          intro h
          exfalso
          have h2 : r = "" := by injection h
          rw [h2] at hne
          exact hne rfl
        · simp only [if_neg hw]
          refine ⟨by simp [hne], by simp, ?_⟩
          intro h
          exfalso
          have h2 : r = "" := by injection h
          rw [h2] at hne
          exact hne rfl

/-- C8 witness: the amended statement at a nonempty response with no
custom-token markers (fallback used) and at an endpoint failure (no
fallback, call aborted). -/
theorem fallback_amended_witness :
    (generateAudioDirect baseSettings (baseEnv (some "hello")) initialStats
      "ciao").usedFallback = true ∧
    (generateAudioDirect baseSettings (baseEnv none) initialStats "ciao").ok = false ∧
    (generateAudioDirect baseSettings (baseEnv none) initialStats
      "ciao").usedFallback = false := by
  refine ⟨?_, ?_⟩
  · exact (fallback_amended baseSettings (baseEnv (some "hello")) initialStats "ciao").1.mpr
      ⟨"hello", rfl, by decide, by decide⟩
  · exact (fallback_amended baseSettings (baseEnv none) initialStats "ciao").2.1 rfl

/-! ## C10: silent truncation of over-long cleaned text -/

/-- C10: when the cleaned text exceeds `max_text_length`, the call
silently truncates it to its first `max_text_length` characters and
proceeds: the cache key (when the cache is enabled), the prompt sent to
the generator, and any synthesized audio are all computed from the
truncated text, and truncation itself does not produce the failure
outcome (the witness exhibits a successful call on over-long input). -/
theorem truncation_silent (s : OrpheusSettingsL) (env : CallEnv)
    (st : EngineStats) (t : String)
    (hlen : s.max_text_length < (cleanText t).data.length) :
    (generateSpeech s env st t).usedText =
      some (String.mk ((cleanText t).data.take s.max_text_length)) ∧
    (generateSpeech s env st t).keyUsed =
      (if s.audio_cache_enabled then
        some (generateCacheKey s (String.mk ((cleanText t).data.take s.max_text_length)))
      else none) ∧
    ((generateSpeech s env st t).promptUsed = none ∨
      (generateSpeech s env st t).promptUsed =
        some (formatPromptOriginal
          (String.mk ((cleanText t).data.take s.max_text_length)) s.voice)) ∧
    ((generateSpeech s env st t).written = none ∨
      (generateSpeech s env st t).written =
        (generateAudioDirect s env
          { st with requests_total := st.requests_total + 1, last_request := some env.now }
          (String.mk ((cleanText t).data.take s.max_text_length))).written) := by
  have h0 : (cleanText t).data ≠ [] := by
    intro h
    rw [h] at hlen
    simp at hlen
  unfold generateSpeech
  simp only [if_neg h0, if_pos hlen]
  by_cases hc : s.audio_cache_enabled ∧ env.cacheFileExists ∧ env.copyCachedOk
  · simp [if_pos hc]
  · simp only [if_neg hc]
    by_cases hok : (generateAudioDirect s env
        { st with requests_total := st.requests_total + 1, last_request := some env.now }
        (String.mk ((cleanText t).data.take s.max_text_length))).ok = true
    · simp [hok]
    · simp only [Bool.not_eq_true] at hok
      simp [hok]

set_option maxRecDepth 100000 in
/-- C10 witness: a 105-character input against `max_text_length = 100`
with a cache hit: the call succeeds (truncation is not an error) and
the pipeline text is the 100-character prefix. -/
theorem truncation_silent_witness :
    (generateSpeech baseSettings100 hitEnv initialStats longText).ok = true ∧
    (generateSpeech baseSettings100 hitEnv initialStats longText).usedText =
      some (String.mk ((cleanText longText).data.take 100)) := by
  constructor
  · decide
  · exact (truncation_silent baseSettings100 hitEnv initialStats longText (by decide)).1

/-! ## C1: the cache key -/

theorem charToNat_inj {a b : Char} (h : a.toNat = b.toNat) : a = b :=
  Char.eq_of_val_eq (UInt32.ext h)

theorem hexCharVal_hexDigitChar (x : Nat) (hx : x < 16) :
    hexCharVal (hexDigitChar x) = x := by
  interval_cases x <;> decide

theorem hex4_decode (v : Nat) (hv : v < 65536) :
    4096 * hexCharVal (hexDigitChar (v / 4096 % 16)) +
      256 * hexCharVal (hexDigitChar (v / 256 % 16)) +
      16 * hexCharVal (hexDigitChar (v / 16 % 16)) +
      hexCharVal (hexDigitChar (v % 16)) = v := by
  rw [hexCharVal_hexDigitChar _ (by omega), hexCharVal_hexDigitChar _ (by omega),
    hexCharVal_hexDigitChar _ (by omega), hexCharVal_hexDigitChar _ (by omega)]
  omega

/-- The escape decoder inverts `escChar` on any continuation, which makes
the `ensure_ascii` JSON string escaping injective. -/
theorem decodeEsc_escChar (c : Char) (r : List Char) :
    decodeEsc (escChar c ++ r) = some (c, r) := by
  have hval : c.toNat < 55296 ∨ (57343 < c.toNat ∧ c.toNat < 1114112) := c.valid
  unfold escChar
  by_cases h34 : c.toNat = 34
  · have hc : c = quoteChar := charToNat_inj (by rw [h34]; rfl)
    simp only [if_pos h34]
    rw [hc]
    rfl
  · simp only [if_neg h34]
    by_cases h92 : c.toNat = 92
    · have hc : c = '\\' := charToNat_inj (by rw [h92]; rfl)
      simp only [if_pos h92]
      rw [hc]
      rfl
    · simp only [if_neg h92]
      by_cases h8 : c.toNat = 8
      · have hc : c = Char.ofNat 8 := charToNat_inj (by rw [h8]; rfl)
        simp only [if_pos h8]
        rw [hc]
        rfl
      · simp only [if_neg h8]
        by_cases h9 : c.toNat = 9
        · have hc : c = Char.ofNat 9 := charToNat_inj (by rw [h9]; rfl)
          simp only [if_pos h9]
          rw [hc]
          rfl
        · simp only [if_neg h9]
          by_cases h10 : c.toNat = 10
          · have hc : c = Char.ofNat 10 := charToNat_inj (by rw [h10]; rfl)
            simp only [if_pos h10]
            rw [hc]
            rfl
          · simp only [if_neg h10]
            by_cases h12 : c.toNat = 12
            · have hc : c = Char.ofNat 12 := charToNat_inj (by rw [h12]; rfl)
              simp only [if_pos h12]
              rw [hc]
              rfl
            · simp only [if_neg h12]
              by_cases h13 : c.toNat = 13
              · have hc : c = Char.ofNat 13 := charToNat_inj (by rw [h13]; rfl)
                simp only [if_pos h13]
                rw [hc]
                rfl
              · simp only [if_neg h13]
                by_cases hlow : c.toNat < 32
                · simp only [if_pos hlow]
                  show decodeEsc ('\\' :: 'u' :: hex4 c.toNat ++ r) = some (c, r)
                  simp only [hex4, List.cons_append, List.nil_append]
                  simp only [decodeEsc, if_true]
                  rw [hex4_decode c.toNat (by omega)]
                  rw [if_neg (by omega)]
                  rw [Char.ofNat_toNat]
                · simp only [if_neg hlow]
                  by_cases hmid : c.toNat < 127
                  · simp only [if_pos hmid]
                    show decodeEsc (c :: r) = some (c, r)
                    simp only [decodeEsc]
                    rw [if_neg (fun hc => h92 (by rw [hc]; rfl))]
                  · simp only [if_neg hmid]
                    by_cases hbmp : c.toNat < 65536
                    · simp only [if_pos hbmp]
                      show decodeEsc ('\\' :: 'u' :: hex4 c.toNat ++ r) = some (c, r)
                      simp only [hex4, List.cons_append, List.nil_append]
                      simp only [decodeEsc, if_true]
                      rw [hex4_decode c.toNat (by omega)]
                      rw [if_neg (by omega)]
                      rw [Char.ofNat_toNat]
                    · simp only [if_neg hbmp]
                      show decodeEsc ('\\' :: 'u' ::
                        (hex4 (55296 + (c.toNat - 65536) / 1024) ++
                          '\\' :: 'u' :: hex4 (56320 + (c.toNat - 65536) % 1024)) ++ r)
                        = some (c, r)
                      have hhi : 55296 + (c.toNat - 65536) / 1024 < 65536 := by omega
                      have hlo : 56320 + (c.toNat - 65536) % 1024 < 65536 := by
                        have := Nat.mod_lt (c.toNat - 65536) (show 0 < 1024 by omega)
                        omega
                      simp only [hex4, List.cons_append, List.nil_append]
                      simp only [decodeEsc, if_true]
                      rw [hex4_decode _ hhi]
                      rw [if_pos (by
                        constructor
                        · omega
                        · have h1 : (c.toNat - 65536) / 1024 < 1024 := by omega
                          omega)]
                      rw [hex4_decode _ hlo]
                      have harith : 65536 + (55296 + (c.toNat - 65536) / 1024 - 55296) * 1024 +
                          (56320 + (c.toNat - 65536) % 1024 - 56320) = c.toNat := by
                        have h2 := Nat.div_add_mod (c.toNat - 65536) 1024
                        omega
                      rw [harith, Char.ofNat_toNat]
                      simp

theorem escList_inj : ∀ l1 l2 : List Char,
    l1.flatMap escChar = l2.flatMap escChar → l1 = l2 := by
  intro l1
  induction l1 with
  | nil =>
    intro l2 h
    cases l2 with
    | nil => rfl
    | cons b t =>
      exfalso
      have hd := decodeEsc_escChar b (t.flatMap escChar)
      rw [List.flatMap_cons] at h
      rw [← h] at hd
      simp [List.flatMap_nil, decodeEsc] at hd
  | cons a s ih =>
    intro l2 h
    cases l2 with
    | nil =>
      exfalso
      have hd := decodeEsc_escChar a (s.flatMap escChar)
      rw [List.flatMap_cons] at h
      rw [h] at hd
      simp [List.flatMap_nil, decodeEsc] at hd
    | cons b t =>
      have hda := decodeEsc_escChar a (s.flatMap escChar)
      have hdb := decodeEsc_escChar b (t.flatMap escChar)
      rw [List.flatMap_cons] at h
      rw [List.flatMap_cons] at h
      rw [h] at hda
      rw [hdb] at hda
      have h1 : b = a := by
        have := congrArg (fun o => Option.map Prod.fst o) hda
        simpa using this
      have h2 : t.flatMap escChar = s.flatMap escChar := by
        have := congrArg (fun o => Option.map Prod.snd o) hda
        simpa using this
      rw [h1, ih t h2.symm]

theorem jsonStr_inj {a b : String} (h : jsonStr a = jsonStr b) : a = b := by
  unfold jsonStr at h
  have h1 : a.data.flatMap escChar ++ [quoteChar] = b.data.flatMap escChar ++ [quoteChar] := by
    injection h
  have h2 := List.append_cancel_right h1
  have h3 := escList_inj _ _ h2
  cases a
  cases b
  dsimp only at h3
  exact congrArg String.mk h3

theorem stringData_inj {x y : String} (h : x.data = y.data) : x = y := by
  cases x
  cases y
  dsimp only at h
  exact congrArg String.mk h

/-- Two texts differing under the same settings give different cache
serialisations. -/
theorem cacheString_text_inj (st : OrpheusSettingsL) (t1 t2 : String)
    (hne : t1 ≠ t2) : cacheString st t1 ≠ cacheString st t2 := by
  intro heq
  unfold cacheString at heq
  have h1 := List.append_cancel_right heq
  have h2 := List.append_cancel_right h1
  have h3 := List.append_cancel_right h2
  have h4 := List.append_cancel_left h3
  exact hne (jsonStr_inj h4)

/-- Two voices differing with the other four fields equal give different
cache serialisations. -/
theorem cacheString_voice_inj (s1 s2 : OrpheusSettingsL) (t : String)
    (he : s1.emotion = s2.emotion) (hsp : s1.speedRepr = s2.speedRepr)
    (hf : s1.format = s2.format) (hv : s1.voice ≠ s2.voice) :
    cacheString s1 t ≠ cacheString s2 t := by
  intro heq
  unfold cacheString at heq
  rw [he, hsp, hf] at heq
  have h1 := List.append_cancel_right heq
  have h2 := List.append_cancel_left h1
  exact hv (jsonStr_inj h2)

/-- Two emotions differing with the other four fields equal give
different cache serialisations. -/
theorem cacheString_emotion_inj (s1 s2 : OrpheusSettingsL) (t : String)
    (hsp : s1.speedRepr = s2.speedRepr) (hf : s1.format = s2.format)
    (hv : s1.voice = s2.voice) (he : s1.emotion ≠ s2.emotion) :
    cacheString s1 t ≠ cacheString s2 t := by
  intro heq
  unfold cacheString at heq
  rw [hsp, hf, hv] at heq
  have h1 := List.append_cancel_right heq
  have h2 := List.append_cancel_right h1
  have h3 := List.append_cancel_right h2
  have h4 := List.append_cancel_right h3
  have h5 := List.append_cancel_right h4
  have h6 := List.append_cancel_right h5
  have h7 := List.append_cancel_right h6
  have h8 := List.append_cancel_right h7
  have h9 := List.append_cancel_right h8
  have h10 := List.append_cancel_left h9
  exact he (jsonStr_inj h10)

/-- Two speed renderings differing with the other four fields equal give
different cache serialisations. -/
theorem cacheString_speed_inj (s1 s2 : OrpheusSettingsL) (t : String)
    (he : s1.emotion = s2.emotion) (hf : s1.format = s2.format)
    (hv : s1.voice = s2.voice) (hsp : s1.speedRepr ≠ s2.speedRepr) :
    cacheString s1 t ≠ cacheString s2 t := by
  intro heq
  unfold cacheString at heq
  rw [he, hf, hv] at heq
  have h1 := List.append_cancel_right heq
  have h2 := List.append_cancel_right h1
  have h3 := List.append_cancel_right h2
  have h4 := List.append_cancel_right h3
  have h5 := List.append_cancel_right h4
  have h6 := List.append_cancel_left h5
  exact hsp (stringData_inj h6)

/-- Two formats differing with the other four fields equal give
different cache serialisations. -/
theorem cacheString_format_inj (s1 s2 : OrpheusSettingsL) (t : String)
    (he : s1.emotion = s2.emotion) (hsp : s1.speedRepr = s2.speedRepr)
    (hv : s1.voice = s2.voice) (hf : s1.format ≠ s2.format) :
    cacheString s1 t ≠ cacheString s2 t := by
  intro heq
  unfold cacheString at heq
  rw [he, hsp, hv] at heq
  have h1 := List.append_cancel_right heq
  have h2 := List.append_cancel_right h1
  have h3 := List.append_cancel_right h2
  have h4 := List.append_cancel_right h3
  have h5 := List.append_cancel_right h4
  have h6 := List.append_cancel_right h5
  have h7 := List.append_cancel_right h6
  have h8 := List.append_cancel_left h7
  exact hf (jsonStr_inj h8)

theorem md5Block_lt (st : Nat × Nat × Nat × Nat) (block : List Nat) :
    (md5Block st block).1 < m32 ∧ (md5Block st block).2.1 < m32 ∧
    (md5Block st block).2.2.1 < m32 ∧ (md5Block st block).2.2.2 < m32 := by
  unfold md5Block
  rcases st with ⟨a0, b0, c0, d0⟩
  rcases (List.range 64).foldl (md5Op (leWords block)) (a0, b0, c0, d0) with ⟨a, b, c, d⟩
  exact ⟨Nat.mod_lt _ (by decide), Nat.mod_lt _ (by decide),
    Nat.mod_lt _ (by decide), Nat.mod_lt _ (by decide)⟩

theorem md5BlocksAux_lt (fuel : Nat) :
    ∀ (st : Nat × Nat × Nat × Nat) (bytes : List Nat),
      st.1 < m32 → st.2.1 < m32 → st.2.2.1 < m32 → st.2.2.2 < m32 →
      (md5BlocksAux fuel st bytes).1 < m32 ∧ (md5BlocksAux fuel st bytes).2.1 < m32 ∧
      (md5BlocksAux fuel st bytes).2.2.1 < m32 ∧ (md5BlocksAux fuel st bytes).2.2.2 < m32 := by
  induction fuel with
  | zero => intro st bytes h1 h2 h3 h4; exact ⟨h1, h2, h3, h4⟩
  | succ fuel ih =>
    intro st bytes h1 h2 h3 h4
    cases bytes with
    | nil => exact ⟨h1, h2, h3, h4⟩
    | cons b rest =>
      show (md5BlocksAux fuel (md5Block st ((b :: rest).take 64)) ((b :: rest).drop 64)).1 < m32 ∧ _
      have hb := md5Block_lt st ((b :: rest).take 64)
      exact ih _ _ hb.1 hb.2.1 hb.2.2.1 hb.2.2.2

theorem cacheWords_lt (st : OrpheusSettingsL) (t : String) :
    (cacheWords st t).1 < m32 ∧ (cacheWords st t).2.1 < m32 ∧
    (cacheWords st t).2.2.1 < m32 ∧ (cacheWords st t).2.2.2 < m32 := by
  unfold cacheWords md5WordsOf md5Blocks
  exact md5BlocksAux_lt _ _ _ (by decide) (by decide) (by decide) (by decide)

theorem generateCacheKey_eq_of_words (st : OrpheusSettingsL) (t1 t2 : String)
    (h : cacheWords st t1 = cacheWords st t2) :
    generateCacheKey st t1 = generateCacheKey st t2 := by
  unfold generateCacheKey md5Hex md5HexList
  unfold cacheWords at h
  rw [h]

/-- C1 counterexample: "two requests differing in any one of the five
fields produce different keys" is false: the key is a 128-bit MD5
digest, so the map from texts to keys is a map from an infinite set into
a finite one and two distinct texts (all other fields identical) must
collide.  (For every pair of distinct texts the canonical serialisations
do differ — see the amended theorem — but their MD5 digests cannot all
differ.) -/
theorem cache_key_collision_counterexample :
    ¬ (∀ (st : OrpheusSettingsL) (t1 t2 : String), t1 ≠ t2 →
        generateCacheKey st t1 ≠ generateCacheKey st t2) := by
  intro h
  have hF := Finite.exists_ne_map_eq_of_infinite
    (fun n : Nat =>
      ((⟨(cacheWords baseSettings (String.mk (List.replicate n 'a'))).1,
          (cacheWords_lt _ _).1⟩ : Fin m32),
       (⟨(cacheWords baseSettings (String.mk (List.replicate n 'a'))).2.1,
          (cacheWords_lt _ _).2.1⟩ : Fin m32),
       (⟨(cacheWords baseSettings (String.mk (List.replicate n 'a'))).2.2.1,
          (cacheWords_lt _ _).2.2.1⟩ : Fin m32),
       (⟨(cacheWords baseSettings (String.mk (List.replicate n 'a'))).2.2.2,
          (cacheWords_lt _ _).2.2.2⟩ : Fin m32)))
  obtain ⟨n, m, hnm, hFeq⟩ := hF
  have htext : String.mk (List.replicate n 'a') ≠ String.mk (List.replicate m 'a') := by
    intro he
    have hlen := congrArg (fun s : String => s.data.length) he
    simp at hlen
    exact hnm hlen
  apply h baseSettings _ _ htext
  apply generateCacheKey_eq_of_words
  have e1 := congrArg (fun p : Fin m32 × Fin m32 × Fin m32 × Fin m32 => (p.1 : Nat)) hFeq
  have e2 := congrArg (fun p : Fin m32 × Fin m32 × Fin m32 × Fin m32 => (p.2.1 : Nat)) hFeq
  have e3 := congrArg (fun p : Fin m32 × Fin m32 × Fin m32 × Fin m32 => (p.2.2.1 : Nat)) hFeq
  have e4 := congrArg (fun p : Fin m32 × Fin m32 × Fin m32 × Fin m32 => (p.2.2.2 : Nat)) hFeq
  dsimp only at e1 e2 e3 e4
  rcases h1 : cacheWords baseSettings (String.mk (List.replicate n 'a')) with ⟨a1, b1, c1, d1⟩
  rcases h2 : cacheWords baseSettings (String.mk (List.replicate m 'a')) with ⟨a2, b2, c2, d2⟩
  rw [h1, h2] at e1 e2 e3 e4
  dsimp only at e1 e2 e3 e4
  rw [e1, e2, e3, e4]

/-- C1 as amended: the cache key is a deterministic pure function of
exactly the five fields (normalized text, voice, emotion, speed,
format): requests agreeing on those five fields get equal keys, whatever
their other state (sample rate, timeouts, debug flags — and the
embedding takes no timestamps or request ids at all); and requests
differing in exactly one of the five fields produce different canonical
cache serialisations (the MD5 preimages).  The original claim's further
step — different serialisations give different *keys* — fails only
because MD5 has finitely many digests (see the counterexample), and
holds in the collision-free reading intended by the spec. -/
theorem cache_key_amended (s1 s2 : OrpheusSettingsL) (t1 t2 : String) :
    (s1.voice = s2.voice → s1.emotion = s2.emotion → s1.speedRepr = s2.speedRepr →
      s1.format = s2.format → t1 = t2 →
      generateCacheKey s1 t1 = generateCacheKey s2 t2) ∧
    (s1 = s2 → t1 ≠ t2 → cacheString s1 t1 ≠ cacheString s2 t2) ∧
    (t1 = t2 → s1.emotion = s2.emotion → s1.speedRepr = s2.speedRepr →
      s1.format = s2.format → s1.voice ≠ s2.voice →
      cacheString s1 t1 ≠ cacheString s2 t2) ∧
    (t1 = t2 → s1.speedRepr = s2.speedRepr → s1.format = s2.format →
      s1.voice = s2.voice → s1.emotion ≠ s2.emotion →
      cacheString s1 t1 ≠ cacheString s2 t2) ∧
    (t1 = t2 → s1.emotion = s2.emotion → s1.format = s2.format →
      s1.voice = s2.voice → s1.speedRepr ≠ s2.speedRepr →
      cacheString s1 t1 ≠ cacheString s2 t2) ∧
    (t1 = t2 → s1.emotion = s2.emotion → s1.speedRepr = s2.speedRepr →
      s1.voice = s2.voice → s1.format ≠ s2.format →
      cacheString s1 t1 ≠ cacheString s2 t2) := by
  refine ⟨?_, ?_, ?_, ?_, ?_, ?_⟩
  · intro hv he hsp hf ht
    unfold generateCacheKey
    have : cacheString s1 t1 = cacheString s2 t2 := by
      unfold cacheString
      rw [hv, he, hsp, hf, ht]
    rw [this]
  · intro hss hne
    subst hss
    exact cacheString_text_inj s1 t1 t2 hne
  · intro ht he hsp hf hv
    subst ht
    exact cacheString_voice_inj s1 s2 t1 he hsp hf hv
  · intro ht hsp hf hv he
    subst ht
    exact cacheString_emotion_inj s1 s2 t1 hsp hf hv he
  · intro ht he hf hv hsp
    subst ht
    exact cacheString_speed_inj s1 s2 t1 he hf hv hsp
  · intro ht he hsp hv hf
    subst ht
    exact cacheString_format_inj s1 s2 t1 he hsp hv hf

/-- C1 witness: equal keys for two settings agreeing on the five fields
but differing in everything else, and different serialisations for two
texts under the same settings. -/
theorem cache_key_amended_witness :
    generateCacheKey baseSettings "ciao" = generateCacheKey baseSettingsAlt "ciao" ∧
    cacheString baseSettings "a" ≠ cacheString baseSettings "b" := by
  constructor
  · exact (cache_key_amended baseSettings baseSettingsAlt "ciao" "ciao").1 rfl rfl rfl rfl rfl
  · exact (cache_key_amended baseSettings baseSettings "a" "b").2.1 rfl (by decide)

/-! ## C2: normalisation idempotence

`clean_text` is *not* idempotent: the markdown-star passes can leave
re-matchable star pairs.  The amended claim restricts to inputs free of
`'*'` and backticks, for which a second application is the identity;
the development below establishes, for each `re.sub` pass, a "no match
left" predicate of the final output and shows each pass is the identity
on strings satisfying its predicate. -/

/-- C2, counterexample: `clean_text` is not idempotent.  On `"a**b*c*"` the
bold pass strips the `**` pair and the italic pass strips one single-star
pair, leaving `"a*bc*"`, which still contains an italic match; a second
application reaches the fixed point `"abc"` instead of `"a*bc*"`. -/
theorem clean_text_counterexample :
    cleanText "a**b*c*" = "a*bc*" ∧
    cleanText (cleanText "a**b*c*") = "abc" ∧
    cleanText (cleanText "a**b*c*") ≠ cleanText "a**b*c*" := by decide

theorem subItalic_id (s : List Char) (h : '*' ∉ s) : subItalic s = s := by
  induction s with
  | nil => rfl
  | cons c rest ih =>
    rw [subItalic_cons]
    have hc : ¬(c = '*' ∧ rest.takeWhile (fun d => d ≠ '*') ≠ [] ∧
        rest.dropWhile (fun d => d ≠ '*') ≠ []) := by
      rintro ⟨hc1, _, _⟩
      exact h (by rw [hc1] at *; exact List.mem_cons_self _ _)
    rw [if_neg hc]
    rw [ih (fun hm => h (List.mem_cons_of_mem c hm))]

theorem subBold_id (s : List Char) (h : '*' ∉ s) : subBold s = s := by
  induction s with
  | nil => rfl
  | cons c rest ih =>
    cases rest with
    | nil => rfl
    | cons c2 rest2 =>
      rw [subBold_cons₂]
      have hc : ¬(c = '*' ∧ c2 = '*' ∧ rest2.takeWhile (fun d => d ≠ '*') ≠ [] ∧
          ((rest2.dropWhile (fun d => d ≠ '*')).drop 1).head? = some '*') := by
        rintro ⟨hc1, _, _, _⟩
        exact h (by rw [hc1] at *; exact List.mem_cons_self _ _)
      rw [if_neg hc]
      rw [ih (fun hm => h (List.mem_cons_of_mem c hm))]

theorem subDelim_id (del : Char) (s : List Char) (h : del ∉ s) : subDelim del s = s := by
  induction s with
  | nil => rfl
  | cons c rest ih =>
    rw [subDelim_cons]
    have hc : ¬(c = del ∧ rest.takeWhile (fun d => d ≠ del) ≠ [] ∧
        rest.dropWhile (fun d => d ≠ del) ≠ []) := by
      rintro ⟨hc1, _, _⟩
      exact h (by rw [← hc1]; exact List.mem_cons_self _ _)
    rw [if_neg hc]
    rw [ih (fun hm => h (List.mem_cons_of_mem c hm))]

theorem mem_subTags_aux (n : Nat) : ∀ s : List Char, s.length ≤ n →
    ∀ c ∈ subTags s, c ∈ s := by
  induction n using Nat.strong_induction_on with
  | _ n ih =>
    intro s hs c hc
    cases s with
    | nil => rw [subTags_nil] at hc; exact absurd hc (List.not_mem_nil c)
    | cons a rest =>
      cases n with
      | zero => simp at hs
      | succ n =>
        have hrest : rest.length ≤ n := by
          simp only [List.length_cons] at hs
          omega
        rw [subTags_cons] at hc
        by_cases hcond : a = '<' ∧ rest.takeWhile (fun d => d ≠ '>') ≠ [] ∧
            rest.dropWhile (fun d => d ≠ '>') ≠ []
        · rw [if_pos hcond] at hc
          have hlen : ((rest.dropWhile (fun d => d ≠ '>')).tail).length ≤ n := by
            have := dropWhile_length_le (fun d => d ≠ '>') rest
            simp only [List.length_tail]
            omega
          have hmem := ih n (by omega) _ hlen c hc
          have h2 : c ∈ rest.dropWhile (fun d => d ≠ '>') := List.mem_of_mem_tail hmem
          exact List.mem_cons_of_mem a ((List.dropWhile_suffix _).subset h2)
        · rw [if_neg hcond] at hc
          rcases List.mem_cons.mp hc with h | h
          · exact h ▸ List.mem_cons_self a rest
          · exact List.mem_cons_of_mem a (ih n (by omega) rest hrest c h)

theorem mem_subTags {s : List Char} {c : Char} (hc : c ∈ subTags s) : c ∈ s :=
  mem_subTags_aux s.length s le_rfl c hc

theorem mem_subCtl {s : List Char} {c : Char} (hc : c ∈ subCtl s) : c ∈ s :=
  (List.mem_filter.mp hc).1

theorem mem_subEll {s : List Char} {c : Char} (hc : c ∈ subEll s) :
    c ∈ s ∨ c = '.' := by
  unfold subEll at hc
  obtain ⟨x, hx, hcx⟩ := List.mem_flatMap.mp hc
  by_cases hone : x = '…'
  · rw [if_pos hone] at hcx
    right
    simp only [List.mem_cons, List.not_mem_nil, or_false] at hcx
    rcases hcx with h | h | h <;> exact h
  · rw [if_neg hone] at hcx
    left
    simp only [List.mem_cons, List.not_mem_nil, or_false] at hcx
    exact hcx ▸ hx

theorem mem_subQuote {s : List Char} {c : Char} (hc : c ∈ subQuote s) :
    c ∈ s ∨ c = quoteChar := by
  unfold subQuote at hc
  obtain ⟨x, hx, hcx⟩ := List.mem_map.mp hc
  by_cases h1 : x = '“' ∨ x = '”' ∨ x = quoteChar
  · rw [if_pos h1] at hcx
    right
    exact hcx.symm
  · rw [if_neg h1] at hcx
    left
    exact hcx ▸ hx

theorem mem_subApos {s : List Char} {c : Char} (hc : c ∈ subApos s) :
    c ∈ s ∨ c = aposChar := by
  unfold subApos at hc
  obtain ⟨x, hx, hcx⟩ := List.mem_map.mp hc
  by_cases h1 : x = '‘' ∨ x = '’' ∨ x = aposChar
  · rw [if_pos h1] at hcx
    right
    exact hcx.symm
  · rw [if_neg h1] at hcx
    left
    exact hcx ▸ hx

theorem mem_stripWs {s : List Char} {c : Char} (hc : c ∈ stripWs s) : c ∈ s := by
  unfold stripWs at hc
  rw [List.mem_reverse] at hc
  have h1 := (List.dropWhile_suffix pyIsSpace).subset hc
  rw [List.mem_reverse] at h1
  exact (List.dropWhile_suffix pyIsSpace).subset h1

theorem subCtl_id (s : List Char) (h : ∀ c ∈ s, isCtl c = false) : subCtl s = s :=
  List.filter_eq_self.mpr (fun c hc => by rw [h c hc]; rfl)

theorem subEll_id (s : List Char) (h : '…' ∉ s) : subEll s = s := by
  unfold subEll
  induction s with
  | nil => rfl
  | cons c rest ih =>
    rw [List.flatMap_cons]
    rw [if_neg (fun hc : c = '…' => h (by rw [← hc]; exact List.mem_cons_self c rest))]
    rw [ih (fun hm => h (List.mem_cons_of_mem c hm))]
    rfl

theorem subQuote_id (s : List Char) (h : ∀ c ∈ s, c ≠ '“' ∧ c ≠ '”') : subQuote s = s := by
  unfold subQuote
  induction s with
  | nil => rfl
  | cons c rest ih =>
    simp only [List.map_cons]
    have hfc : (if c = '“' ∨ c = '”' ∨ c = quoteChar then quoteChar else c) = c := by
      by_cases hq : c = quoteChar
      · rw [if_pos (Or.inr (Or.inr hq)), hq]
      · rw [if_neg]
        rintro (h1 | h1 | h1)
        · exact (h c (List.mem_cons_self c rest)).1 h1
        · exact (h c (List.mem_cons_self c rest)).2 h1
        · exact hq h1
    rw [hfc, ih (fun d hd => h d (List.mem_cons_of_mem c hd))]

theorem subApos_id (s : List Char) (h : ∀ c ∈ s, c ≠ '‘' ∧ c ≠ '’') : subApos s = s := by
  unfold subApos
  induction s with
  | nil => rfl
  | cons c rest ih =>
    simp only [List.map_cons]
    have hfc : (if c = '‘' ∨ c = '’' ∨ c = aposChar then aposChar else c) = c := by
      by_cases hq : c = aposChar
      · rw [if_pos (Or.inr (Or.inr hq)), hq]
      · rw [if_neg]
        rintro (h1 | h1 | h1)
        · exact (h c (List.mem_cons_self c rest)).1 h1
        · exact (h c (List.mem_cons_self c rest)).2 h1
        · exact hq h1
    rw [hfc, ih (fun d hd => h d (List.mem_cons_of_mem c hd))]

theorem mem_collapseWs_aux (n : Nat) : ∀ s : List Char, s.length ≤ n →
    ∀ c ∈ collapseWs s, c ∈ s ∨ c = ' ' := by
  induction n using Nat.strong_induction_on with
  | _ n ih =>
    intro s hs c hc
    cases s with
    | nil => rw [show collapseWs [] = [] from rfl] at hc; exact absurd hc (List.not_mem_nil c)
    | cons a rest =>
      cases n with
      | zero => simp at hs
      | succ n =>
        have hrest : rest.length ≤ n := by
          simp only [List.length_cons] at hs
          omega
        rw [collapseWs_cons] at hc
        by_cases hcond : pyIsSpace a = true
        · rw [if_pos hcond] at hc
          rcases List.mem_cons.mp hc with h | h
          · exact Or.inr h
          · have hlen : (rest.dropWhile pyIsSpace).length ≤ n := by
              have := dropWhile_length_le pyIsSpace rest
              omega
            rcases ih n (by omega) _ hlen c h with h2 | h2
            · exact Or.inl (List.mem_cons_of_mem a ((List.dropWhile_suffix pyIsSpace).subset h2))
            · exact Or.inr h2
        · rw [if_neg hcond] at hc
          rcases List.mem_cons.mp hc with h | h
          · exact Or.inl (h ▸ List.mem_cons_self a rest)
          · rcases ih n (by omega) rest hrest c h with h2 | h2
            · exact Or.inl (List.mem_cons_of_mem a h2)
            · exact Or.inr h2

theorem mem_collapseWs {s : List Char} {c : Char} (hc : c ∈ collapseWs s) :
    c ∈ s ∨ c = ' ' :=
  mem_collapseWs_aux s.length s le_rfl c hc

theorem mem_subLit_aux (p0 : Char) (prest rep : List Char) (n : Nat) :
    ∀ (pw : Bool) (s : List Char), s.length ≤ n →
      ∀ c ∈ subLit p0 prest rep pw s, c ∈ s ∨ c ∈ rep := by
  induction n using Nat.strong_induction_on with
  | _ n ih =>
    intro pw s hs c hc
    cases s with
    | nil => exact absurd hc (List.not_mem_nil c)
    | cons a rest =>
      cases n with
      | zero => simp at hs
      | succ n =>
        have hrest : rest.length ≤ n := by
          simp only [List.length_cons] at hs
          omega
        rw [subLit_cons] at hc
        by_cases hcond : !pw ∧ isPre (p0 :: prest) (a :: rest) = true
        · rw [if_pos hcond] at hc
          rcases List.mem_append.mp hc with h | h
          · exact Or.inr h
          · have hlen : (rest.drop prest.length).length ≤ n := by
              simp only [List.length_drop]
              omega
            rcases ih n (by omega) _ _ hlen c h with h2 | h2
            · exact Or.inl (List.mem_cons_of_mem a (List.drop_subset _ rest h2))
            · exact Or.inr h2
        · rw [if_neg hcond] at hc
          rcases List.mem_cons.mp hc with h | h
          · exact Or.inl (h ▸ List.mem_cons_self a rest)
          · rcases ih n (by omega) _ rest hrest c h with h2 | h2
            · exact Or.inl (List.mem_cons_of_mem a h2)
            · exact Or.inr h2

theorem mem_subLit {p0 : Char} {prest rep : List Char} {pw : Bool} {s : List Char}
    {c : Char} (hc : c ∈ subLit p0 prest rep pw s) : c ∈ s ∨ c ∈ rep :=
  mem_subLit_aux p0 prest rep s.length pw s le_rfl c hc

theorem mem_subNum_aux (sym : Char) (rep : List Char) (n : Nat) :
    ∀ (pw : Bool) (s : List Char), s.length ≤ n →
      ∀ c ∈ subNum sym rep pw s, c ∈ s ∨ c ∈ rep := by
  induction n using Nat.strong_induction_on with
  | _ n ih =>
    intro pw s hs c hc
    cases s with
    | nil => exact absurd hc (List.not_mem_nil c)
    | cons a rest =>
      cases n with
      | zero => simp at hs
      | succ n =>
        have hrest : rest.length ≤ n := by
          simp only [List.length_cons] at hs
          omega
        rw [subNum_cons] at hc
        by_cases hcond : !pw ∧ pyIsDigit a ∧ (rest.dropWhile pyIsDigit).head? = some sym
        · rw [if_pos hcond] at hc
          rcases List.mem_cons.mp hc with h | h
          · exact Or.inl (h ▸ List.mem_cons_self a rest)
          rcases List.mem_append.mp h with h | h
          rcases List.mem_append.mp h with h | h
          · exact Or.inl (List.mem_cons_of_mem a ((List.takeWhile_prefix pyIsDigit).subset h))
          · exact Or.inr h
          · have hlen : ((rest.dropWhile pyIsDigit).tail).length ≤ n := by
              have := dropWhile_length_le pyIsDigit rest
              simp only [List.length_tail]
              omega
            rcases ih n (by omega) _ _ hlen c h with h2 | h2
            · have h3 : c ∈ rest.dropWhile pyIsDigit := List.mem_of_mem_tail h2
              exact Or.inl (List.mem_cons_of_mem a ((List.dropWhile_suffix pyIsDigit).subset h3))
            · exact Or.inr h2
        · rw [if_neg hcond] at hc
          rcases List.mem_cons.mp hc with h | h
          · exact Or.inl (h ▸ List.mem_cons_self a rest)
          · rcases ih n (by omega) _ rest hrest c h with h2 | h2
            · exact Or.inl (List.mem_cons_of_mem a h2)
            · exact Or.inr h2

theorem mem_subNum {sym : Char} {rep : List Char} {pw : Bool} {s : List Char}
    {c : Char} (hc : c ∈ subNum sym rep pw s) : c ∈ s ∨ c ∈ rep :=
  mem_subNum_aux sym rep s.length pw s le_rfl c hc

theorem space_not_digit {c : Char} (h : pyIsSpace c = true) : pyIsDigit c = false := by
  have hmem : c.toNat ∈ pySpaceCodes := by
    unfold pyIsSpace at h
    exact List.elem_iff.mp h
  have hchk : ∀ n ∈ pySpaceCodes, pyDigitStart n = none := by decide
  unfold pyIsDigit
  rw [hchk c.toNat hmem]
  rfl

theorem digit_not_space {c : Char} (h : pyIsDigit c = true) : pyIsSpace c = false := by
  by_cases hs : pyIsSpace c = true
  · rw [space_not_digit hs] at h
    cases h
  · exact Bool.eq_false_iff.mpr hs

theorem subTags_id : ∀ s : List Char, tagOk s = true → subTags s = s := by
  intro s
  induction s with
  | nil => intro _; rfl
  | cons c rest ih =>
    intro h
    simp only [tagOk, Bool.and_eq_true] at h
    rw [subTags_cons]
    have hc : ¬(c = '<' ∧ rest.takeWhile (fun d => d ≠ '>') ≠ [] ∧
        rest.dropWhile (fun d => d ≠ '>') ≠ []) := by
      rintro ⟨h1, h2, h3⟩
      have hcont : rest.contains '>' = true := by
        by_contra hcc
        apply h3
        rw [List.dropWhile_eq_nil_iff]
        intro x hx
        simp only [decide_eq_true_eq]
        intro hxe
        rw [hxe] at hx
        exact hcc (List.elem_iff.mpr hx)
      have hor := h.1
      rw [Bool.or_eq_true, Bool.or_eq_true] at hor
      rcases hor with (hy | hy) | hy
      · rw [Bool.not_eq_true', decide_eq_false_iff_not] at hy
        exact hy h1
      · rw [Bool.not_eq_true', hcont] at hy
        exact Bool.noConfusion hy
      · have hhead : rest.head? = some '>' := by simpa using hy
        cases rest with
        | nil => exact h2 rfl
        | cons r0 rs =>
          have hr0 : r0 = '>' := by simpa using hhead
          rw [hr0] at h2
          simp [List.takeWhile_cons] at h2
    rw [if_neg hc, ih h.2]

theorem collapseWs_id : ∀ s : List Char, wsOk s = true → collapseWs s = s := by
  intro s
  induction s with
  | nil => intro _; rfl
  | cons c rest ih =>
    intro h
    simp only [wsOk, Bool.and_eq_true] at h
    rw [collapseWs_cons]
    by_cases hsp : pyIsSpace c = true
    · rw [if_pos hsp]
      have hor := h.1
      rw [Bool.or_eq_true] at hor
      rcases hor with hx | hx
      · rw [Bool.not_eq_true', hsp] at hx
        exact Bool.noConfusion hx
      · rw [Bool.and_eq_true] at hx
        have hcsp : c = ' ' := by
          have := hx.1
          rwa [decide_eq_true_eq] at this
        have hhd : headIsSpace rest = false := by
          have := hx.2
          rwa [Bool.not_eq_true'] at this
        have hdw : rest.dropWhile pyIsSpace = rest := by
          cases rest with
          | nil => rfl
          | cons r0 rs =>
            simp only [headIsSpace] at hhd
            rw [List.dropWhile_cons, if_neg (by simp [hhd])]
        rw [hdw, ih h.2, hcsp]
    · rw [if_neg hsp, ih h.2]

theorem subLit_id (p0 : Char) (prest rep : List Char) :
    ∀ (s : List Char) (pw : Bool), litOk (p0 :: prest) pw s = true →
      subLit p0 prest rep pw s = s := by
  intro s
  induction s with
  | nil => intro pw _; rfl
  | cons c rest ih =>
    intro pw h
    simp only [litOk, Bool.and_eq_true] at h
    rw [subLit_cons]
    have hc : ¬((!pw) = true ∧ isPre (p0 :: prest) (c :: rest) = true) := by
      rintro ⟨hpw, hpre⟩
      have hor := h.1
      rw [Bool.or_eq_true] at hor
      rcases hor with hx | hx
      · rw [Bool.not_eq_true'] at hpw
        rw [hpw] at hx
        exact Bool.noConfusion hx
      · rw [Bool.not_eq_true', hpre] at hx
        exact Bool.noConfusion hx
    rw [if_neg hc, ih (pyIsWord c) h.2]

theorem subNum_id (sym : Char) (rep : List Char) :
    ∀ (s : List Char) (pw : Bool), numOk sym pw s = true →
      subNum sym rep pw s = s := by
  intro s
  induction s with
  | nil => intro pw _; rfl
  | cons c rest ih =>
    intro pw h
    simp only [numOk, Bool.and_eq_true] at h
    rw [subNum_cons]
    have hc : ¬((!pw) = true ∧ pyIsDigit c = true ∧
        (rest.dropWhile pyIsDigit).head? = some sym) := by
      rintro ⟨hpw, hdig, hhead⟩
      have hor := h.1
      rw [Bool.or_eq_true, Bool.or_eq_true] at hor
      rcases hor with (hy | hy) | hy
      · rw [Bool.not_eq_true'] at hpw
        rw [hpw] at hy
        exact Bool.noConfusion hy
      · rw [Bool.not_eq_true', hdig] at hy
        exact Bool.noConfusion hy
      · rw [Bool.not_eq_true', hhead] at hy
        simp at hy
    rw [if_neg hc, ih (pyIsWord c) h.2]

theorem stripWs_id (s : List Char) (h : edgeOk s = true) : stripWs s = s := by
  unfold edgeOk at h
  rw [Bool.and_eq_true, Bool.not_eq_true', Bool.not_eq_true'] at h
  obtain ⟨h1, h2⟩ := h
  unfold stripWs
  have hd1 : s.dropWhile pyIsSpace = s := by
    cases s with
    | nil => rfl
    | cons c rest =>
      simp only [headIsSpace] at h1
      rw [List.dropWhile_cons, if_neg (by simp [h1])]
  rw [hd1]
  have hd2 : s.reverse.dropWhile pyIsSpace = s.reverse := by
    cases hrev : s.reverse with
    | nil => rfl
    | cons c rest =>
      rw [hrev] at h2
      simp only [headIsSpace] at h2
      rw [List.dropWhile_cons, if_neg (by simp [h2])]
  rw [hd2, List.reverse_reverse]

theorem edited_refl (P : List Char → List Char → Prop) : ∀ s, Edited P s s := by
  intro s
  induction s with
  | nil => exact Edited.nil
  | cons c rest ih => exact Edited.keep c ih

theorem edited_append {P : List Char → List Char → Prop} :
    ∀ {s1 t1 s2 t2 : List Char}, Edited P s1 t1 → Edited P s2 t2 →
      Edited P (s1 ++ s2) (t1 ++ t2) := by
  intro s1 t1 s2 t2 h1 h2
  induction h1 with
  | nil => exact h2
  | keep c h ih => exact Edited.keep c ih
  | edit hP hne h ih =>
    rw [List.append_assoc, List.append_assoc]
    exact Edited.edit hP hne ih

theorem edited_delete {P : List Char → List Char → Prop} :
    ∀ (a : List Char), (a ≠ [] → P a []) → Edited P a [] := by
  intro a hP
  cases a with
  | nil => exact Edited.nil
  | cons c rest =>
    have h := Edited.edit (hP (List.cons_ne_nil c rest)) (List.cons_ne_nil c rest) Edited.nil
    simpa using h

theorem edited_notMem {P : List Char → List Char → Prop} {ch : Char}
    (hB : ∀ a b, P a b → ch ∉ b) :
    ∀ {s t : List Char}, Edited P s t → ch ∉ s → ch ∉ t := by
  intro s t h
  induction h with
  | nil => exact fun hs => hs
  | keep c h ih =>
    intro hs hmem
    rcases List.mem_cons.mp hmem with h1 | h1
    · exact hs (h1 ▸ List.mem_cons_self c _)
    · exact ih (fun hm => hs (List.mem_cons_of_mem c hm)) h1
  | edit hP hne h ih =>
    intro hs hmem
    rcases List.mem_append.mp hmem with h1 | h1
    · exact hB _ _ hP h1
    · exact ih (fun hm => hs (List.mem_append_right _ hm)) h1

theorem edited_cons_inv {P : List Char → List Char → Prop} {x : Char}
    (hA : ∀ a b, P a b → x ∉ a) :
    ∀ {s t : List Char}, Edited P (x :: s) t →
      ∃ t2, t = x :: t2 ∧ Edited P s t2 := by
  suffices hgen : ∀ {s0 t : List Char}, Edited P s0 t → ∀ {s : List Char}, s0 = x :: s →
      ∃ t2, t = x :: t2 ∧ Edited P s t2 by
    intro s t hh
    exact hgen hh rfl
  intro s0 t h
  induction h with
  | nil => exact fun hs => List.noConfusion hs
  | keep c hsub ih =>
    intro s hs
    injection hs with h1 h2
    subst h1
    subst h2
    exact ⟨_, rfl, hsub⟩
  | @edit a b s2 t2 hP hne hsub ih =>
    intro s hs
    exfalso
    obtain ⟨a0, a', ha⟩ := List.exists_cons_of_ne_nil hne
    rw [ha, List.cons_append] at hs
    injection hs with h1 h2
    exact hA _ _ hP (by rw [ha, h1]; exact List.mem_cons_self x a')

theorem edited_headIsSpace {P : List Char → List Char → Prop}
    (hB : ∀ a b, P a b → b ≠ [] ∧ headIsSpace b = false) :
    ∀ {s t : List Char}, Edited P s t → headIsSpace s = false → headIsSpace t = false := by
  intro s t h
  cases h with
  | nil => exact fun h => h
  | keep c h => exact fun hs => hs
  | @edit a b s2 t2 hP hne h =>
    intro _
    obtain ⟨hbne, hbhead⟩ := hB _ _ hP
    obtain ⟨x, b', hb⟩ := List.exists_cons_of_ne_nil hbne
    subst hb
    exact hbhead

theorem edited_reverse {P : List Char → List Char → Prop} :
    ∀ {s t : List Char}, Edited P s t →
      Edited (fun x y => P x.reverse y.reverse) s.reverse t.reverse := by
  intro s t h
  induction h with
  | nil => exact Edited.nil
  | keep c h ih =>
    rw [List.reverse_cons, List.reverse_cons]
    exact edited_append ih (Edited.keep c Edited.nil)
  | @edit a b s2 t2 hP hne h ih =>
    rw [List.reverse_append, List.reverse_append]
    refine edited_append ih ?_
    have hP' : (fun x y => P x.reverse y.reverse) a.reverse b.reverse := by
      simpa [List.reverse_reverse] using hP
    have hne' : a.reverse ≠ [] := fun hrev => hne (List.reverse_eq_nil_iff.mp hrev)
    have he : Edited (fun x y => P x.reverse y.reverse)
        (a.reverse ++ []) (b.reverse ++ []) :=
      Edited.edit hP' hne' Edited.nil
    simpa using he

theorem isPre_append_cases : ∀ (w u v : List Char), isPre w (u ++ v) = true →
    isPre w u = true ∨ isPre u w = true := by
  intro w
  induction w with
  | nil => intro u v _; left; rfl
  | cons w0 w' ih =>
    intro u v h
    cases u with
    | nil => right; rfl
    | cons u0 u' =>
      have h' : w0 = u0 ∧ isPre w' (u' ++ v) = true := by simpa [isPre] using h
      rcases ih u' v h'.2 with h2 | h2
      · left
        simp [isPre, h'.1, h2]
      · right
        simp [isPre, h'.1.symm, h2]

theorem isPre_eq_append : ∀ (w s : List Char), isPre w s = true →
    s = w ++ s.drop w.length := by
  intro w
  induction w with
  | nil => intro s _; simp
  | cons w0 w' ih =>
    intro s h
    cases s with
    | nil => exact Bool.noConfusion h
    | cons s0 s' =>
      have h' : w0 = s0 ∧ isPre w' s' = true := by simpa [isPre] using h
      rw [List.length_cons, List.drop_succ_cons, List.cons_append, h'.1]
      exact congrArg (s0 :: ·) (ih s' h'.2)

theorem suffix_append_cases : ∀ (xs r y : List Char), y <:+ (xs ++ r) →
    y <:+ r ∨ ∃ xs', xs' <:+ xs ∧ xs' ≠ [] ∧ y = xs' ++ r := by
  intro xs
  induction xs with
  | nil => intro r y h; left; simpa using h
  | cons x xs2 ih =>
    intro r y h
    rw [List.cons_append, List.suffix_cons_iff] at h
    rcases h with h | h
    · right
      exact ⟨x :: xs2, List.suffix_refl _, List.cons_ne_nil _ _, by rw [h, List.cons_append]⟩
    · rcases ih r y h with h2 | ⟨xs', hsuf, hne, heq⟩
      · left; exact h2
      · right
        exact ⟨xs', hsuf.trans (List.suffix_cons x xs2), hne, heq⟩

theorem tagOk_suffix : ∀ (x y : List Char), tagOk (x ++ y) = true → tagOk y = true := by
  intro x
  induction x with
  | nil => exact fun y h => h
  | cons c x' ih =>
    intro y h
    simp only [List.cons_append, tagOk, Bool.and_eq_true] at h
    exact ih y h.2

theorem tagOk_append_left_of : ∀ (b t : List Char), (∀ c ∈ b, c ≠ '<') →
    tagOk t = true → tagOk (b ++ t) = true := by
  intro b
  induction b with
  | nil => exact fun t _ ht => ht
  | cons c b' ih =>
    intro t hb ht
    simp only [List.cons_append, tagOk, Bool.and_eq_true]
    constructor
    · have hd : decide (c = '<') = false := by
        simp [hb c (List.mem_cons_self c b')]
      rw [hd]
      rfl
    · exact ih t (fun d hd => hb d (List.mem_cons_of_mem c hd)) ht

theorem contains_eq_false_of_not_mem {l : List Char} {c : Char} (h : c ∉ l) :
    l.contains c = false :=
  Bool.eq_false_iff.mpr (fun hc => h (List.elem_iff.mp hc))

theorem edited_tagOk {P : List Char → List Char → Prop}
    (hP : ∀ a b, P a b → ('>' ∉ a) ∧ ('>' ∉ b) ∧ (∀ c ∈ b, c ≠ '<')) :
    ∀ {s t : List Char}, Edited P s t → tagOk s = true → tagOk t = true := by
  intro s t h
  induction h with
  | nil => exact fun h => h
  | @keep c s2 t2 hsub ih =>
    intro hs
    simp only [tagOk, Bool.and_eq_true] at hs ⊢
    refine ⟨?_, ih hs.2⟩
    have hcond := hs.1
    rw [Bool.or_eq_true, Bool.or_eq_true] at hcond
    rw [Bool.or_eq_true, Bool.or_eq_true]
    rcases hcond with (hy | hy) | hy
    · exact Or.inl (Or.inl hy)
    · rw [Bool.not_eq_true'] at hy
      have hnot : '>' ∉ s2 := by
        intro hm
        have h2 : List.elem '>' s2 = true := List.elem_iff.mpr hm
        have hy2 : List.elem '>' s2 = false := hy
        rw [hy2] at h2
        exact Bool.noConfusion h2
      have hnt : '>' ∉ t2 :=
        edited_notMem (fun a b hab => (hP a b hab).2.1) hsub hnot
      refine Or.inl (Or.inr ?_)
      rw [Bool.not_eq_true']
      exact contains_eq_false_of_not_mem hnt
    · have hhead : s2.head? = some '>' := by simpa using hy
      cases s2 with
      | nil => exact absurd hhead (by simp)
      | cons r0 rs =>
        have hr0 : r0 = '>' := by simpa using hhead
        subst hr0
        obtain ⟨t2', ht2, _⟩ :=
          edited_cons_inv (fun a b hab => (hP a b hab).1) hsub
        refine Or.inr ?_
        rw [ht2]
        simp
  | @edit a b s2 t2 hPab hne hsub ih =>
    intro hs
    have hs2 : tagOk s2 = true := tagOk_suffix a s2 hs
    exact tagOk_append_left_of b t2 (hP a b hPab).2.2 (ih hs2)

theorem tagOk_subTags_aux (n : Nat) : ∀ s : List Char, s.length ≤ n →
    tagOk (subTags s) = true := by
  induction n using Nat.strong_induction_on with
  | _ n ih =>
    intro s hs
    cases s with
    | nil => rfl
    | cons c rest =>
      cases n with
      | zero => simp at hs
      | succ n =>
        have hrest : rest.length ≤ n := by
          simp only [List.length_cons] at hs
          omega
        rw [subTags_cons]
        by_cases hcond : c = '<' ∧ rest.takeWhile (fun d => d ≠ '>') ≠ [] ∧
            rest.dropWhile (fun d => d ≠ '>') ≠ []
        · rw [if_pos hcond]
          have hlen : ((rest.dropWhile (fun d => d ≠ '>')).tail).length ≤ n := by
            have := dropWhile_length_le (fun d => d ≠ '>') rest
            simp only [List.length_tail]
            omega
          exact ih n (by omega) _ hlen
        · rw [if_neg hcond]
          simp only [tagOk, Bool.and_eq_true]
          refine ⟨?_, ih n (by omega) rest hrest⟩
          rw [Bool.or_eq_true, Bool.or_eq_true]
          by_cases hlt : c = '<'
          · have hfail : rest.takeWhile (fun d => d ≠ '>') = [] ∨
                rest.dropWhile (fun d => d ≠ '>') = [] := by
              by_contra hcc
              push_neg at hcc
              exact hcond ⟨hlt, hcc.1, hcc.2⟩
            rcases hfail with hf | hf
            · cases rest with
              | nil =>
                refine Or.inl (Or.inr ?_)
                rfl
              | cons r0 rs =>
                have hr0 : r0 = '>' := by
                  rw [List.takeWhile_cons] at hf
                  by_cases h0 : r0 = '>'
                  · exact h0
                  · rw [if_pos (by simpa using h0)] at hf
                    exact absurd hf (List.cons_ne_nil _ _)
                have hsub : subTags (r0 :: rs) = r0 :: subTags rs := by
                  rw [subTags_cons, if_neg]
                  rintro ⟨h1, _, _⟩
                  rw [hr0] at h1
                  exact absurd h1 (by decide)
                refine Or.inr ?_
                rw [hsub, hr0]
                simp
            · have hnog : '>' ∉ rest := by
                intro hm
                have := List.dropWhile_eq_nil_iff.mp hf '>' hm
                simp at this
              have hno2 : '>' ∉ subTags rest := fun hm => hnog (mem_subTags hm)
              refine Or.inl (Or.inr ?_)
              rw [Bool.not_eq_true']
              exact contains_eq_false_of_not_mem hno2
          · refine Or.inl (Or.inl ?_)
            simp [hlt]

theorem tagOk_subTags (s : List Char) : tagOk (subTags s) = true :=
  tagOk_subTags_aux s.length s le_rfl

theorem edited_subCtl : ∀ s : List Char, Edited ctlPair s (subCtl s) := by
  intro s
  induction s with
  | nil => exact Edited.nil
  | cons c rest ih =>
    unfold subCtl
    rw [List.filter_cons]
    by_cases hc : isCtl c = true
    · rw [if_neg (by simp [hc])]
      have he : Edited ctlPair ([c] ++ rest) ([] ++ subCtl rest) :=
        Edited.edit ⟨⟨c, rfl, hc⟩, rfl⟩ (List.cons_ne_nil c []) ih
      simpa [subCtl] using he
    · rw [if_pos (by simp [Bool.eq_false_iff.mpr hc])]
      exact Edited.keep c ih

theorem edited_subEll : ∀ s : List Char, Edited ellPair s (subEll s) := by
  intro s
  induction s with
  | nil => exact Edited.nil
  | cons c rest ih =>
    unfold subEll
    rw [List.flatMap_cons]
    by_cases hc : c = '…'
    · rw [if_pos hc, hc]
      exact Edited.edit ⟨rfl, rfl⟩ (List.cons_ne_nil _ _) ih
    · rw [if_neg hc]
      exact Edited.keep c ih

theorem edited_subQuote : ∀ s : List Char, Edited quotePair s (subQuote s) := by
  intro s
  induction s with
  | nil => exact Edited.nil
  | cons c rest ih =>
    unfold subQuote
    simp only [List.map_cons]
    by_cases hc : c = '“' ∨ c = '”' ∨ c = quoteChar
    · rw [if_pos hc]
      have he : Edited quotePair ([c] ++ rest)
          ([quoteChar] ++ rest.map (fun c => if c = '“' ∨ c = '”' ∨ c = quoteChar then quoteChar else c)) :=
        Edited.edit ⟨⟨c, rfl, hc⟩, rfl⟩ (List.cons_ne_nil c []) ih
      simpa using he
    · rw [if_neg hc]
      exact Edited.keep c ih

theorem edited_subApos : ∀ s : List Char, Edited aposPair s (subApos s) := by
  intro s
  induction s with
  | nil => exact Edited.nil
  | cons c rest ih =>
    unfold subApos
    simp only [List.map_cons]
    by_cases hc : c = '‘' ∨ c = '’' ∨ c = aposChar
    · rw [if_pos hc]
      have he : Edited aposPair ([c] ++ rest)
          ([aposChar] ++ rest.map (fun c => if c = '‘' ∨ c = '’' ∨ c = aposChar then aposChar else c)) :=
        Edited.edit ⟨⟨c, rfl, hc⟩, rfl⟩ (List.cons_ne_nil c []) ih
      simpa using he
    · rw [if_neg hc]
      exact Edited.keep c ih

theorem edited_collapseWs_aux (n : Nat) : ∀ s : List Char, s.length ≤ n →
    Edited collPair s (collapseWs s) := by
  induction n using Nat.strong_induction_on with
  | _ n ih =>
    intro s hs
    cases s with
    | nil => exact Edited.nil
    | cons c rest =>
      cases n with
      | zero => simp at hs
      | succ n =>
        have hrest : rest.length ≤ n := by
          simp only [List.length_cons] at hs
          omega
        rw [collapseWs_cons]
        by_cases hc : pyIsSpace c = true
        · rw [if_pos hc]
          have hlen : (rest.dropWhile pyIsSpace).length ≤ n := by
            have := dropWhile_length_le pyIsSpace rest
            omega
          have hrec := ih n (by omega) _ hlen
          have hall : ∀ x ∈ c :: rest.takeWhile pyIsSpace, pyIsSpace x = true := by
            intro x hx
            rcases List.mem_cons.mp hx with h1 | h1
            · rw [h1]; exact hc
            · exact List.mem_takeWhile_imp h1
          have hsplit : c :: rest = (c :: rest.takeWhile pyIsSpace) ++ rest.dropWhile pyIsSpace := by
            rw [List.cons_append, List.takeWhile_append_dropWhile]
          rw [hsplit]
          exact Edited.edit ⟨hall, rfl⟩ (List.cons_ne_nil _ _) hrec
        · rw [if_neg hc]
          exact Edited.keep c (ih n (by omega) rest hrest)

theorem edited_collapseWs (s : List Char) : Edited collPair s (collapseWs s) :=
  edited_collapseWs_aux s.length s le_rfl

theorem edited_stripWs (s : List Char) : Edited stripPair s (stripWs s) := by
  have key : Edited stripPair
      (s.takeWhile pyIsSpace ++ (((s.dropWhile pyIsSpace).reverse.dropWhile pyIsSpace).reverse ++
        ((s.dropWhile pyIsSpace).reverse.takeWhile pyIsSpace).reverse))
      ([] ++ (((s.dropWhile pyIsSpace).reverse.dropWhile pyIsSpace).reverse ++ [])) := by
    refine edited_append (edited_delete _ ?_)
      (edited_append (edited_refl _ _) (edited_delete _ ?_))
    · intro _
      exact ⟨fun x hx => List.mem_takeWhile_imp hx, rfl⟩
    · intro _
      refine ⟨fun x hx => ?_, rfl⟩
      rw [List.mem_reverse] at hx
      exact List.mem_takeWhile_imp hx
  have hs : s.takeWhile pyIsSpace ++ (((s.dropWhile pyIsSpace).reverse.dropWhile pyIsSpace).reverse ++
      ((s.dropWhile pyIsSpace).reverse.takeWhile pyIsSpace).reverse) = s := by
    have hmid : ((s.dropWhile pyIsSpace).reverse.dropWhile pyIsSpace).reverse ++
        ((s.dropWhile pyIsSpace).reverse.takeWhile pyIsSpace).reverse = s.dropWhile pyIsSpace := by
      rw [← List.reverse_append, List.takeWhile_append_dropWhile, List.reverse_reverse]
    rw [hmid, List.takeWhile_append_dropWhile]
  rw [hs] at key
  simpa [stripWs] using key

theorem edited_subLit_aux (p0 : Char) (prest rep : List Char) (n : Nat) :
    ∀ (pw : Bool) (s : List Char), s.length ≤ n →
      Edited (litPair (p0 :: prest) rep) s (subLit p0 prest rep pw s) := by
  induction n using Nat.strong_induction_on with
  | _ n ih =>
    intro pw s hs
    cases s with
    | nil => exact Edited.nil
    | cons c rest =>
      cases n with
      | zero => simp at hs
      | succ n =>
        have hrest : rest.length ≤ n := by
          simp only [List.length_cons] at hs
          omega
        rw [subLit_cons]
        by_cases hcond : (!pw) = true ∧ isPre (p0 :: prest) (c :: rest) = true
        · rw [if_pos hcond]
          have hsplit := isPre_eq_append (p0 :: prest) (c :: rest) hcond.2
          have hdrop : (c :: rest).drop (p0 :: prest).length = rest.drop prest.length := by
            rw [List.length_cons, List.drop_succ_cons]
          rw [hdrop] at hsplit
          have hlen : (rest.drop prest.length).length ≤ n := by
            simp only [List.length_drop]
            omega
          have hrec := ih n (by omega)
            (pyIsWord ((p0 :: prest).getLast (List.cons_ne_nil p0 prest))) _ hlen
          rw [hsplit]
          exact Edited.edit ⟨rfl, rfl⟩ (List.cons_ne_nil p0 prest) hrec
        · rw [if_neg hcond]
          exact Edited.keep c (ih n (by omega) (pyIsWord c) rest hrest)

theorem edited_subLit (p0 : Char) (prest rep : List Char) (pw : Bool) (s : List Char) :
    Edited (litPair (p0 :: prest) rep) s (subLit p0 prest rep pw s) :=
  edited_subLit_aux p0 prest rep s.length pw s le_rfl

theorem edited_subNum_aux (sym : Char) (rep : List Char) (n : Nat) :
    ∀ (pw : Bool) (s : List Char), s.length ≤ n →
      Edited (numPair sym rep) s (subNum sym rep pw s) := by
  induction n using Nat.strong_induction_on with
  | _ n ih =>
    intro pw s hs
    cases s with
    | nil => exact Edited.nil
    | cons c rest =>
      cases n with
      | zero => simp at hs
      | succ n =>
        have hrest : rest.length ≤ n := by
          simp only [List.length_cons] at hs
          omega
        rw [subNum_cons]
        by_cases hcond : (!pw) = true ∧ pyIsDigit c = true ∧
            (rest.dropWhile pyIsDigit).head? = some sym
        · rw [if_pos hcond]
          obtain ⟨hpw, hdig, hhead⟩ := hcond
          have hdw : rest.dropWhile pyIsDigit = sym :: (rest.dropWhile pyIsDigit).tail := by
            cases hdd : rest.dropWhile pyIsDigit with
            | nil =>
              rw [hdd] at hhead
              exact absurd hhead (by simp)
            | cons d tl =>
              rw [hdd] at hhead
              have hd : d = sym := by simpa using hhead
              rw [hd]
              rfl
          set tl := (rest.dropWhile pyIsDigit).tail with htl
          have hsplit : c :: rest = (c :: (rest.takeWhile pyIsDigit ++ [sym])) ++ tl := by
            conv_lhs => rw [show rest = rest.takeWhile pyIsDigit ++ rest.dropWhile pyIsDigit from
              (List.takeWhile_append_dropWhile _ _).symm, hdw]
            simp [List.append_assoc]
          have hlen : tl.length ≤ n := by
            have := dropWhile_length_le pyIsDigit rest
            rw [htl]
            simp only [List.length_tail]
            omega
          have hrec := ih n (by omega) (pyIsWord sym) _ hlen
          have hP : numPair sym rep (c :: (rest.takeWhile pyIsDigit ++ [sym]))
              (c :: (rest.takeWhile pyIsDigit ++ rep)) :=
            ⟨c, rest.takeWhile pyIsDigit, hdig,
              fun x hx => List.mem_takeWhile_imp hx, rfl, rfl⟩
          rw [hsplit]
          have he := Edited.edit hP (List.cons_ne_nil _ _) hrec
          simpa [List.append_assoc] using he
        · rw [if_neg hcond]
          exact Edited.keep c (ih n (by omega) (pyIsWord c) rest hrest)

theorem edited_subNum (sym : Char) (rep : List Char) (pw : Bool) (s : List Char) :
    Edited (numPair sym rep) s (subNum sym rep pw s) :=
  edited_subNum_aux sym rep s.length pw s le_rfl

theorem dropWhile_head_not {p : Char → Bool} : ∀ (l : List Char) {d : Char} {ds : List Char},
    l.dropWhile p = d :: ds → p d = false := by
  intro l
  induction l with
  | nil => intro d ds h; exact absurd h (by simp)
  | cons c rest ih =>
    intro d ds h
    rw [List.dropWhile_cons] at h
    by_cases hc : p c = true
    · rw [if_pos hc] at h
      exact ih h
    · rw [if_neg hc] at h
      injection h with h1 _
      rw [← h1]
      exact Bool.eq_false_iff.mpr hc

theorem headIsSpace_append_left {x : List Char} (y : List Char) (hx : x ≠ []) :
    headIsSpace (x ++ y) = headIsSpace x := by
  obtain ⟨c, x', hxe⟩ := List.exists_cons_of_ne_nil hx
  subst hxe
  rfl

theorem wsOk_suffix : ∀ (x y : List Char), wsOk (x ++ y) = true → wsOk y = true := by
  intro x
  induction x with
  | nil => exact fun y h => h
  | cons c x' ih =>
    intro y h
    simp only [List.cons_append, wsOk, Bool.and_eq_true] at h
    exact ih y h.2

theorem wsOk_iff : ∀ s : List Char, wsOk s = true ↔
    ((∀ c ∈ s, pyIsSpace c = true → c = ' ') ∧
      List.Chain' (fun a b => ¬(pyIsSpace a = true ∧ pyIsSpace b = true)) s) := by
  intro s
  induction s with
  | nil => simp [wsOk]
  | cons c rest ih =>
    rw [List.chain'_cons']
    simp only [wsOk, Bool.and_eq_true]
    constructor
    · rintro ⟨h1, h2⟩
      rw [Bool.or_eq_true] at h1
      obtain ⟨hmem, hch⟩ := ih.mp h2
      refine ⟨?_, ?_, hch⟩
      · intro x hx hsp
        rcases List.mem_cons.mp hx with hx1 | hx1
        · subst hx1
          rcases h1 with hy | hy
          · rw [Bool.not_eq_true', hsp] at hy
            exact Bool.noConfusion hy
          · rw [Bool.and_eq_true] at hy
            exact of_decide_eq_true hy.1
        · exact hmem x hx1 hsp
      · intro y hy2
        rintro ⟨hc, hyy⟩
        rcases h1 with hy | hy
        · rw [Bool.not_eq_true', hc] at hy
          exact Bool.noConfusion hy
        · rw [Bool.and_eq_true, Bool.not_eq_true'] at hy
          cases rest with
          | nil => exact absurd hy2 (by simp)
          | cons r0 rs =>
            have hyr : r0 = y := by simpa using hy2
            subst hyr
            simp only [headIsSpace] at hy
            rw [hyy] at hy
            exact Bool.noConfusion hy.2
    · rintro ⟨hmem, hhd, hch⟩
      refine ⟨?_, ih.mpr ⟨fun x hx => hmem x (List.mem_cons_of_mem c hx), hch⟩⟩
      rw [Bool.or_eq_true]
      by_cases hsp : pyIsSpace c = true
      · right
        rw [Bool.and_eq_true]
        refine ⟨decide_eq_true (hmem c (List.mem_cons_self c rest) hsp), ?_⟩
        rw [Bool.not_eq_true']
        cases rest with
        | nil => rfl
        | cons r0 rs =>
          have hr : ¬(pyIsSpace c = true ∧ pyIsSpace r0 = true) := hhd r0 (by simp)
          simp only [headIsSpace]
          by_cases hr0 : pyIsSpace r0 = true
          · exact absurd ⟨hsp, hr0⟩ hr
          · exact Bool.eq_false_iff.mpr hr0
      · left
        rw [Bool.not_eq_true']
        exact Bool.eq_false_iff.mpr hsp

theorem wsOk_reverse (s : List Char) (h : wsOk s = true) : wsOk s.reverse = true := by
  rw [wsOk_iff] at h ⊢
  obtain ⟨hmem, hch⟩ := h
  refine ⟨fun c hc hsp => hmem c (List.mem_reverse.mp hc) hsp, ?_⟩
  rw [List.chain'_reverse]
  exact List.Chain'.imp (fun a b hab hp => hab ⟨hp.2, hp.1⟩) hch

theorem wsOk_append_strong : ∀ (b t : List Char), wsOk b = true →
    headIsSpace b.reverse = false → wsOk t = true → wsOk (b ++ t) = true := by
  intro b
  induction b with
  | nil => exact fun t _ _ ht => ht
  | cons c b' ih =>
    intro t hb hlast ht
    simp only [wsOk, Bool.and_eq_true] at hb
    simp only [List.cons_append, wsOk, Bool.and_eq_true]
    cases b' with
    | nil =>
      have hc : pyIsSpace c = false := by simpa [headIsSpace] using hlast
      refine ⟨?_, ht⟩
      rw [Bool.or_eq_true]
      left
      rw [Bool.not_eq_true']
      exact hc
    | cons d b'' =>
      have hrev : (c :: d :: b'').reverse = (d :: b'').reverse ++ [c] := by
        simp [List.reverse_cons]
      have hlast' : headIsSpace (d :: b'').reverse = false := by
        rw [hrev, headIsSpace_append_left [c] (by simp)] at hlast
        exact hlast
      exact ⟨hb.1, ih t hb.2 hlast' ht⟩

theorem edited_wsOk {P : List Char → List Char → Prop}
    (hP : ∀ a b, P a b → b ≠ [] ∧ headIsSpace b = false ∧
      headIsSpace b.reverse = false ∧ wsOk b = true) :
    ∀ {s t : List Char}, Edited P s t → wsOk s = true → wsOk t = true := by
  intro s t h
  induction h with
  | nil => exact fun h => h
  | @keep c s2 t2 hsub ih =>
    intro hs
    simp only [wsOk, Bool.and_eq_true] at hs ⊢
    refine ⟨?_, ih hs.2⟩
    have h1 := hs.1
    rw [Bool.or_eq_true] at h1 ⊢
    rcases h1 with hy | hy
    · exact Or.inl hy
    · right
      rw [Bool.and_eq_true] at hy
      obtain ⟨hy1, hy2⟩ := hy
      rw [Bool.not_eq_true'] at hy2
      have ht2 : headIsSpace t2 = false :=
        edited_headIsSpace (fun a b hab => ⟨(hP a b hab).1, (hP a b hab).2.1⟩) hsub hy2
      rw [Bool.and_eq_true]
      refine ⟨hy1, ?_⟩
      rw [Bool.not_eq_true']
      exact ht2
  | @edit a b s2 t2 hPab hne hsub ih =>
    intro hs
    obtain ⟨hbne, hbh, hbl, hbws⟩ := hP a b hPab
    exact wsOk_append_strong b t2 hbws hbl (ih (wsOk_suffix a s2 hs))

theorem wsOk_collapseWs_aux (n : Nat) : ∀ s : List Char, s.length ≤ n →
    wsOk (collapseWs s) = true := by
  induction n using Nat.strong_induction_on with
  | _ n ih =>
    intro s hs
    cases s with
    | nil => rfl
    | cons c rest =>
      cases n with
      | zero => simp at hs
      | succ n =>
        have hrest : rest.length ≤ n := by
          simp only [List.length_cons] at hs
          omega
        rw [collapseWs_cons]
        by_cases hc : pyIsSpace c = true
        · rw [if_pos hc]
          simp only [wsOk, Bool.and_eq_true]
          have hlen : (rest.dropWhile pyIsSpace).length ≤ n := by
            have := dropWhile_length_le pyIsSpace rest
            omega
          refine ⟨?_, ih n (by omega) _ hlen⟩
          rw [Bool.or_eq_true]
          right
          rw [Bool.and_eq_true]
          refine ⟨by simp, ?_⟩
          rw [Bool.not_eq_true']
          cases hdd : rest.dropWhile pyIsSpace with
          | nil => rfl
          | cons d ds =>
            have hdns : pyIsSpace d = false := dropWhile_head_not rest hdd
            rw [collapseWs_cons, if_neg (by simp [hdns])]
            exact hdns
        · rw [if_neg hc]
          simp only [wsOk, Bool.and_eq_true]
          refine ⟨?_, ih n (by omega) rest hrest⟩
          rw [Bool.or_eq_true]
          left
          rw [Bool.not_eq_true']
          exact Bool.eq_false_iff.mpr hc

theorem wsOk_collapseWs (s : List Char) : wsOk (collapseWs s) = true :=
  wsOk_collapseWs_aux s.length s le_rfl

theorem wsOk_stripWs (s : List Char) (h : wsOk s = true) : wsOk (stripWs s) = true := by
  unfold stripWs
  have h1 : wsOk (s.dropWhile pyIsSpace) = true := by
    obtain ⟨x, hx⟩ := List.dropWhile_suffix (l := s) pyIsSpace
    exact wsOk_suffix x _ (by rw [hx]; exact h)
  have h2 : wsOk (s.dropWhile pyIsSpace).reverse = true := wsOk_reverse _ h1
  have h3 : wsOk ((s.dropWhile pyIsSpace).reverse.dropWhile pyIsSpace) = true := by
    obtain ⟨x, hx⟩ := List.dropWhile_suffix (l := (s.dropWhile pyIsSpace).reverse) pyIsSpace
    exact wsOk_suffix x _ (by rw [hx]; exact h2)
  exact wsOk_reverse _ h3

theorem edgeOk_stripWs (s : List Char) : edgeOk (stripWs s) = true := by
  unfold edgeOk
  rw [Bool.and_eq_true, Bool.not_eq_true', Bool.not_eq_true']
  constructor
  · cases hss : stripWs s with
    | nil => rfl
    | cons d ds =>
      have ht1 : s.dropWhile pyIsSpace =
          stripWs s ++ ((s.dropWhile pyIsSpace).reverse.takeWhile pyIsSpace).reverse := by
        unfold stripWs
        rw [← List.reverse_append, List.takeWhile_append_dropWhile, List.reverse_reverse]
      rw [hss, List.cons_append] at ht1
      exact dropWhile_head_not s ht1
  · have hrr : (stripWs s).reverse = (s.dropWhile pyIsSpace).reverse.dropWhile pyIsSpace := by
      unfold stripWs
      rw [List.reverse_reverse]
    rw [hrr]
    cases hdd : (s.dropWhile pyIsSpace).reverse.dropWhile pyIsSpace with
    | nil => rfl
    | cons d ds => exact dropWhile_head_not _ hdd

theorem edited_edgeOk {P : List Char → List Char → Prop}
    (hP : ∀ a b, P a b → b ≠ [] ∧ headIsSpace b = false ∧ headIsSpace b.reverse = false) :
    ∀ {s t : List Char}, Edited P s t → edgeOk s = true → edgeOk t = true := by
  intro s t h hs
  unfold edgeOk at hs ⊢
  rw [Bool.and_eq_true, Bool.not_eq_true', Bool.not_eq_true'] at hs ⊢
  obtain ⟨hs1, hs2⟩ := hs
  constructor
  · exact edited_headIsSpace (fun a b hab => ⟨(hP a b hab).1, (hP a b hab).2.1⟩) h hs1
  · have hrev := edited_reverse h
    refine edited_headIsSpace ?_ hrev hs2
    intro x y hxy
    obtain ⟨hyne, hyh, hyl⟩ := hP _ _ hxy
    refine ⟨fun hy => hyne (by rw [hy]; rfl), ?_⟩
    rwa [List.reverse_reverse] at hyl

theorem litOk_mono (pat : List Char) : ∀ (s : List Char) (pw : Bool),
    litOk pat pw s = true → litOk pat true s = true := by
  intro s pw h
  cases s with
  | nil => rfl
  | cons c rest =>
    simp only [litOk, Bool.and_eq_true] at h ⊢
    refine ⟨?_, h.2⟩
    rw [Bool.or_eq_true]
    left
    rfl

theorem litOk_suffix (pat : List Char) : ∀ (x : List Char) (pw : Bool) (y : List Char),
    litOk pat pw (x ++ y) = true → ∃ pw2, litOk pat pw2 y = true := by
  intro x
  induction x with
  | nil => exact fun pw y h => ⟨pw, h⟩
  | cons c x' ih =>
    intro pw y h
    simp only [List.cons_append, litOk, Bool.and_eq_true] at h
    exact ih (pyIsWord c) y h.2

theorem edited_pre_transfer {P : List Char → List Char → Prop} {pat : List Char}
    (hP : ∀ a b, P a b → b ≠ [] ∧
      (∀ w, w ≠ [] → w <:+ pat → isPre w b = false ∧ isPre b w = false)) :
    ∀ {s t : List Char}, Edited P s t → ∀ w, w ≠ [] → w <:+ pat →
      isPre w t = true → isPre w s = true := by
  intro s t h
  induction h with
  | nil =>
    intro w hw _ hpre
    obtain ⟨w0, w', hwe⟩ := List.exists_cons_of_ne_nil hw
    rw [hwe] at hpre
    exact Bool.noConfusion hpre
  | @keep c s2 t2 hsub ih =>
    intro w hw hsuf hpre
    obtain ⟨w0, w', hwe⟩ := List.exists_cons_of_ne_nil hw
    subst hwe
    have h' : w0 = c ∧ isPre w' t2 = true := by simpa [isPre] using hpre
    cases w' with
    | nil => simp [isPre, h'.1]
    | cons w1 w'' =>
      have hw'suf : (w1 :: w'') <:+ pat := List.IsSuffix.trans ⟨[w0], rfl⟩ hsuf
      have htail := ih (w1 :: w'') (List.cons_ne_nil _ _) hw'suf h'.2
      simp [isPre, h'.1, htail]
  | @edit a b s2 t2 hPab hne hsub ih =>
    intro w hw hsuf hpre
    obtain ⟨hbne, hcross⟩ := hP a b hPab
    rcases isPre_append_cases w b t2 hpre with hc | hc
    · rw [(hcross w hw hsuf).1] at hc
      exact Bool.noConfusion hc
    · rw [(hcross w hw hsuf).2] at hc
      exact Bool.noConfusion hc

theorem litOk_append_of (pat : List Char) : ∀ (b : List Char) (t : List Char) (pw : Bool),
    b ≠ [] →
    (∀ y, y ≠ [] → y <:+ b → isPre pat (y ++ t) = false) →
    (∀ hb : b ≠ [], pyIsWord (b.getLast hb) = true) →
    litOk pat true t = true → litOk pat pw (b ++ t) = true := by
  intro b
  induction b with
  | nil => intro t pw hne; exact absurd rfl hne
  | cons c b' ih =>
    intro t pw _ hy hw ht
    simp only [List.cons_append, litOk, Bool.and_eq_true]
    constructor
    · rw [Bool.or_eq_true]
      right
      rw [Bool.not_eq_true']
      have := hy (c :: b') (List.cons_ne_nil _ _) (List.suffix_refl _)
      simpa using this
    · cases b' with
      | nil =>
        have hwc : pyIsWord c = true := hw (List.cons_ne_nil c [])
        rw [hwc]
        exact ht
      | cons d b'' =>
        refine ih t (pyIsWord c) (List.cons_ne_nil _ _) ?_ ?_ ht
        · intro y hyne hysuf
          exact hy y hyne (hysuf.trans (List.suffix_cons c (d :: b'')))
        · intro hb
          have := hw (List.cons_ne_nil c (d :: b''))
          rwa [List.getLast_cons hb] at this

theorem edited_litOk {P : List Char → List Char → Prop} {pat : List Char}
    (hP : ∀ a b, P a b → b ≠ [] ∧
      (∀ hb : b ≠ [], pyIsWord (b.getLast hb) = true) ∧
      (∀ w, w ≠ [] → w <:+ pat → isPre w b = false ∧ isPre b w = false) ∧
      (∀ y, y ≠ [] → y <:+ b → isPre pat y = false ∧ isPre y pat = false)) :
    ∀ {s t : List Char}, Edited P s t → ∀ (pws pwt : Bool),
      litOk pat pws s = true → (pwt = pws ∨ pwt = true) → litOk pat pwt t = true := by
  intro s t h
  induction h with
  | nil => intro pws pwt _ _; rfl
  | @keep c s2 t2 hsub ih =>
    intro pws pwt hs hrel
    simp only [litOk, Bool.and_eq_true] at hs ⊢
    refine ⟨?_, ih (pyIsWord c) (pyIsWord c) hs.2 (Or.inl rfl)⟩
    rw [Bool.or_eq_true]
    rcases hrel with hrel | hrel
    · subst hrel
      have h1 := hs.1
      rw [Bool.or_eq_true] at h1
      rcases h1 with hy | hy
      · exact Or.inl hy
      · right
        rw [Bool.not_eq_true'] at hy ⊢
        by_contra hq
        rw [Bool.not_eq_false] at hq
        cases hpat : pat with
        | nil =>
          rw [hpat] at hy
          exact Bool.noConfusion hy
        | cons p0 pat' =>
          rw [hpat] at hq hy
          have h2 : p0 = c ∧ isPre pat' t2 = true := by simpa [isPre] using hq
          cases pat' with
          | nil =>
            have hx : isPre [p0] (c :: s2) = true := by simp [isPre, h2.1]
            rw [hx] at hy
            exact Bool.noConfusion hy
          | cons p1 pat'' =>
            have htr := edited_pre_transfer
              (fun a b hab => ⟨(hP a b hab).1, (hP a b hab).2.2.1⟩) hsub
              (p1 :: pat'') (List.cons_ne_nil _ _)
              ⟨[p0], by rw [hpat]; rfl⟩ h2.2
            have hx : isPre (p0 :: p1 :: pat'') (c :: s2) = true := by
              simp [isPre, h2.1, htr]
            rw [hx] at hy
            exact Bool.noConfusion hy
    · subst hrel
      exact Or.inl rfl
  | @edit a b s2 t2 hPab hne hsub ih =>
    intro pws pwt hs hrel
    obtain ⟨hbne, hblast, hwfam, hyfam⟩ := hP a b hPab
    obtain ⟨pw2, hpw2⟩ := litOk_suffix pat a pws s2 hs
    have ht2 : litOk pat true t2 = true := ih pw2 true hpw2 (Or.inr rfl)
    refine litOk_append_of pat b t2 pwt hbne ?_ hblast ht2
    intro y hyne hysuf
    by_contra hq
    rw [Bool.not_eq_false] at hq
    rcases isPre_append_cases pat y t2 hq with hc | hc
    · rw [(hyfam y hyne hysuf).1] at hc
      exact Bool.noConfusion hc
    · rw [(hyfam y hyne hysuf).2] at hc
      exact Bool.noConfusion hc

theorem litOk_subLit_aux (p0 : Char) (prest rep : List Char)
    (hrepne : rep ≠ [])
    (hreplast : ∀ hb : rep ≠ [], pyIsWord (rep.getLast hb) = true)
    (hwfam : ∀ w, w ≠ [] → w <:+ (p0 :: prest) → isPre w rep = false ∧ isPre rep w = false)
    (hyfam : ∀ y, y ≠ [] → y <:+ rep →
      isPre (p0 :: prest) y = false ∧ isPre y (p0 :: prest) = false)
    (n : Nat) :
    ∀ (pw : Bool) (s : List Char), s.length ≤ n →
      litOk (p0 :: prest) pw (subLit p0 prest rep pw s) = true := by
  induction n using Nat.strong_induction_on with
  | _ n ih =>
    intro pw s hs
    cases s with
    | nil => rfl
    | cons c rest =>
      cases n with
      | zero => simp at hs
      | succ n =>
        have hrest : rest.length ≤ n := by
          simp only [List.length_cons] at hs
          omega
        rw [subLit_cons]
        by_cases hcond : (!pw) = true ∧ isPre (p0 :: prest) (c :: rest) = true
        · rw [if_pos hcond]
          have hlen : (rest.drop prest.length).length ≤ n := by
            simp only [List.length_drop]
            omega
          have hrec := ih n (by omega)
            (pyIsWord ((p0 :: prest).getLast (List.cons_ne_nil p0 prest))) _ hlen
          have ht := litOk_mono (p0 :: prest) _ _ hrec
          refine litOk_append_of (p0 :: prest) rep _ pw hrepne ?_ hreplast ht
          intro y hyne hysuf
          by_contra hq
          rw [Bool.not_eq_false] at hq
          rcases isPre_append_cases (p0 :: prest) y _ hq with hc | hc
          · rw [(hyfam y hyne hysuf).1] at hc
            exact Bool.noConfusion hc
          · rw [(hyfam y hyne hysuf).2] at hc
            exact Bool.noConfusion hc
        · rw [if_neg hcond]
          simp only [litOk, Bool.and_eq_true]
          refine ⟨?_, ih n (by omega) (pyIsWord c) rest hrest⟩
          rw [Bool.or_eq_true]
          by_cases hpw : pw = true
          · exact Or.inl hpw
          · right
            rw [Bool.not_eq_true']
            have hpwf : pw = false := Bool.eq_false_iff.mpr hpw
            have hnp : isPre (p0 :: prest) (c :: rest) = false := by
              by_contra hq2
              rw [Bool.not_eq_false] at hq2
              exact hcond ⟨by rw [hpwf]; rfl, hq2⟩
            by_contra hq
            rw [Bool.not_eq_false] at hq
            have h2 : p0 = c ∧
                isPre prest (subLit p0 prest rep (pyIsWord c) rest) = true := by
              simpa [isPre] using hq
            have h3 : isPre prest rest = true := by
              cases hpre : prest with
              | nil => rfl
              | cons p1 prest' =>
                rw [← hpre]
                have hsubE := edited_subLit p0 prest rep (pyIsWord c) rest
                have hP' : ∀ a b, litPair (p0 :: prest) rep a b → b ≠ [] ∧
                    (∀ w, w ≠ [] → w <:+ (p0 :: prest) →
                      isPre w b = false ∧ isPre b w = false) := by
                  rintro a b ⟨ha, hb⟩
                  subst hb
                  exact ⟨hrepne, hwfam⟩
                exact edited_pre_transfer hP' hsubE prest
                  (by rw [hpre]; exact List.cons_ne_nil _ _) ⟨[p0], rfl⟩ h2.2
            have hx : isPre (p0 :: prest) (c :: rest) = true := by
              simp [isPre, h2.1, h3]
            rw [hx] at hnp
            exact Bool.noConfusion hnp

theorem litOk_subLit (p0 : Char) (prest rep : List Char)
    (hrepne : rep ≠ [])
    (hreplast : ∀ hb : rep ≠ [], pyIsWord (rep.getLast hb) = true)
    (hwfam : ∀ w, w ≠ [] → w <:+ (p0 :: prest) → isPre w rep = false ∧ isPre rep w = false)
    (hyfam : ∀ y, y ≠ [] → y <:+ rep →
      isPre (p0 :: prest) y = false ∧ isPre y (p0 :: prest) = false)
    (pw : Bool) (s : List Char) :
    litOk (p0 :: prest) pw (subLit p0 prest rep pw s) = true :=
  litOk_subLit_aux p0 prest rep hrepne hreplast hwfam hyfam s.length pw s le_rfl

theorem numOk_mono (sym : Char) : ∀ (s : List Char) (pw : Bool),
    numOk sym pw s = true → numOk sym true s = true := by
  intro s pw h
  cases s with
  | nil => rfl
  | cons c rest =>
    simp only [numOk, Bool.and_eq_true] at h ⊢
    refine ⟨?_, h.2⟩
    rw [Bool.or_eq_true, Bool.or_eq_true]
    left
    left
    rfl

theorem numOk_suffix (sym : Char) : ∀ (x : List Char) (pw : Bool) (y : List Char),
    numOk sym pw (x ++ y) = true → ∃ pw2, numOk sym pw2 y = true := by
  intro x
  induction x with
  | nil => exact fun pw y h => ⟨pw, h⟩
  | cons c x' ih =>
    intro pw y h
    simp only [List.cons_append, numOk, Bool.and_eq_true] at h
    exact ih (pyIsWord c) y h.2

theorem edited_numHead {P : List Char → List Char → Prop} {sym : Char}
    (hP : ∀ a b, P a b → b ≠ [] ∧ sym ∉ b ∧ (∃ x ∈ b, pyIsDigit x = false)) :
    ∀ {s t : List Char}, Edited P s t →
      (t.dropWhile pyIsDigit).head? = some sym →
      (s.dropWhile pyIsDigit).head? = some sym := by
  intro s t h
  induction h with
  | nil => exact fun h => h
  | @keep c s2 t2 hsub ih =>
    intro ht
    by_cases hd : pyIsDigit c = true
    · rw [List.dropWhile_cons, if_pos hd] at ht ⊢
      exact ih ht
    · rw [List.dropWhile_cons, if_neg hd] at ht ⊢
      exact ht
  | @edit a b s2 t2 hPab hne hsub ih =>
    intro ht
    exfalso
    obtain ⟨hbne, hsymb, x, hxb, hxnd⟩ := hP a b hPab
    have hne2 : b.dropWhile pyIsDigit ≠ [] := by
      intro hq
      rw [List.dropWhile_eq_nil_iff] at hq
      rw [hq x hxb] at hxnd
      exact Bool.noConfusion hxnd
    have happ : (b ++ t2).dropWhile pyIsDigit = b.dropWhile pyIsDigit ++ t2 := by
      rw [List.dropWhile_append, if_neg (by simpa using hne2)]
    rw [happ] at ht
    obtain ⟨d, ds, hdd⟩ := List.exists_cons_of_ne_nil hne2
    rw [hdd, List.cons_append] at ht
    have hdsym : d = sym := by simpa using ht
    have hdb : d ∈ b := (List.dropWhile_suffix pyIsDigit).subset
      (by rw [hdd]; exact List.mem_cons_self _ _)
    rw [hdsym] at hdb
    exact hsymb hdb

theorem numOk_append_of (sym : Char) : ∀ (b t : List Char) (pw : Bool) (hb : b ≠ []),
    sym ∉ b → pyIsDigit (b.getLast hb) = false →
    numOk sym (pyIsWord (b.getLast hb)) t = true → numOk sym pw (b ++ t) = true := by
  intro b
  induction b with
  | nil => intro t pw hb; exact absurd rfl hb
  | cons c b' ih =>
    intro t pw hb hsym hlast ht
    simp only [List.cons_append, numOk, Bool.and_eq_true]
    cases b' with
    | nil =>
      refine ⟨?_, ht⟩
      rw [Bool.or_eq_true, Bool.or_eq_true]
      left
      right
      rw [Bool.not_eq_true']
      exact hlast
    | cons d b'' =>
      have hlast' : pyIsDigit ((d :: b'').getLast (List.cons_ne_nil d b'')) = false := hlast
      have hword' : numOk sym (pyIsWord ((d :: b'').getLast (List.cons_ne_nil d b''))) t = true := ht
      constructor
      · rw [Bool.or_eq_true, Bool.or_eq_true]
        by_cases hcd : pyIsDigit c = true
        · right
          rw [Bool.not_eq_true']
          have hnd : ∃ x ∈ d :: b'', pyIsDigit x = false :=
            ⟨(d :: b'').getLast (List.cons_ne_nil d b''), List.getLast_mem _, hlast'⟩
          have hne2 : (d :: b'').dropWhile pyIsDigit ≠ [] := by
            intro hq
            rw [List.dropWhile_eq_nil_iff] at hq
            obtain ⟨x, hx, hxnd⟩ := hnd
            rw [hq x hx] at hxnd
            exact Bool.noConfusion hxnd
          have happ : ((d :: b'') ++ t).dropWhile pyIsDigit =
              (d :: b'').dropWhile pyIsDigit ++ t := by
            rw [List.dropWhile_append, if_neg (by simpa using hne2)]
          show ((((d :: b'') ++ t).dropWhile pyIsDigit).head? == some sym) = false
          rw [happ]
          obtain ⟨e, es, hee⟩ := List.exists_cons_of_ne_nil hne2
          rw [hee, List.cons_append]
          have heb : e ∈ d :: b'' := (List.dropWhile_suffix pyIsDigit).subset
            (by rw [hee]; exact List.mem_cons_self _ _)
          have hesym : e ≠ sym := fun hq =>
            hsym (by rw [← hq]; exact List.mem_cons_of_mem c heb)
          simp [hesym]
        · left
          right
          rw [Bool.not_eq_true']
          exact Bool.eq_false_iff.mpr hcd
      · exact ih t (pyIsWord c) (List.cons_ne_nil d b'')
          (fun hm => hsym (List.mem_cons_of_mem c hm)) hlast' hword'

theorem edited_numOk {P : List Char → List Char → Prop} {sym : Char}
    (hP : ∀ a b, P a b → ∃ hb : b ≠ [], sym ∉ b ∧
      pyIsWord (b.getLast hb) = true ∧ pyIsDigit (b.getLast hb) = false) :
    ∀ {s t : List Char}, Edited P s t → ∀ (pws pwt : Bool),
      numOk sym pws s = true → (pwt = pws ∨ pwt = true) → numOk sym pwt t = true := by
  have hPhead : ∀ a b, P a b → b ≠ [] ∧ sym ∉ b ∧ (∃ x ∈ b, pyIsDigit x = false) := by
    intro a b hab
    obtain ⟨hb, hsbm, hlw, hld⟩ := hP a b hab
    exact ⟨hb, hsbm, b.getLast hb, List.getLast_mem hb, hld⟩
  intro s t h
  induction h with
  | nil => intro pws pwt _ _; rfl
  | @keep c s2 t2 hsub ih =>
    intro pws pwt hs hrel
    simp only [numOk, Bool.and_eq_true] at hs ⊢
    refine ⟨?_, ih (pyIsWord c) (pyIsWord c) hs.2 (Or.inl rfl)⟩
    rw [Bool.or_eq_true, Bool.or_eq_true]
    rcases hrel with hrel | hrel
    · subst hrel
      have h1 := hs.1
      rw [Bool.or_eq_true, Bool.or_eq_true] at h1
      rcases h1 with (hy | hy) | hy
      · exact Or.inl (Or.inl hy)
      · exact Or.inl (Or.inr hy)
      · right
        rw [Bool.not_eq_true'] at hy ⊢
        by_contra hq
        rw [Bool.not_eq_false] at hq
        have hq' : (t2.dropWhile pyIsDigit).head? = some sym := by simpa using hq
        have hs' := edited_numHead hPhead hsub hq'
        rw [show ((s2.dropWhile pyIsDigit).head? == some sym) = true from by simp [hs']] at hy
        exact Bool.noConfusion hy
    · subst hrel
      exact Or.inl (Or.inl rfl)
  | @edit a b s2 t2 hPab hne hsub ih =>
    intro pws pwt hs hrel
    obtain ⟨hbne, hsymb, hlw, hld⟩ := hP a b hPab
    obtain ⟨pw2, hpw2⟩ := numOk_suffix sym a pws s2 hs
    have ht2 := ih pw2 true hpw2 (Or.inr rfl)
    refine numOk_append_of sym b t2 pwt hbne hsymb hld ?_
    rw [hlw]
    exact ht2

theorem numOk_subNum_aux (sym : Char) (rep0 : List Char)
    (hrne : rep0 ≠ []) (hrsym : sym ∉ rep0)
    (hrdig : ∀ x ∈ rep0, pyIsDigit x = false)
    (hrlast : ∀ h : rep0 ≠ [], pyIsWord (rep0.getLast h) = true)
    (hsymd : pyIsDigit sym = false) (n : Nat) :
    ∀ (pw : Bool) (s : List Char), s.length ≤ n →
      numOk sym pw (subNum sym rep0 pw s) = true := by
  have hPhead : ∀ a b, numPair sym rep0 a b → b ≠ [] ∧ sym ∉ b ∧
      (∃ x ∈ b, pyIsDigit x = false) := by
    rintro a b ⟨c2, ds, hc2, hds, ha, hbe⟩
    subst hbe
    refine ⟨List.cons_ne_nil _ _, ?_, ?_⟩
    · intro hm
      rcases List.mem_cons.mp hm with hm | hm
      · rw [← hm] at hc2
        rw [hsymd] at hc2
        exact Bool.noConfusion hc2
      · rcases List.mem_append.mp hm with hm | hm
        · have hx := hds sym hm
          rw [hsymd] at hx
          exact Bool.noConfusion hx
        · exact hrsym hm
    · obtain ⟨r0, rr, hre⟩ := List.exists_cons_of_ne_nil hrne
      refine ⟨r0, ?_, hrdig r0 (by rw [hre]; exact List.mem_cons_self _ _)⟩
      exact List.mem_cons_of_mem c2
        (List.mem_append_right ds (by rw [hre]; exact List.mem_cons_self _ _))
  induction n using Nat.strong_induction_on with
  | _ n ih =>
    intro pw s hs
    cases s with
    | nil => rfl
    | cons c rest =>
      cases n with
      | zero => simp at hs
      | succ n =>
        have hrest : rest.length ≤ n := by
          simp only [List.length_cons] at hs
          omega
        rw [subNum_cons]
        by_cases hcond : (!pw) = true ∧ pyIsDigit c = true ∧
            (rest.dropWhile pyIsDigit).head? = some sym
        · rw [if_pos hcond]
          obtain ⟨hpw, hdig, hhead⟩ := hcond
          have hlen : ((rest.dropWhile pyIsDigit).tail).length ≤ n := by
            have := dropWhile_length_le pyIsDigit rest
            simp only [List.length_tail]
            omega
          have hrec := ih n (by omega) (pyIsWord sym) _ hlen
          have hrecT := numOk_mono sym _ _ hrec
          have hbne : (c :: rest.takeWhile pyIsDigit) ++ rep0 ≠ [] := by simp
          have hglast : ((c :: rest.takeWhile pyIsDigit) ++ rep0).getLast hbne =
              rep0.getLast hrne := List.getLast_append_of_ne_nil hrne
          have hsymnb : sym ∉ (c :: rest.takeWhile pyIsDigit) ++ rep0 := by
            intro hm
            rcases List.mem_append.mp hm with hm | hm
            · rcases List.mem_cons.mp hm with hm | hm
              · rw [← hm] at hdig
                rw [hsymd] at hdig
                exact Bool.noConfusion hdig
              · have hx := List.mem_takeWhile_imp hm
                rw [hsymd] at hx
                exact Bool.noConfusion hx
            · exact hrsym hm
          have hldig :
              pyIsDigit (((c :: rest.takeWhile pyIsDigit) ++ rep0).getLast hbne) = false := by
            rw [hglast]
            exact hrdig _ (List.getLast_mem hrne)
          have hlw : numOk sym
              (pyIsWord (((c :: rest.takeWhile pyIsDigit) ++ rep0).getLast hbne))
              (subNum sym rep0 (pyIsWord sym) (rest.dropWhile pyIsDigit).tail) = true := by
            rw [hglast, hrlast hrne]
            exact hrecT
          have hfin := numOk_append_of sym ((c :: rest.takeWhile pyIsDigit) ++ rep0)
            (subNum sym rep0 (pyIsWord sym) (rest.dropWhile pyIsDigit).tail) pw
            hbne hsymnb hldig hlw
          simpa [List.append_assoc] using hfin
        · rw [if_neg hcond]
          simp only [numOk, Bool.and_eq_true]
          refine ⟨?_, ih n (by omega) (pyIsWord c) rest hrest⟩
          rw [Bool.or_eq_true, Bool.or_eq_true]
          by_cases hpw : pw = true
          · exact Or.inl (Or.inl hpw)
          by_cases hcd : pyIsDigit c = true
          · right
            rw [Bool.not_eq_true']
            have hnm : ¬((rest.dropWhile pyIsDigit).head? = some sym) := by
              intro hq
              exact hcond ⟨by rw [Bool.eq_false_iff.mpr hpw]; rfl, hcd, hq⟩
            by_contra hq
            rw [Bool.not_eq_false] at hq
            have hq' : ((subNum sym rep0 (pyIsWord c) rest).dropWhile pyIsDigit).head? =
                some sym := by
              simpa using hq
            exact hnm (edited_numHead hPhead (edited_subNum sym rep0 (pyIsWord c) rest) hq')
          · left
            right
            rw [Bool.not_eq_true']
            exact Bool.eq_false_iff.mpr hcd

theorem numOk_subNum (sym : Char) (rep0 : List Char)
    (hrne : rep0 ≠ []) (hrsym : sym ∉ rep0)
    (hrdig : ∀ x ∈ rep0, pyIsDigit x = false)
    (hrlast : ∀ h : rep0 ≠ [], pyIsWord (rep0.getLast h) = true)
    (hsymd : pyIsDigit sym = false) (pw : Bool) (s : List Char) :
    numOk sym pw (subNum sym rep0 pw s) = true :=
  numOk_subNum_aux sym rep0 hrne hrsym hrdig hrlast hsymd s.length pw s le_rfl

theorem notMem_step {x y r : List Char} {ch : Char}
    (hstep : ∀ c ∈ y, c ∈ x ∨ c ∈ r) (hx : ch ∉ x) (hr : ch ∉ r) : ch ∉ y :=
  fun hm => (hstep ch hm).elim hx hr

theorem allProp_step {x y r : List Char} {Q : Char → Prop}
    (hstep : ∀ c ∈ y, c ∈ x ∨ c ∈ r) (hx : ∀ c ∈ x, Q c) (hr : ∀ c ∈ r, Q c) :
    ∀ c ∈ y, Q c :=
  fun c hm => (hstep c hm).elim (hx c) (hr c)

theorem subEll_no_ell (s : List Char) : '…' ∉ subEll s := by
  intro hm
  unfold subEll at hm
  obtain ⟨x, hx, hcx⟩ := List.mem_flatMap.mp hm
  by_cases hone : x = '…'
  · rw [if_pos hone] at hcx
    exact absurd hcx (by decide)
  · rw [if_neg hone] at hcx
    rw [List.mem_singleton] at hcx
    exact hone hcx.symm

theorem subQuote_no_smart (s : List Char) : ∀ c ∈ subQuote s, c ≠ '“' ∧ c ≠ '”' := by
  intro c hc
  unfold subQuote at hc
  obtain ⟨x, hx, hcx⟩ := List.mem_map.mp hc
  by_cases h1 : x = '“' ∨ x = '”' ∨ x = quoteChar
  · rw [if_pos h1] at hcx
    rw [← hcx]
    exact ⟨by decide, by decide⟩
  · rw [if_neg h1] at hcx
    rw [← hcx]
    push_neg at h1
    exact ⟨h1.1, h1.2.1⟩

theorem subApos_no_smart (s : List Char) : ∀ c ∈ subApos s, c ≠ '‘' ∧ c ≠ '’' := by
  intro c hc
  unfold subApos at hc
  obtain ⟨x, hx, hcx⟩ := List.mem_map.mp hc
  by_cases h1 : x = '‘' ∨ x = '’' ∨ x = aposChar
  · rw [if_pos h1] at hcx
    rw [← hcx]
    exact ⟨by decide, by decide⟩
  · rw [if_neg h1] at hcx
    rw [← hcx]
    push_neg at h1
    exact ⟨h1.1, h1.2.1⟩

theorem subCtl_no_ctl (s : List Char) : ∀ c ∈ subCtl s, isCtl c = false := by
  intro c hc
  have h := (List.mem_filter.mp hc).2
  simpa using h

theorem ctlPair_tag_cond : ∀ a b, ctlPair a b →
    ('>' ∉ a) ∧ ('>' ∉ b) ∧ (∀ c ∈ b, c ≠ '<') := by
  rintro a b ⟨⟨x, ha, hx⟩, hb⟩
  subst ha
  subst hb
  refine ⟨?_, by simp, by simp⟩
  intro hm
  rw [List.mem_singleton] at hm
  rw [← hm] at hx
  exact absurd hx (by decide)

theorem ellPair_tag_cond : ∀ a b, ellPair a b →
    ('>' ∉ a) ∧ ('>' ∉ b) ∧ (∀ c ∈ b, c ≠ '<') := by
  rintro a b ⟨ha, hb⟩
  subst ha
  subst hb
  exact ⟨by decide, by decide, by decide⟩

theorem quotePair_tag_cond : ∀ a b, quotePair a b →
    ('>' ∉ a) ∧ ('>' ∉ b) ∧ (∀ c ∈ b, c ≠ '<') := by
  rintro a b ⟨⟨x, ha, hx⟩, hb⟩
  subst ha
  subst hb
  refine ⟨?_, by decide, by decide⟩
  intro hm
  rw [List.mem_singleton] at hm
  rcases hx with h | h | h <;> rw [← hm] at h <;> exact absurd h (by decide)

theorem aposPair_tag_cond : ∀ a b, aposPair a b →
    ('>' ∉ a) ∧ ('>' ∉ b) ∧ (∀ c ∈ b, c ≠ '<') := by
  rintro a b ⟨⟨x, ha, hx⟩, hb⟩
  subst ha
  subst hb
  refine ⟨?_, by decide, by decide⟩
  intro hm
  rw [List.mem_singleton] at hm
  rcases hx with h | h | h <;> rw [← hm] at h <;> exact absurd h (by decide)

theorem collPair_tag_cond : ∀ a b, collPair a b →
    ('>' ∉ a) ∧ ('>' ∉ b) ∧ (∀ c ∈ b, c ≠ '<') := by
  rintro a b ⟨ha, hb⟩
  subst hb
  refine ⟨?_, by decide, by decide⟩
  intro hm
  exact absurd (ha '>' hm) (by decide)

theorem stripPair_tag_cond : ∀ a b, stripPair a b →
    ('>' ∉ a) ∧ ('>' ∉ b) ∧ (∀ c ∈ b, c ≠ '<') := by
  rintro a b ⟨ha, hb⟩
  subst hb
  refine ⟨?_, by simp, by simp⟩
  intro hm
  exact absurd (ha '>' hm) (by decide)

theorem litPair_tag_cond (pat rep : List Char)
    (h1 : '>' ∉ pat) (h2 : '>' ∉ rep) (h3 : ∀ c ∈ rep, c ≠ '<') :
    ∀ a b, litPair pat rep a b → ('>' ∉ a) ∧ ('>' ∉ b) ∧ (∀ c ∈ b, c ≠ '<') := by
  rintro a b ⟨ha, hb⟩
  subst ha
  subst hb
  exact ⟨h1, h2, h3⟩

theorem numPair_tag_cond (sym : Char) (rep0 : List Char)
    (h1 : pyIsDigit '>' = false) (h2 : sym ≠ '>')
    (h3 : '>' ∉ rep0) (h4 : pyIsDigit '<' = false) (h5 : ∀ c ∈ rep0, c ≠ '<') :
    ∀ a b, numPair sym rep0 a b → ('>' ∉ a) ∧ ('>' ∉ b) ∧ (∀ c ∈ b, c ≠ '<') := by
  rintro a b ⟨c2, ds, hc2, hds, ha, hb⟩
  subst ha
  subst hb
  refine ⟨?_, ?_, ?_⟩
  · intro hm
    rcases List.mem_cons.mp hm with hm | hm
    · rw [← hm] at hc2
      rw [h1] at hc2
      exact Bool.noConfusion hc2
    · rcases List.mem_append.mp hm with hm | hm
      · have hx := hds _ hm
        rw [h1] at hx
        exact Bool.noConfusion hx
      · rw [List.mem_singleton] at hm
        exact h2 hm.symm
  · intro hm
    rcases List.mem_cons.mp hm with hm | hm
    · rw [← hm] at hc2
      rw [h1] at hc2
      exact Bool.noConfusion hc2
    · rcases List.mem_append.mp hm with hm | hm
      · have hx := hds _ hm
        rw [h1] at hx
        exact Bool.noConfusion hx
      · exact h3 hm
  · intro c hm
    rcases List.mem_cons.mp hm with hm | hm
    · subst hm
      intro he
      rw [he] at hc2
      rw [h4] at hc2
      exact Bool.noConfusion hc2
    · rcases List.mem_append.mp hm with hm | hm
      · intro he
        have hx := hds _ hm
        rw [he, h4] at hx
        exact Bool.noConfusion hx
      · exact h5 c hm

theorem litPair_ws_cond (pat rep : List Char)
    (h1 : rep ≠ []) (h2 : headIsSpace rep = false)
    (h3 : headIsSpace rep.reverse = false) (h4 : wsOk rep = true) :
    ∀ a b, litPair pat rep a b → b ≠ [] ∧ headIsSpace b = false ∧
      headIsSpace b.reverse = false ∧ wsOk b = true := by
  rintro a b ⟨ha, hb⟩
  subst hb
  exact ⟨h1, h2, h3, h4⟩

theorem wsOk_append_nospace : ∀ (xs r : List Char), (∀ x ∈ xs, pyIsSpace x = false) →
    wsOk r = true → wsOk (xs ++ r) = true := by
  intro xs
  induction xs with
  | nil => exact fun r _ h => h
  | cons x xs' ih =>
    intro r hx hr
    simp only [List.cons_append, wsOk, Bool.and_eq_true]
    refine ⟨?_, ih r (fun y hy => hx y (List.mem_cons_of_mem x hy)) hr⟩
    rw [Bool.or_eq_true]
    left
    rw [Bool.not_eq_true']
    exact hx x (List.mem_cons_self x xs')

theorem numPair_ws_cond (sym : Char) (rep0 : List Char)
    (hrne : rep0 ≠ [])
    (hrl : headIsSpace rep0.reverse = false)
    (hrw : wsOk rep0 = true) :
    ∀ a b, numPair sym rep0 a b → b ≠ [] ∧ headIsSpace b = false ∧
      headIsSpace b.reverse = false ∧ wsOk b = true := by
  rintro a b ⟨c2, ds, hc2, hds, ha, hb⟩
  subst hb
  refine ⟨List.cons_ne_nil _ _, ?_, ?_, ?_⟩
  · show pyIsSpace c2 = false
    exact digit_not_space hc2
  · have hbrev : (c2 :: (ds ++ rep0)).reverse = rep0.reverse ++ (ds.reverse ++ [c2]) := by
      rw [show c2 :: (ds ++ rep0) = (c2 :: ds) ++ rep0 from rfl, List.reverse_append,
        List.reverse_cons]
    rw [hbrev, headIsSpace_append_left _ (by simpa using hrne)]
    exact hrl
  · refine wsOk_append_nospace (c2 :: ds) rep0 ?_ hrw
    intro x hx
    rcases List.mem_cons.mp hx with hx | hx
    · rw [hx]
      exact digit_not_space hc2
    · exact digit_not_space (hds x hx)

theorem ws_cond_to_edge {P : List Char → List Char → Prop}
    (h : ∀ a b, P a b → b ≠ [] ∧ headIsSpace b = false ∧
      headIsSpace b.reverse = false ∧ wsOk b = true) :
    ∀ a b, P a b → b ≠ [] ∧ headIsSpace b = false ∧ headIsSpace b.reverse = false :=
  fun a b hab => ⟨(h a b hab).1, (h a b hab).2.1, (h a b hab).2.2.1⟩

theorem litPair_lit_cond (patPass inv rep : List Char)
    (h1 : rep ≠ [])
    (h2 : ∀ hb : rep ≠ [], pyIsWord (rep.getLast hb) = true)
    (h3 : ∀ w ∈ inv.tails, w ≠ [] → isPre w rep = false ∧ isPre rep w = false)
    (h4 : ∀ y ∈ rep.tails, y ≠ [] → isPre inv y = false ∧ isPre y inv = false) :
    ∀ a b, litPair patPass rep a b → b ≠ [] ∧
      (∀ hb : b ≠ [], pyIsWord (b.getLast hb) = true) ∧
      (∀ w, w ≠ [] → w <:+ inv → isPre w b = false ∧ isPre b w = false) ∧
      (∀ y, y ≠ [] → y <:+ b → isPre inv y = false ∧ isPre y inv = false) := by
  rintro a b ⟨ha, hb⟩
  subst hb
  exact ⟨h1, h2, fun w hw hsuf => h3 w ((List.mem_tails _ _).mpr hsuf) hw,
    fun y hy hsuf => h4 y ((List.mem_tails _ _).mpr hsuf) hy⟩

theorem litOk_numPair_cond (inv : List Char) (sym : Char) (rep0 : List Char)
    (hrne : rep0 ≠ [])
    (hrlast : pyIsWord (rep0.getLast hrne) = true)
    (hinvne : inv ≠ [])
    (hpheads : ∀ w ∈ inv.tails, ∀ x, w.head? = some x → pyIsDigit x = false)
    (hyrep : ∀ y ∈ rep0.tails, y ≠ [] → isPre inv y = false ∧ isPre y inv = false) :
    ∀ a b, numPair sym rep0 a b → b ≠ [] ∧
      (∀ hb : b ≠ [], pyIsWord (b.getLast hb) = true) ∧
      (∀ w, w ≠ [] → w <:+ inv → isPre w b = false ∧ isPre b w = false) ∧
      (∀ y, y ≠ [] → y <:+ b → isPre inv y = false ∧ isPre y inv = false) := by
  rintro a b ⟨c2, ds, hc2, hds, ha, hb⟩
  subst hb
  refine ⟨List.cons_ne_nil _ _, ?_, ?_, ?_⟩
  · intro hb2
    have hgl : (c2 :: (ds ++ rep0)).getLast hb2 = rep0.getLast hrne :=
      List.getLast_append_of_ne_nil (l := c2 :: ds) hrne
    rw [hgl]
    exact hrlast
  · intro w hwne hwsuf
    obtain ⟨w0, w', hwe⟩ := List.exists_cons_of_ne_nil hwne
    subst hwe
    have hw0 : pyIsDigit w0 = false :=
      hpheads _ ((List.mem_tails _ _).mpr hwsuf) w0 rfl
    have hne0 : w0 ≠ c2 := by
      intro he
      rw [he, hc2] at hw0
      exact Bool.noConfusion hw0
    constructor
    · simp [isPre, hne0]
    · simp [isPre, Ne.symm hne0]
  · intro y hyne hysuf
    obtain ⟨P0, pr, hpe⟩ := List.exists_cons_of_ne_nil hinvne
    have hP0 : pyIsDigit P0 = false := by
      refine hpheads inv ((List.mem_tails _ _).mpr (List.suffix_refl _)) P0 ?_
      rw [hpe]
      rfl
    rcases suffix_append_cases (c2 :: ds) rep0 y hysuf with hc | ⟨xs', hxs, hxne, hye⟩
    · exact hyrep y ((List.mem_tails _ _).mpr hc) hyne
    · subst hye
      obtain ⟨x0, xs'', hxe⟩ := List.exists_cons_of_ne_nil hxne
      subst hxe
      have hx0d : pyIsDigit x0 = true := by
        have hx0m : x0 ∈ c2 :: ds := hxs.subset (List.mem_cons_self _ _)
        rcases List.mem_cons.mp hx0m with hm | hm
        · rw [hm]
          exact hc2
        · exact hds _ hm
      have hne2 : P0 ≠ x0 := by
        intro he
        rw [he, hx0d] at hP0
        exact Bool.noConfusion hP0
      rw [hpe]
      constructor
      · simp [isPre, hne2]
      · simp [isPre, Ne.symm hne2]

theorem numPair_num_cond (sym2 sym : Char) (rep0 : List Char)
    (hrne : rep0 ≠ [])
    (hsym2d : pyIsDigit sym2 = false)
    (hsym2r : sym2 ∉ rep0)
    (hrlast : pyIsWord (rep0.getLast hrne) = true)
    (hrdlast : pyIsDigit (rep0.getLast hrne) = false) :
    ∀ a b, numPair sym rep0 a b → ∃ hb : b ≠ [], sym2 ∉ b ∧
      pyIsWord (b.getLast hb) = true ∧ pyIsDigit (b.getLast hb) = false := by
  rintro a b ⟨c2, ds, hc2, hds, ha, hb⟩
  subst hb
  refine ⟨List.cons_ne_nil _ _, ?_, ?_, ?_⟩
  · intro hm
    rcases List.mem_cons.mp hm with hm | hm
    · rw [← hm] at hc2
      rw [hsym2d] at hc2
      exact Bool.noConfusion hc2
    · rcases List.mem_append.mp hm with hm | hm
      · have hx := hds _ hm
        rw [hsym2d] at hx
        exact Bool.noConfusion hx
      · exact hsym2r hm
  · have hgl : (c2 :: (ds ++ rep0)).getLast (List.cons_ne_nil _ _) = rep0.getLast hrne :=
      List.getLast_append_of_ne_nil (l := c2 :: ds) hrne
    rw [hgl]
    exact hrlast
  · have hgl : (c2 :: (ds ++ rep0)).getLast (List.cons_ne_nil _ _) = rep0.getLast hrne :=
      List.getLast_append_of_ne_nil (l := c2 :: ds) hrne
    rw [hgl]
    exact hrdlast

theorem pyWord_getLast_of (c : Char) {l : List Char} (h : l.getLast? = some c)
    (hc : pyIsWord c = true) : ∀ hb : l ≠ [], pyIsWord (l.getLast hb) = true := by
  intro hb
  have h2 := List.getLast_mem_getLast? hb
  rw [h] at h2
  have h3 : l.getLast hb = c := by
    have h4 : c = l.getLast hb := by simpa using h2
    exact h4.symm
  rw [h3]
  exact hc

theorem heads_nodigit_of_chars {inv : List Char} (hchars : ∀ x ∈ inv, pyIsDigit x = false) :
    ∀ w ∈ inv.tails, ∀ x, w.head? = some x → pyIsDigit x = false := by
  intro w hw x hx
  have hxw : x ∈ w := by
    cases w with
    | nil => exact absurd hx (by simp)
    | cons a as =>
      have ha : a = x := by injection hx
      rw [← ha]
      exact List.mem_cons_self a as
  exact hchars x (((List.mem_tails _ _).mp hw).subset hxw)

theorem cleanList_idem (d : List Char) (hstar : '*' ∉ d) (htick : tickChar ∉ d) :
    cleanList (cleanList d) = cleanList d := by
  have hstar1 : '*' ∉ subTags d := fun hm => hstar (mem_subTags hm)
  have htick1 : tickChar ∉ subTags d := fun hm => htick (mem_subTags hm)
  have hclean : cleanList d =
      subNum '%' " percento".data false
        (subNum '°' " gradi".data false
          (subLit 'S' "ig.ra".data "Signora".data false
            (subLit 'S' "ig.".data "Signore".data false
              (subLit 'P' "rof.".data "Professore".data false
                (subLit 'D' "r.".data "Dottore".data false
                  (stripWs
                    (collapseWs
                      (subApos
                        (subQuote
                          (subEll
                            (subCtl
                              (subTags d)))))))))))) := by
    unfold cleanList
    rw [subBold_id _ hstar1, subItalic_id _ hstar1, subDelim_id _ _ htick1]
  rw [hclean]
  set u1 := subTags d with hu1
  set u5 := subCtl u1 with hu5
  set u6 := subEll u5 with hu6
  set u7 := subQuote u6 with hu7
  set u8 := subApos u7 with hu8
  set u9 := collapseWs u8 with hu9
  set u10 := stripWs u9 with hu10
  set u11a := subLit 'D' "r.".data "Dottore".data false u10 with hu11a
  set u11b := subLit 'P' "rof.".data "Professore".data false u11a with hu11b
  set u11c := subLit 'S' "ig.".data "Signore".data false u11b with hu11c
  set u11d := subLit 'S' "ig.ra".data "Signora".data false u11c with hu11d
  set u12a := subNum '°' " gradi".data false u11d with hu12a
  set v := subNum '%' " percento".data false u12a with hv
  have s5 : ∀ c ∈ u5, c ∈ u1 := by
    intro c hm
    rw [hu5] at hm
    exact mem_subCtl hm
  have s6 : ∀ c ∈ u6, c ∈ u5 ∨ c ∈ ['.'] := by
    intro c hm
    rw [hu6] at hm
    exact (mem_subEll hm).imp id List.mem_singleton.mpr
  have s7 : ∀ c ∈ u7, c ∈ u6 ∨ c ∈ [quoteChar] := by
    intro c hm
    rw [hu7] at hm
    exact (mem_subQuote hm).imp id List.mem_singleton.mpr
  have s8 : ∀ c ∈ u8, c ∈ u7 ∨ c ∈ [aposChar] := by
    intro c hm
    rw [hu8] at hm
    exact (mem_subApos hm).imp id List.mem_singleton.mpr
  have s9 : ∀ c ∈ u9, c ∈ u8 ∨ c ∈ [' '] := by
    intro c hm
    rw [hu9] at hm
    exact (mem_collapseWs hm).imp id List.mem_singleton.mpr
  have s10 : ∀ c ∈ u10, c ∈ u9 := by
    intro c hm
    rw [hu10] at hm
    exact mem_stripWs hm
  have s11a : ∀ c ∈ u11a, c ∈ u10 ∨ c ∈ "Dottore".data := by
    intro c hm
    rw [hu11a] at hm
    exact mem_subLit hm
  have s11b : ∀ c ∈ u11b, c ∈ u11a ∨ c ∈ "Professore".data := by
    intro c hm
    rw [hu11b] at hm
    exact mem_subLit hm
  have s11c : ∀ c ∈ u11c, c ∈ u11b ∨ c ∈ "Signore".data := by
    intro c hm
    rw [hu11c] at hm
    exact mem_subLit hm
  have s11d : ∀ c ∈ u11d, c ∈ u11c ∨ c ∈ "Signora".data := by
    intro c hm
    rw [hu11d] at hm
    exact mem_subLit hm
  have s12a : ∀ c ∈ u12a, c ∈ u11d ∨ c ∈ " gradi".data := by
    intro c hm
    rw [hu12a] at hm
    exact mem_subNum hm
  have s12b : ∀ c ∈ v, c ∈ u12a ∨ c ∈ " percento".data := by
    intro c hm
    rw [hv] at hm
    exact mem_subNum hm
  -- star-freeness down to v
  have st5 : '*' ∉ u5 := fun hm => hstar1 (s5 _ hm)
  have st6 : '*' ∉ u6 := notMem_step s6 st5 (by decide)
  have st7 : '*' ∉ u7 := notMem_step s7 st6 (by decide)
  have st8 : '*' ∉ u8 := notMem_step s8 st7 (by decide)
  have st9 : '*' ∉ u9 := notMem_step s9 st8 (by decide)
  have st10 : '*' ∉ u10 := fun hm => st9 (s10 _ hm)
  have st11a : '*' ∉ u11a := notMem_step s11a st10 (by decide)
  have st11b : '*' ∉ u11b := notMem_step s11b st11a (by decide)
  have st11c : '*' ∉ u11c := notMem_step s11c st11b (by decide)
  have st11d : '*' ∉ u11d := notMem_step s11d st11c (by decide)
  have st12a : '*' ∉ u12a := notMem_step s12a st11d (by decide)
  have stv : '*' ∉ v := notMem_step s12b st12a (by decide)
  -- backtick-freeness down to v
  have tk5 : tickChar ∉ u5 := fun hm => htick1 (s5 _ hm)
  have tk6 : tickChar ∉ u6 := notMem_step s6 tk5 (by decide)
  have tk7 : tickChar ∉ u7 := notMem_step s7 tk6 (by decide)
  have tk8 : tickChar ∉ u8 := notMem_step s8 tk7 (by decide)
  have tk9 : tickChar ∉ u9 := notMem_step s9 tk8 (by decide)
  have tk10 : tickChar ∉ u10 := fun hm => tk9 (s10 _ hm)
  have tk11a : tickChar ∉ u11a := notMem_step s11a tk10 (by decide)
  have tk11b : tickChar ∉ u11b := notMem_step s11b tk11a (by decide)
  have tk11c : tickChar ∉ u11c := notMem_step s11c tk11b (by decide)
  have tk11d : tickChar ∉ u11d := notMem_step s11d tk11c (by decide)
  have tk12a : tickChar ∉ u12a := notMem_step s12a tk11d (by decide)
  have tkv : tickChar ∉ v := notMem_step s12b tk12a (by decide)
  -- control-character freeness down to v
  have ct5 : ∀ c ∈ u5, isCtl c = false := by
    intro c hm
    rw [hu5] at hm
    exact subCtl_no_ctl u1 c hm
  have ct6 := allProp_step s6 ct5 (by decide)
  have ct7 := allProp_step s7 ct6 (by decide)
  have ct8 := allProp_step s8 ct7 (by decide)
  have ct9 := allProp_step s9 ct8 (by decide)
  have ct10 : ∀ c ∈ u10, isCtl c = false := fun c hm => ct9 c (s10 c hm)
  have ct11a := allProp_step s11a ct10 (by decide)
  have ct11b := allProp_step s11b ct11a (by decide)
  have ct11c := allProp_step s11c ct11b (by decide)
  have ct11d := allProp_step s11d ct11c (by decide)
  have ct12a := allProp_step s12a ct11d (by decide)
  have ctv : ∀ c ∈ v, isCtl c = false := allProp_step s12b ct12a (by decide)
  -- ellipsis freeness down to v
  have el6 : '…' ∉ u6 := by
    rw [hu6]
    exact subEll_no_ell u5
  have el7 : '…' ∉ u7 := notMem_step s7 el6 (by decide)
  have el8 : '…' ∉ u8 := notMem_step s8 el7 (by decide)
  have el9 : '…' ∉ u9 := notMem_step s9 el8 (by decide)
  have el10 : '…' ∉ u10 := fun hm => el9 (s10 _ hm)
  have el11a : '…' ∉ u11a := notMem_step s11a el10 (by decide)
  have el11b : '…' ∉ u11b := notMem_step s11b el11a (by decide)
  have el11c : '…' ∉ u11c := notMem_step s11c el11b (by decide)
  have el11d : '…' ∉ u11d := notMem_step s11d el11c (by decide)
  have el12a : '…' ∉ u12a := notMem_step s12a el11d (by decide)
  have elv : '…' ∉ v := notMem_step s12b el12a (by decide)
  -- smart-double-quote freeness down to v
  have q7 : ∀ c ∈ u7, c ≠ '“' ∧ c ≠ '”' := by
    intro c hm
    rw [hu7] at hm
    exact subQuote_no_smart u6 c hm
  have q8 := allProp_step s8 q7 (by decide)
  have q9 := allProp_step s9 q8 (by decide)
  have q10 : ∀ c ∈ u10, c ≠ '“' ∧ c ≠ '”' := fun c hm => q9 c (s10 c hm)
  have q11a := allProp_step s11a q10 (by decide)
  have q11b := allProp_step s11b q11a (by decide)
  have q11c := allProp_step s11c q11b (by decide)
  have q11d := allProp_step s11d q11c (by decide)
  have q12a := allProp_step s12a q11d (by decide)
  have qv : ∀ c ∈ v, c ≠ '“' ∧ c ≠ '”' := allProp_step s12b q12a (by decide)
  -- smart-apostrophe freeness down to v
  have ap8 : ∀ c ∈ u8, c ≠ '‘' ∧ c ≠ '’' := by
    intro c hm
    rw [hu8] at hm
    exact subApos_no_smart u7 c hm
  have ap9 := allProp_step s9 ap8 (by decide)
  have ap10 : ∀ c ∈ u10, c ≠ '‘' ∧ c ≠ '’' := fun c hm => ap9 c (s10 c hm)
  have ap11a := allProp_step s11a ap10 (by decide)
  have ap11b := allProp_step s11b ap11a (by decide)
  have ap11c := allProp_step s11c ap11b (by decide)
  have ap11d := allProp_step s11d ap11c (by decide)
  have ap12a := allProp_step s12a ap11d (by decide)
  have apv : ∀ c ∈ v, c ≠ '‘' ∧ c ≠ '’' := allProp_step s12b ap12a (by decide)
  -- tagOk down to v
  have t1 : tagOk u1 = true := by
    rw [hu1]
    exact tagOk_subTags d
  have t5 : tagOk u5 = true := by
    rw [hu5]
    exact edited_tagOk ctlPair_tag_cond (edited_subCtl u1) t1
  have t6 : tagOk u6 = true := by
    rw [hu6]
    exact edited_tagOk ellPair_tag_cond (edited_subEll u5) t5
  have t7 : tagOk u7 = true := by
    rw [hu7]
    exact edited_tagOk quotePair_tag_cond (edited_subQuote u6) t6
  have t8 : tagOk u8 = true := by
    rw [hu8]
    exact edited_tagOk aposPair_tag_cond (edited_subApos u7) t7
  have t9 : tagOk u9 = true := by
    rw [hu9]
    exact edited_tagOk collPair_tag_cond (edited_collapseWs u8) t8
  have t10 : tagOk u10 = true := by
    rw [hu10]
    exact edited_tagOk stripPair_tag_cond (edited_stripWs u9) t9
  have t11a : tagOk u11a = true := by
    rw [hu11a]
    exact edited_tagOk (litPair_tag_cond _ _ (by decide) (by decide) (by decide))
      (edited_subLit 'D' "r.".data "Dottore".data false u10) t10
  have t11b : tagOk u11b = true := by
    rw [hu11b]
    exact edited_tagOk (litPair_tag_cond _ _ (by decide) (by decide) (by decide))
      (edited_subLit 'P' "rof.".data "Professore".data false u11a) t11a
  have t11c : tagOk u11c = true := by
    rw [hu11c]
    exact edited_tagOk (litPair_tag_cond _ _ (by decide) (by decide) (by decide))
      (edited_subLit 'S' "ig.".data "Signore".data false u11b) t11b
  have t11d : tagOk u11d = true := by
    rw [hu11d]
    exact edited_tagOk (litPair_tag_cond _ _ (by decide) (by decide) (by decide))
      (edited_subLit 'S' "ig.ra".data "Signora".data false u11c) t11c
  have t12a : tagOk u12a = true := by
    rw [hu12a]
    exact edited_tagOk (numPair_tag_cond '°' " gradi".data (by decide) (by decide)
      (by decide) (by decide) (by decide))
      (edited_subNum '°' " gradi".data false u11d) t11d
  have tv : tagOk v = true := by
    rw [hv]
    exact edited_tagOk (numPair_tag_cond '%' " percento".data (by decide) (by decide)
      (by decide) (by decide) (by decide))
      (edited_subNum '%' " percento".data false u12a) t12a
  -- wsOk down to v
  have w9 : wsOk u9 = true := by
    rw [hu9]
    exact wsOk_collapseWs u8
  have w10 : wsOk u10 = true := by
    rw [hu10]
    exact wsOk_stripWs u9 w9
  have w11a : wsOk u11a = true := by
    rw [hu11a]
    exact edited_wsOk (litPair_ws_cond _ _ (by decide) (by decide) (by decide) (by decide))
      (edited_subLit 'D' "r.".data "Dottore".data false u10) w10
  have w11b : wsOk u11b = true := by
    rw [hu11b]
    exact edited_wsOk (litPair_ws_cond _ _ (by decide) (by decide) (by decide) (by decide))
      (edited_subLit 'P' "rof.".data "Professore".data false u11a) w11a
  have w11c : wsOk u11c = true := by
    rw [hu11c]
    exact edited_wsOk (litPair_ws_cond _ _ (by decide) (by decide) (by decide) (by decide))
      (edited_subLit 'S' "ig.".data "Signore".data false u11b) w11b
  have w11d : wsOk u11d = true := by
    rw [hu11d]
    exact edited_wsOk (litPair_ws_cond _ _ (by decide) (by decide) (by decide) (by decide))
      (edited_subLit 'S' "ig.ra".data "Signora".data false u11c) w11c
  have w12a : wsOk u12a = true := by
    rw [hu12a]
    exact edited_wsOk (numPair_ws_cond '°' " gradi".data (by decide) (by decide) (by decide))
      (edited_subNum '°' " gradi".data false u11d) w11d
  have wv : wsOk v = true := by
    rw [hv]
    exact edited_wsOk (numPair_ws_cond '%' " percento".data (by decide) (by decide) (by decide))
      (edited_subNum '%' " percento".data false u12a) w12a
  -- edgeOk down to v
  have e10 : edgeOk u10 = true := by
    rw [hu10]
    exact edgeOk_stripWs u9
  have e11a : edgeOk u11a = true := by
    rw [hu11a]
    exact edited_edgeOk (ws_cond_to_edge (litPair_ws_cond _ _ (by decide) (by decide)
      (by decide) (by decide)))
      (edited_subLit 'D' "r.".data "Dottore".data false u10) e10
  have e11b : edgeOk u11b = true := by
    rw [hu11b]
    exact edited_edgeOk (ws_cond_to_edge (litPair_ws_cond _ _ (by decide) (by decide)
      (by decide) (by decide)))
      (edited_subLit 'P' "rof.".data "Professore".data false u11a) e11a
  have e11c : edgeOk u11c = true := by
    rw [hu11c]
    exact edited_edgeOk (ws_cond_to_edge (litPair_ws_cond _ _ (by decide) (by decide)
      (by decide) (by decide)))
      (edited_subLit 'S' "ig.".data "Signore".data false u11b) e11b
  have e11d : edgeOk u11d = true := by
    rw [hu11d]
    exact edited_edgeOk (ws_cond_to_edge (litPair_ws_cond _ _ (by decide) (by decide)
      (by decide) (by decide)))
      (edited_subLit 'S' "ig.ra".data "Signora".data false u11c) e11c
  have e12a : edgeOk u12a = true := by
    rw [hu12a]
    exact edited_edgeOk (ws_cond_to_edge (numPair_ws_cond '°' " gradi".data (by decide)
      (by decide) (by decide)))
      (edited_subNum '°' " gradi".data false u11d) e11d
  have ev : edgeOk v = true := by
    rw [hv]
    exact edited_edgeOk (ws_cond_to_edge (numPair_ws_cond '%' " percento".data (by decide)
      (by decide) (by decide)))
      (edited_subNum '%' " percento".data false u12a) e12a
  -- litOk for the Dr. pattern down to v
  have fam1w : ∀ w ∈ ('D' :: "r.".data).tails, w ≠ [] →
      isPre w "Dottore".data = false ∧ isPre "Dottore".data w = false := by decide
  have fam1y : ∀ y ∈ "Dottore".data.tails, y ≠ [] →
      isPre ('D' :: "r.".data) y = false ∧ isPre y ('D' :: "r.".data) = false := by decide
  have l1_11a : litOk ('D' :: "r.".data) false u11a = true := by
    rw [hu11a]
    exact litOk_subLit 'D' "r.".data "Dottore".data (by decide)
      (pyWord_getLast_of 'e' (by decide) (by decide))
      (fun w hw hsuf => fam1w w ((List.mem_tails _ _).mpr hsuf) hw)
      (fun y hy hsuf => fam1y y ((List.mem_tails _ _).mpr hsuf) hy) false u10
  have l1_11b : litOk ('D' :: "r.".data) false u11b = true := by
    rw [hu11b]
    exact edited_litOk
      (litPair_lit_cond ('P' :: "rof.".data) ('D' :: "r.".data) "Professore".data
        (by decide) (pyWord_getLast_of 'e' (by decide) (by decide)) (by decide) (by decide))
      (edited_subLit 'P' "rof.".data "Professore".data false u11a) false false l1_11a (Or.inl rfl)
  have l1_11c : litOk ('D' :: "r.".data) false u11c = true := by
    rw [hu11c]
    exact edited_litOk
      (litPair_lit_cond ('S' :: "ig.".data) ('D' :: "r.".data) "Signore".data
        (by decide) (pyWord_getLast_of 'e' (by decide) (by decide)) (by decide) (by decide))
      (edited_subLit 'S' "ig.".data "Signore".data false u11b) false false l1_11b (Or.inl rfl)
  have l1_11d : litOk ('D' :: "r.".data) false u11d = true := by
    rw [hu11d]
    exact edited_litOk
      (litPair_lit_cond ('S' :: "ig.ra".data) ('D' :: "r.".data) "Signora".data
        (by decide) (pyWord_getLast_of 'a' (by decide) (by decide)) (by decide) (by decide))
      (edited_subLit 'S' "ig.ra".data "Signora".data false u11c) false false l1_11c (Or.inl rfl)
  have l1_12a : litOk ('D' :: "r.".data) false u12a = true := by
    rw [hu12a]
    exact edited_litOk
      (litOk_numPair_cond ('D' :: "r.".data) '°' " gradi".data (by decide) (by decide)
        (by decide) (heads_nodigit_of_chars (by decide)) (by decide))
      (edited_subNum '°' " gradi".data false u11d) false false l1_11d (Or.inl rfl)
  have l1v : litOk ('D' :: "r.".data) false v = true := by
    rw [hv]
    exact edited_litOk
      (litOk_numPair_cond ('D' :: "r.".data) '%' " percento".data (by decide) (by decide)
        (by decide) (heads_nodigit_of_chars (by decide)) (by decide))
      (edited_subNum '%' " percento".data false u12a) false false l1_12a (Or.inl rfl)
  -- litOk for the Prof. pattern down to v
  have fam2w : ∀ w ∈ ('P' :: "rof.".data).tails, w ≠ [] →
      isPre w "Professore".data = false ∧ isPre "Professore".data w = false := by decide
  have fam2y : ∀ y ∈ "Professore".data.tails, y ≠ [] →
      isPre ('P' :: "rof.".data) y = false ∧ isPre y ('P' :: "rof.".data) = false := by decide
  have l2_11b : litOk ('P' :: "rof.".data) false u11b = true := by
    rw [hu11b]
    exact litOk_subLit 'P' "rof.".data "Professore".data (by decide)
      (pyWord_getLast_of 'e' (by decide) (by decide))
      (fun w hw hsuf => fam2w w ((List.mem_tails _ _).mpr hsuf) hw)
      (fun y hy hsuf => fam2y y ((List.mem_tails _ _).mpr hsuf) hy) false u11a
  have l2_11c : litOk ('P' :: "rof.".data) false u11c = true := by
    rw [hu11c]
    exact edited_litOk
      (litPair_lit_cond ('S' :: "ig.".data) ('P' :: "rof.".data) "Signore".data
        (by decide) (pyWord_getLast_of 'e' (by decide) (by decide)) (by decide) (by decide))
      (edited_subLit 'S' "ig.".data "Signore".data false u11b) false false l2_11b (Or.inl rfl)
  have l2_11d : litOk ('P' :: "rof.".data) false u11d = true := by
    rw [hu11d]
    exact edited_litOk
      (litPair_lit_cond ('S' :: "ig.ra".data) ('P' :: "rof.".data) "Signora".data
        (by decide) (pyWord_getLast_of 'a' (by decide) (by decide)) (by decide) (by decide))
      (edited_subLit 'S' "ig.ra".data "Signora".data false u11c) false false l2_11c (Or.inl rfl)
  have l2_12a : litOk ('P' :: "rof.".data) false u12a = true := by
    rw [hu12a]
    exact edited_litOk
      (litOk_numPair_cond ('P' :: "rof.".data) '°' " gradi".data (by decide) (by decide)
        (by decide) (heads_nodigit_of_chars (by decide)) (by decide))
      (edited_subNum '°' " gradi".data false u11d) false false l2_11d (Or.inl rfl)
  have l2v : litOk ('P' :: "rof.".data) false v = true := by
    rw [hv]
    exact edited_litOk
      (litOk_numPair_cond ('P' :: "rof.".data) '%' " percento".data (by decide) (by decide)
        (by decide) (heads_nodigit_of_chars (by decide)) (by decide))
      (edited_subNum '%' " percento".data false u12a) false false l2_12a (Or.inl rfl)
  -- litOk for the Sig. pattern down to v
  have fam3w : ∀ w ∈ ('S' :: "ig.".data).tails, w ≠ [] →
      isPre w "Signore".data = false ∧ isPre "Signore".data w = false := by decide
  have fam3y : ∀ y ∈ "Signore".data.tails, y ≠ [] →
      isPre ('S' :: "ig.".data) y = false ∧ isPre y ('S' :: "ig.".data) = false := by decide
  have l3_11c : litOk ('S' :: "ig.".data) false u11c = true := by
    rw [hu11c]
    exact litOk_subLit 'S' "ig.".data "Signore".data (by decide)
      (pyWord_getLast_of 'e' (by decide) (by decide))
      (fun w hw hsuf => fam3w w ((List.mem_tails _ _).mpr hsuf) hw)
      (fun y hy hsuf => fam3y y ((List.mem_tails _ _).mpr hsuf) hy) false u11b
  have l3_11d : litOk ('S' :: "ig.".data) false u11d = true := by
    rw [hu11d]
    exact edited_litOk
      (litPair_lit_cond ('S' :: "ig.ra".data) ('S' :: "ig.".data) "Signora".data
        (by decide) (pyWord_getLast_of 'a' (by decide) (by decide)) (by decide) (by decide))
      (edited_subLit 'S' "ig.ra".data "Signora".data false u11c) false false l3_11c (Or.inl rfl)
  have l3_12a : litOk ('S' :: "ig.".data) false u12a = true := by
    rw [hu12a]
    exact edited_litOk
      (litOk_numPair_cond ('S' :: "ig.".data) '°' " gradi".data (by decide) (by decide)
        (by decide) (heads_nodigit_of_chars (by decide)) (by decide))
      (edited_subNum '°' " gradi".data false u11d) false false l3_11d (Or.inl rfl)
  have l3v : litOk ('S' :: "ig.".data) false v = true := by
    rw [hv]
    exact edited_litOk
      (litOk_numPair_cond ('S' :: "ig.".data) '%' " percento".data (by decide) (by decide)
        (by decide) (heads_nodigit_of_chars (by decide)) (by decide))
      (edited_subNum '%' " percento".data false u12a) false false l3_12a (Or.inl rfl)
  -- litOk for the Sig.ra pattern down to v
  have fam4w : ∀ w ∈ ('S' :: "ig.ra".data).tails, w ≠ [] →
      isPre w "Signora".data = false ∧ isPre "Signora".data w = false := by decide
  have fam4y : ∀ y ∈ "Signora".data.tails, y ≠ [] →
      isPre ('S' :: "ig.ra".data) y = false ∧ isPre y ('S' :: "ig.ra".data) = false := by decide
  have l4_11d : litOk ('S' :: "ig.ra".data) false u11d = true := by
    rw [hu11d]
    exact litOk_subLit 'S' "ig.ra".data "Signora".data (by decide)
      (pyWord_getLast_of 'a' (by decide) (by decide))
      (fun w hw hsuf => fam4w w ((List.mem_tails _ _).mpr hsuf) hw)
      (fun y hy hsuf => fam4y y ((List.mem_tails _ _).mpr hsuf) hy) false u11c
  have l4_12a : litOk ('S' :: "ig.ra".data) false u12a = true := by
    rw [hu12a]
    exact edited_litOk
      (litOk_numPair_cond ('S' :: "ig.ra".data) '°' " gradi".data (by decide) (by decide)
        (by decide) (heads_nodigit_of_chars (by decide)) (by decide))
      (edited_subNum '°' " gradi".data false u11d) false false l4_11d (Or.inl rfl)
  have l4v : litOk ('S' :: "ig.ra".data) false v = true := by
    rw [hv]
    exact edited_litOk
      (litOk_numPair_cond ('S' :: "ig.ra".data) '%' " percento".data (by decide) (by decide)
        (by decide) (heads_nodigit_of_chars (by decide)) (by decide))
      (edited_subNum '%' " percento".data false u12a) false false l4_12a (Or.inl rfl)
  -- numOk for the degree pattern down to v
  have n1a : numOk '°' false u12a = true := by
    rw [hu12a]
    exact numOk_subNum '°' " gradi".data (by decide) (by decide) (by decide)
      (pyWord_getLast_of 'i' (by decide) (by decide)) (by decide) false u11d
  have n1v : numOk '°' false v = true := by
    rw [hv]
    exact edited_numOk
      (numPair_num_cond '°' '%' " percento".data (by decide) (by decide) (by decide)
        (by decide) (by decide))
      (edited_subNum '%' " percento".data false u12a) false false n1a (Or.inl rfl)
  have n2v : numOk '%' false v = true := by
    rw [hv]
    exact numOk_subNum '%' " percento".data (by decide) (by decide) (by decide)
      (pyWord_getLast_of 'o' (by decide) (by decide)) (by decide) false u12a
  -- second application of the pipeline is the identity on v
  unfold cleanList
  rw [subTags_id v tv, subBold_id v stv, subItalic_id v stv, subDelim_id tickChar v tkv,
    subCtl_id v ctv, subEll_id v elv, subQuote_id v qv, subApos_id v apv,
    collapseWs_id v wv, stripWs_id v ev,
    subLit_id 'D' "r.".data "Dottore".data v false l1v,
    subLit_id 'P' "rof.".data "Professore".data v false l2v,
    subLit_id 'S' "ig.".data "Signore".data v false l3v,
    subLit_id 'S' "ig.ra".data "Signora".data v false l4v,
    subNum_id '°' " gradi".data v false n1v,
    subNum_id '%' " percento".data v false n2v]

/-- C2 (amended): text normalization restricted to inputs containing neither
an asterisk nor a backtick is idempotent: for every such string `T`,
`clean_text(clean_text(T)) = clean_text(T)`.  (The unrestricted claim fails,
see the counterexample: the markdown star passes can leave re-matchable star
pairs.) -/
theorem clean_text_idempotent_amended (s : String) (hstar : '*' ∉ s.data)
    (htick : tickChar ∉ s.data) : cleanText (cleanText s) = cleanText s := by
  by_cases hnil : s.data = []
  · have h1 : cleanText s = "" := by rw [cleanText, if_pos hnil]
    rw [h1]
    rfl
  · have hidem := cleanList_idem s.data hstar htick
    have h1 : cleanText s = String.mk (cleanList s.data) := by
      rw [cleanText, if_neg hnil]
    rw [h1]
    generalize hL : cleanList s.data = L at hidem ⊢
    unfold cleanText
    by_cases h2 : (String.mk L).data = []
    · rw [if_pos h2]
      have h3 : L = [] := h2
      rw [show String.mk L = "" from by rw [h3]]
    · rw [if_neg h2]
      have h3 : (String.mk L).data = L := rfl
      rw [h3, hidem]

set_option maxHeartbeats 2000000 in
/-- C2 witness: the amended idempotence theorem applied to a concrete
star-free, backtick-free input. -/
theorem clean_text_idempotent_amended_witness :
    ('*' ∉ "Vieni qui,  Dr. Rossi: sono le 5° e il 10%...".data) ∧
    (tickChar ∉ "Vieni qui,  Dr. Rossi: sono le 5° e il 10%...".data) ∧
    cleanText (cleanText "Vieni qui,  Dr. Rossi: sono le 5° e il 10%...") =
      cleanText "Vieni qui,  Dr. Rossi: sono le 5° e il 10%..." :=
  ⟨by decide, by decide,
    clean_text_idempotent_amended _ (by decide) (by decide)⟩
